import Mathlib

/-!
# libcsl: the TLV property store (`Property_sequence`) over a memory region

Shallow embedding of `include/csl/util/property_sequence.h` and of the parts of
`include/csl/util/data_descriptor.h` and `include/csl/util/assert.h` it uses.

Modelling decisions.

* Memory is one flat byte-addressed map `Mem := Nat → Nat`.  A `Data_descriptor`
  is an address and a length, as in the source; nothing is owned.
* `W` is `sizeof(size_t)` in bytes (4 or 8 on the targets of the library).
  `struct item { uint8_t type; size_t size; uint8_t data[]; }` is laid out with
  natural alignment: `type` at offset 0, `size` at offset `W`, `data` at offset
  `sizeof(item) = 2 * W`.  `size` is stored little-endian.
* Arithmetic on `size_t` and on pointers wraps modulo `2 ^ (8 * W)`; this holds for the
  Region algebra of `Data_descriptor_template` (`in`, `sub`, `sub_range`, `truncate`, `strip`,
  `tail`) as well, whose `cslassert`s only log and do not change the value returned.
* `cslassert(e)` (assert.h) only logs when `e` is false and execution goes on;
  the log is modelled as a list of the assertions that failed.
* `fthrow<Exception>(..)` ends the call; it is modelled as an outcome.
* Loops that walk the records take a fuel argument: on arbitrary bytes the walk
  of the source need not end.
-/

namespace Csl

/-! ## Memory -/

/-- Byte-addressed memory: address to byte value. -/
abbrev Mem := Nat → Nat

/-- Number of values of `size_t` when `sizeof(size_t) = W`. -/
def wordMod (W : Nat) : Nat := 2 ^ (8 * W)

/-- Store one byte. -/
def write (m : Mem) (a v : Nat) : Mem := fun x => if x = a then v else m x

/-- Load an `n`-byte little-endian unsigned integer at address `a`. -/
def readWord (m : Mem) : Nat → Nat → Nat
  | _, 0 => 0
  | a, n + 1 => m a + 256 * readWord m (a + 1) n

/-- Store `v` as an `n`-byte little-endian unsigned integer at address `a`. -/
def writeWord : Mem → Nat → Nat → Nat → Mem
  | m, _, _, 0 => m
  | m, a, v, n + 1 => writeWord (write m a (v % 256)) (a + 1) (v / 256) n

/-- Modelled from the spec: `Genode::memset( dst, v, n )`, the fill primitive of the Genode base
library, which is not part of the repository: the `n` bytes from `dst` on become `v`. -/
def memset (m : Mem) (dst v n : Nat) : Mem :=
  fun x => if dst ≤ x ∧ x < dst + n then v else m x

/-- Modelled from the spec: `Genode::memcpy( dst, src, n )`, the byte-exact copy primitive of
the Genode base library, which is not part of the repository: byte `dst + k` receives the byte
that was at `src + k`, for `k < n`. -/
def memcpy (m : Mem) (dst src n : Nat) : Mem :=
  fun x => if dst ≤ x ∧ x < dst + n then m (src + (x - dst)) else m x

/-- The `n` bytes at addresses `a, a + 1, ..`. -/
def readBytes (m : Mem) (a n : Nat) : List Nat := (List.range n).map (fun k => m (a + k))

/-! ## assert.h, exception.h -/

/-- The `cslassert` expressions of `Property_sequence` and of `nullify`.  A failed assertion is
logged (`ALOG`) and the function carries on. -/
inductive Assertion
  | valid
  | p_ne_LAST
  | mem_end_ge_item_end
  | p_ne_0
  | p_ne_type
  deriving DecidableEq, Repr

/-- The `Exception`s thrown by `Property_sequence`, told apart by their message. -/
inductive Exception
  | Property_not_found
  | Not_enough_space_for_data
  | Not_enough_space_for_tail
  deriving DecidableEq, Repr

/-- How a call ends: it returns, it throws, or the fuel given to its loop ran out. -/
inductive Outcome (α : Type)
  | ret (a : α)
  | thrown (e : Exception)
  | no_fuel
  deriving DecidableEq, Repr

/-- The `Out_of_space` of the specification: either of the two "Not enough space" exceptions. -/
def Outcome.out_of_space {α : Type} : Outcome α → Bool
  | .thrown .Not_enough_space_for_data => true
  | .thrown .Not_enough_space_for_tail => true
  | _ => false

/-- The `Not_found` of the specification: the "Property not found" exception. -/
def Outcome.not_found {α : Type} : Outcome α → Bool
  | .thrown .Property_not_found => true
  | _ => false

/-- The call returned normally. -/
def Outcome.returned {α : Type} : Outcome α → Bool
  | .ret _ => true
  | _ => false

/-! ## data_descriptor.h -/

/-- Class `Data_descriptor_template<T>`: a pointer (`0` is `nullptr`) and a size. -/
structure Data_descriptor_template where
  _data : Nat
  _size : Nat
  deriving DecidableEq, Repr

/-- Source: `typedef Data_descriptor_template<const uint8_t *> Data_descriptor`. -/
abbrev Data_descriptor := Data_descriptor_template

/-- Source: `typedef Data_descriptor_template<uint8_t *> Data_descriptor_mod`. -/
abbrev Data_descriptor_mod := Data_descriptor_template

/-- The `cslassert` expressions of `data_descriptor.h` and of `shared_settings.h` that are
modelled.  A failed assertion is logged (`ALOG`) and the function carries on. -/
inductive Region_assertion
  | valid
  | s_le_size
  | in_rest
  | in_result
  | target_valid
  | source_valid
  | target_size_ge_source_size
  | a_valid
  | b_valid
  deriving DecidableEq, Repr

namespace Data_descriptor_template

/-- Method `valid()`: `nullptr != _data`. -/
def valid (d : Data_descriptor_template) : Bool := d._data != 0

/-- Method `data()` (its `cslassert( valid() )` only logs). -/
def data (d : Data_descriptor_template) : Nat := d._data

/-- Method `size()` (its `cslassert( valid() )` only logs). -/
def size (d : Data_descriptor_template) : Nat := d._size

/-- Method `end()`: `reinterpret_cast<size_t>( _data ) + _size`, in `size_t`. -/
def end_ (W : Nat) (d : Data_descriptor_template) : Nat := (d._data + d._size) % wordMod W

/-- Method `nullify()`: `cslassert( valid() ); Genode::memset( _data, 0, _size ); return *this;`.
Returns the new memory, the failed assertions and the descriptor. -/
def nullify (d : Data_descriptor_template) (m : Mem) :
    Mem × List Assertion × Data_descriptor_template :=
  (memset m d._data 0 d._size, (if d.valid then [] else [Assertion.valid]), d)

/-- Default constructor `Data_descriptor_template()`: `_data( nullptr ), _size( 0 )`. -/
def null : Data_descriptor_template := ⟨0, 0⟩

/-- Pointer plus `size_t`, as in `_data + _size`: the sum wraps in the address width. -/
def ptr_add (W a n : Nat) : Nat := (a + n) % wordMod W

/-- Difference of two `size_t` values, or of two pointers converted to `size_t`, as in
`rest.data() - _data` and `_size - ( .. )`: the difference wraps in the address width. -/
def size_sub (W a b : Nat) : Nat := (a + wordMod W - b % wordMod W) % wordMod W

/-- Sum of two `size_t` values, as in `( right.data() - left.data() ) + right.size()`. -/
def size_add (W a b : Nat) : Nat := (a + b) % wordMod W

/-- Method `in( other )`: `valid() && other.valid() && _data <= other.data() &&`
`( other.data() + other.size() ) <= ( _data + _size )`. -/
def in_ (W : Nat) (d other : Data_descriptor_template) : Bool :=
  d.valid && other.valid && decide (d._data ≤ other.data) &&
    decide (ptr_add W other.data other.size ≤ ptr_add W d._data d._size)

/-- Method `sub( offset, s )`: `Data_descriptor_template( offset.data()+offset.size(), s )`.
Its two `cslassert`s only log. -/
def sub (W : Nat) (_d offset : Data_descriptor_template) (s : Nat) : Data_descriptor_template :=
  ⟨ptr_add W offset.data offset.size, s⟩

/-- Method `right_adjecent_to( other )`: `_data+size() == other.data()`. -/
def right_adjecent_to (W : Nat) (d other : Data_descriptor_template) : Bool :=
  ptr_add W d._data d.size == other.data

/-- Method `sub_range( left, right )`:
`Data_descriptor_template( left.data(), ( right.data() - left.data() ) + right.size() )`.
Its two `cslassert`s only log. -/
def sub_range (W : Nat) (_d left right : Data_descriptor_template) : Data_descriptor_template :=
  ⟨left.data, size_add W (size_sub W right.data left.data) right.size⟩

/-- Method `truncate( inner )`:
`Data_descriptor_template( _data, inner.data() - _data + inner.size() )`.
Its `cslassert` only logs. -/
def truncate (W : Nat) (d inner : Data_descriptor_template) : Data_descriptor_template :=
  ⟨d._data, size_add W (size_sub W inner.data d._data) inner.size⟩

/-- Method `strip( rest )`: `Data_descriptor_template( _data, rest.data() - _data )`.
Its `cslassert` only logs. -/
def strip (W : Nat) (d rest : Data_descriptor_template) : Data_descriptor_template :=
  ⟨d._data, size_sub W rest.data d._data⟩

/-- Method `tail( rest )`: `result( rest.data() + rest.size(),`
`_size - ( ( rest.data() - _data ) + rest.size() ) )`.  Its two `cslassert`s only log. -/
def tail (W : Nat) (d rest : Data_descriptor_template) : Data_descriptor_template :=
  ⟨ptr_add W rest.data rest.size,
    size_sub W d._size (size_add W (size_sub W rest.data d._data) rest.size)⟩

/-- Method `advance( s )`: `cslassert( s <= _size );`
`return Data_descriptor_template( _data + s, _size - s );`, the value returned. -/
def advance (W : Nat) (d : Data_descriptor_template) (s : Nat) : Data_descriptor_template :=
  ⟨ptr_add W d._data s, size_sub W d._size s⟩

/-- The assertions that `advance( s )` logs: `s <= _size`, and `valid()` in the constructor of
the result. -/
def advance_asserts (W : Nat) (d : Data_descriptor_template) (s : Nat) : List Region_assertion :=
  (if s ≤ d._size then [] else [Region_assertion.s_le_size]) ++
    (if (advance W d s).valid then [] else [Region_assertion.valid])

/-- Method `subtract( s )`: `cslassert( valid() ); cslassert( s <= _size );`
`return Data_descriptor_template( _data, _size - s );`, the value returned. -/
def subtract (W : Nat) (d : Data_descriptor_template) (s : Nat) : Data_descriptor_template :=
  ⟨d._data, size_sub W d._size s⟩

/-- The assertions that `subtract( s )` logs: `valid()`, `s <= _size`, and `valid()` in the
constructor of the result. -/
def subtract_asserts (W : Nat) (d : Data_descriptor_template) (s : Nat) :
    List Region_assertion :=
  (if d.valid then [] else [Region_assertion.valid]) ++
    (if s ≤ d._size then [] else [Region_assertion.s_le_size]) ++
    (if (subtract W d s).valid then [] else [Region_assertion.valid])

/-- Method `reduce( s )`: `cslassert( valid() ); cslassert( s <= _size );`
`return Data_descriptor_template( _data, s );`, the value returned. -/
def reduce (d : Data_descriptor_template) (s : Nat) : Data_descriptor_template :=
  ⟨d._data, s⟩

/-- The assertions that `reduce( s )` logs: `valid()`, `s <= _size`, and `valid()` in the
constructor of the result. -/
def reduce_asserts (d : Data_descriptor_template) (s : Nat) : List Region_assertion :=
  (if d.valid then [] else [Region_assertion.valid]) ++
    (if s ≤ d._size then [] else [Region_assertion.s_le_size]) ++
    (if (reduce d s).valid then [] else [Region_assertion.valid])

/-- The assertions that `tail( rest )` logs: `in( rest )`, `valid()` in the constructor of the
result, and the postcondition `in( result )`. -/
def tail_asserts (W : Nat) (d rest : Data_descriptor_template) : List Region_assertion :=
  (if d.in_ W rest then [] else [Region_assertion.in_rest]) ++
    (if (tail W d rest).valid then [] else [Region_assertion.valid]) ++
    (if d.in_ W (tail W d rest) then [] else [Region_assertion.in_result])

/-- The byte range of the descriptor lies inside the address space: its end address is a
pointer value, without wrapping. -/
def in_space (W : Nat) (d : Data_descriptor_template) : Prop := d._data + d._size < wordMod W

/-- Whether `in_space` holds can be computed. -/
instance in_space.decidable (W : Nat) (d : Data_descriptor_template) :
    Decidable (in_space W d) :=
  inferInstanceAs (Decidable (d._data + d._size < wordMod W))

end Data_descriptor_template

/-- Modelled from the spec: `Genode::memcmp( p0, p1, size )`, a primitive of the Genode base
library, which is not part of the repository.  It compares the two blocks byte by byte, as
unsigned values (the lexicographic compare of the specification), and returns the difference
of the first pair of bytes that differ, or 0 when there is none. -/
def memcmp (m : Mem) : Nat → Nat → Nat → Int
  | _, _, 0 => 0
  | p0, p1, n + 1 =>
    if m p0 ≠ m p1 then (m p0 : Int) - (m p1 : Int) else memcmp m (p0 + 1) (p1 + 1) n

/-- Function `Csl::memcpy( target, source )`: `cslassert( target.valid() );`
`cslassert( source.valid() ); cslassert( target.size() >= source.size() );`
`Genode::memcpy( target.data(), source.data(), source.size() );`.  Returns the new memory and
the failed assertions. -/
def descriptor_memcpy (m : Mem) (target : Data_descriptor_mod) (source : Data_descriptor) :
    Mem × List Region_assertion :=
  (memcpy m target.data source.data source.size,
    (if target.valid then [] else [Region_assertion.target_valid]) ++
    (if source.valid then [] else [Region_assertion.source_valid]) ++
    (if target.size ≥ source.size then [] else [Region_assertion.target_size_ge_source_size]))

/-- Function `Csl::memcmp( a, b )`: `cslassert( a.valid() ); cslassert( b.valid() );`
`return Genode::memcmp( a.data(), b.data(), b.size() );`.  Returns the value and the failed
assertions. -/
def descriptor_memcmp (m : Mem) (a b : Data_descriptor) : Int × List Region_assertion :=
  (memcmp m a.data b.data b.size,
    (if a.valid then [] else [Region_assertion.a_valid]) ++
    (if b.valid then [] else [Region_assertion.b_valid]))

/-- Lexicographic order on byte strings, as the claim words it: `xs` is smaller than `ys` when
at the first position where they differ the byte of `xs` is the smaller one, or when `xs` ends
first. -/
def lex_lt : List Nat → List Nat → Prop
  | [], [] => False
  | [], _ :: _ => True
  | _ :: _, [] => False
  | x :: xs, y :: ys => x < y ∨ (x = y ∧ lex_lt xs ys)

/-! ## property_sequence.h -/

/-- Constant `Property_sequence::LAST`. -/
def LAST : Nat := 0

/-- Value of `sizeof( item )`: one `size_t` slot holding `type` and padding, one holding `size`. -/
def hdr (W : Nat) : Nat := 2 * W

namespace item

/-- Field `this->type`, the byte at offset 0. -/
def type (m : Mem) (this : Nat) : Nat := m this

/-- Field `this->size`, the `size_t` at offset `W`. -/
def size (W : Nat) (m : Mem) (this : Nat) : Nat := readWord m (this + W) W

/-- Field `this->data`, the address right after the header. -/
def data (W : Nat) (this : Nat) : Nat := this + hdr W

/-- Method `next()`: `( uint8_t * )this + sizeof( *this ) + size`. -/
def next (W : Nat) (m : Mem) (this : Nat) : Nat := (this + hdr W + size W m this) % wordMod W

/-- The assignment `this->type = p`. -/
def set_type (m : Mem) (this p : Nat) : Mem := write m this p

/-- The assignment `this->size = s`. -/
def set_size (W : Nat) (m : Mem) (this s : Nat) : Mem := writeWord m (this + W) s W

end item

/-- Operator `iterator::operator!=` against `end()`.  `end()` points at the static item `L = { LAST, 0 }`,
so `r.value->type == LAST` always holds and the first branch answers `false` exactly when
`value->type == LAST`; otherwise `value != r.value` is `true`, since `value` then points at an
item whose type is not `LAST` and `r.value` at one whose type is. -/
def iterator_ne_end (m : Mem) (value : Nat) : Bool := !(item.type m value == LAST)

/-- The members of `Property_sequence`: `_mem` and `_begin`. -/
structure Property_sequence where
  _mem : Data_descriptor_mod
  _begin : Nat
  deriving DecidableEq, Repr

/-- What `_get`, `get` leave behind: the failed assertions and how the call ended. -/
structure Get_result (α : Type) where
  asserts : List Assertion
  outcome : Outcome α

/-- What `_set`, `set` leave behind: the memory, the failed assertions and how the call
ended. -/
structure Set_result where
  mem : Mem
  asserts : List Assertion
  outcome : Outcome Unit

namespace Property_sequence

/-- The loop of `_get`:
`for ( i = begin(); i != end(); ++i ) { item_end = (size_t) i.value + i.value->size;`
`cslassert( _mem.end() >= item_end ); if ( p == i.value->type ) return i.value; }`
and the `fthrow` after it. -/
def _get_loop (W : Nat) (s : Property_sequence) (m : Mem) (p : Nat) :
    Nat → Nat → List Assertion → Get_result Nat
  | 0, _, log => ⟨log, .no_fuel⟩
  | fuel + 1, i, log =>
    if iterator_ne_end m i then
      let item_end := (i + item.size W m i) % wordMod W
      let log1 := if s._mem.end_ W ≥ item_end then log else log ++ [Assertion.mem_end_ge_item_end]
      if p = item.type m i then ⟨log1, .ret i⟩
      else _get_loop W s m p fuel (item.next W m i) log1
    else ⟨log, .thrown .Property_not_found⟩

/-- Method `_get( p )`: the address of the first item of type `p`, or "Property not found". -/
def _get (W fuel : Nat) (s : Property_sequence) (m : Mem) (p : Nat) : Get_result Nat :=
  _get_loop W s m p fuel s._begin (if p ≠ LAST then [] else [Assertion.p_ne_LAST])

/-- The scan loop of `_set`:
`for ( i = begin(); i != end(); ++i ) { cslassert( p != i.value->type ); }`.
Returns the final `i.value` and the log, or `none` when the fuel ran out. -/
def _set_loop (W : Nat) (m : Mem) (p : Nat) :
    Nat → Nat → List Assertion → Option (Nat × List Assertion)
  | 0, _, _ => none
  | fuel + 1, i, log =>
    if iterator_ne_end m i then
      _set_loop W m p fuel (item.next W m i)
        (if p ≠ item.type m i then log else log ++ [Assertion.p_ne_type])
    else some (i, log)

/-- Method `_set( p, size, data )`.  `size` is a `size_t` value and `data` the address of the bytes to
store.  The two `fthrow`s are the two "Not enough space" outcomes; the second one comes after
the writes to `last`. -/
def _set (W fuel : Nat) (s : Property_sequence) (m : Mem) (p size data : Nat) : Set_result :=
  match _set_loop W m p fuel s._begin (if p ≠ 0 then [] else [Assertion.p_ne_0]) with
  | none => ⟨m, (if p ≠ 0 then [] else [Assertion.p_ne_0]), .no_fuel⟩
  | some (last, log) =>
    let item_end := (last + hdr W + size) % wordMod W
    if s._mem.end_ W < item_end then
      ⟨m, log, .thrown .Not_enough_space_for_data⟩
    else
      let m1 := item.set_type m last p
      let m2 := item.set_size W m1 last size
      let m3 := memset m2 (item.data W last) 0 (item.size W m2 last)
      let m4 := memcpy m3 (item.data W last) data size
      let tail := item.next W m4 last
      let tail_end := (tail + hdr W) % wordMod W
      if s._mem.end_ W < tail_end then
        ⟨m4, log, .thrown .Not_enough_space_for_tail⟩
      else
        ⟨item.set_size W (item.set_type m4 tail LAST) tail 0, log, .ret ()⟩

/-- Method `reset()`: `_mem.nullify(); *_begin = { LAST, 0 };`. -/
def reset (W : Nat) (s : Property_sequence) (m : Mem) : Mem :=
  item.set_size W (item.set_type (s._mem.nullify m).1 s._begin LAST) s._begin 0

/-- Constructor `Property_sequence( const Data_descriptor_mod &mem )`: the fresh mode, which resets. -/
def fresh (W : Nat) (mem : Data_descriptor_mod) (m : Mem) : Property_sequence × Mem :=
  (⟨mem, mem.data⟩, reset W ⟨mem, mem.data⟩ m)

/-- Constructor `Property_sequence( const Data_descriptor &mem )`: the attach mode, which writes nothing. -/
def attach (mem : Data_descriptor) : Property_sequence := ⟨mem, mem.data⟩

/-- Method `get<P,T>( T &t )`: `item *i = _get( P ); t = *( ( T * ) i->data );` with `n = sizeof( T )`
and `t` given by its bytes.  The second component is `t` after the call. -/
def get (W fuel : Nat) (s : Property_sequence) (m : Mem) (P n : Nat) (t : List Nat) :
    Get_result Unit × List Nat :=
  match _get W fuel s m P with
  | ⟨log, .ret i⟩ => (⟨log, .ret ()⟩, readBytes m (item.data W i) n)
  | ⟨log, .thrown e⟩ => (⟨log, .thrown e⟩, t)
  | ⟨log, .no_fuel⟩ => (⟨log, .no_fuel⟩, t)

/-- Methods `get<P>( Csl::string &s )` and `get<P>( ustring &s )`:
`s = string( i->data, i->size )`, a copy of the payload bytes. -/
def get_string (W fuel : Nat) (s : Property_sequence) (m : Mem) (P : Nat) (t : List Nat) :
    Get_result Unit × List Nat :=
  match _get W fuel s m P with
  | ⟨log, .ret i⟩ => (⟨log, .ret ()⟩, readBytes m (item.data W i) (item.size W m i))
  | ⟨log, .thrown e⟩ => (⟨log, .thrown e⟩, t)
  | ⟨log, .no_fuel⟩ => (⟨log, .no_fuel⟩, t)

/-- Method `get<P>( Data_descriptor_mod &s )`: `s = Data_descriptor_mod( i->data, i->size )`. -/
def get_descriptor (W fuel : Nat) (s : Property_sequence) (m : Mem) (P : Nat)
    (t : Data_descriptor_mod) : Get_result Unit × Data_descriptor_mod :=
  match _get W fuel s m P with
  | ⟨log, .ret i⟩ => (⟨log, .ret ()⟩, ⟨item.data W i, item.size W m i⟩)
  | ⟨log, .thrown e⟩ => (⟨log, .thrown e⟩, t)
  | ⟨log, .no_fuel⟩ => (⟨log, .no_fuel⟩, t)

/-- Method `set<P,T>( const T &value )`: `_set( P, sizeof( T ), &value )`, with `n = sizeof( T )` and
`value` the address of the object. -/
def set (W fuel : Nat) (s : Property_sequence) (m : Mem) (P n value : Nat) : Set_result :=
  _set W fuel s m P n value

/-- Methods `set<P>( const Csl::string &s )` and `set<P>( const Csl::ustring &s )`:
`_set( P, s.size(), s.data() )`; the string is given by the address and length of its bytes. -/
def set_string (W fuel : Nat) (s : Property_sequence) (m : Mem) (P : Nat)
    (str : Data_descriptor) : Set_result :=
  _set W fuel s m P str._size str._data

/-- Method `set<P>( const Csl::Data_descriptor &d )`: `_set( P, d.size(), d.data() )`. -/
def set_descriptor (W fuel : Nat) (s : Property_sequence) (m : Mem) (P : Nat)
    (d : Data_descriptor) : Set_result :=
  _set W fuel s m P d.size d.data

/-- Number of `++i` steps of `for ( i = begin(); i != end(); ++i )` started at `i`, or `none`
when the fuel ran out. -/
def iterate_steps (W : Nat) (m : Mem) : Nat → Nat → Option Nat
  | 0, _ => none
  | fuel + 1, i =>
    if iterator_ne_end m i then (iterate_steps W m fuel (item.next W m i)).map (· + 1)
    else some 0

/-- Address at which `for ( i = begin(); i != end(); ++i )` started at `i` stops, or `none`
when the fuel ran out. -/
def last_item (W : Nat) (m : Mem) : Nat → Nat → Option Nat
  | 0, _ => none
  | fuel + 1, i =>
    if iterator_ne_end m i then last_item W m fuel (item.next W m i) else some i

/-- The item addresses that the loop of `_get` dereferences, in order: every value of
`i.value` on which `i != end()` is evaluated (this reads `value->type`; the body then reads
`value->size` and `value->type`, and `++i` reads `value->size`). -/
def _get_visits (W : Nat) (m : Mem) (p : Nat) : Nat → Nat → List Nat
  | 0, _ => []
  | fuel + 1, i =>
    if iterator_ne_end m i then
      if p = item.type m i then [i] else i :: _get_visits W m p fuel (item.next W m i)
    else [i]

/-- The item addresses that the scan loop of `_set` dereferences, in order: every value of
`i.value` on which `i != end()` is evaluated (this reads `value->type`; the body reads
`value->type` again and `++i` reads `value->size`). -/
def _set_visits (W : Nat) (m : Mem) : Nat → Nat → List Nat
  | 0, _ => []
  | fuel + 1, i =>
    if iterator_ne_end m i then i :: _set_visits W m fuel (item.next W m i) else [i]

end Property_sequence

/-! ## shared_settings.h -/

/-- Class `Shared_settings`: the member `_valid` and the Region that the virtual `mem()`
returns. -/
structure Shared_settings where
  _valid : Bool
  _mem : Data_descriptor_mod

/-- What `safe_operation` leaves behind: the memory, the failed assertions and how the call
ended. -/
structure Safe_operation_result where
  mem : Mem
  asserts : List Region_assertion
  outcome : Outcome Unit

namespace Shared_settings

/-- Method `mem()` of the two subclasses: `cslassert( _valid ); return _mem;`. -/
def mem (ss : Shared_settings) : Data_descriptor_mod := ss._mem

/-- Method `safe_operation( accessor )`:
`uint8_t buffer[mem().size()]; Genode::memcpy( buffer, mem().data(), mem().size() );`
`Mem_ro clone( buffer, mem().size() ); Csl::Property_sequence p( clone );`
`try { accessor( p ); } catch ( ... ) {}`
`Genode::memcpy( mem().data(), buffer, mem().size() );`.
`buffer` is the address of the local array.  The accessor is a function of the store handed to
it and of the memory; it yields the memory it leaves and how it ended.  What it throws is
swallowed; when it does not end, neither does `safe_operation`.  The lock is not modelled. -/
def safe_operation (ss : Shared_settings) (buffer : Nat)
    (accessor : Property_sequence → Mem → Mem × Outcome Unit) (m : Mem) :
    Safe_operation_result :=
  let log := if ss._valid then [] else [Region_assertion.valid]
  let m1 := memcpy m buffer ss.mem.data ss.mem.size
  let clone : Data_descriptor := ⟨buffer, ss.mem.size⟩
  let p := Property_sequence.attach clone
  match accessor p m1 with
  | (m2, .no_fuel) => ⟨m2, log, .no_fuel⟩
  | (m2, _) => ⟨memcpy m2 ss.mem.data buffer ss.mem.size, log, .ret ()⟩

end Shared_settings

/-- Class `Shared_settings_consumer`: the members of the base class and `_settings`. -/
structure Shared_settings_consumer extends Shared_settings where
  _settings : Property_sequence

namespace Shared_settings_consumer

/-- Constructor `Shared_settings_consumer( env, cap )`:
`_valid = true; auto addr = env.rm().attach( cap ); Genode::Dataspace_client client( cap );`
`_mem = Mem( addr, client.size() ); _settings = Csl::Property_sequence( _mem );`.
`addr` and `size` are what the two Genode calls yield.  `_mem` is a `Data_descriptor_mod`, so
`Property_sequence( _mem )` is the constructor `Property_sequence( const Data_descriptor_mod & )`,
which calls `reset()`. -/
def construct (W addr size : Nat) (m : Mem) : Shared_settings_consumer × Mem :=
  (⟨⟨true, ⟨addr, size⟩⟩, (Property_sequence.fresh W ⟨addr, size⟩ m).1⟩,
    (Property_sequence.fresh W ⟨addr, size⟩ m).2)

/-- Method `prop()`: `cslassert( _valid ); return _settings;`. -/
def prop (c : Shared_settings_consumer) : Property_sequence := c._settings

end Shared_settings_consumer

/-! ## string.h, xml_util.h

A `Basic_string` is given by its `size()` characters, the list `s`.  The methods that read the
storage without regard to `size()` (`contains_at`, `find( pattern, pos )`, `substr`, and
`split`, which calls the last two) also take `stale`, the characters that the storage holds
right behind the string: `erase( len )` only sets `_length`, so the characters erased stay in
the storage.  A string made by a constructor has `stale = []`: `Storage` zero-fills what it
allocates and it allocates at least one character more than the string has.  Behind `stale`
the storage is taken to hold `'\0'`. -/

/-- The exceptions that `Xml_path::unescape` and the string methods it calls can throw. -/
inductive Xml_exception
  | Invalid_syntax
  | Out_of_range
  deriving DecidableEq, Repr

/-- The character `'\0'`. -/
def NUL : Char := Char.ofNat 0

/-- Function `Csl::strlen( begin )`: `while ( begin[i] != CHAR( 0 ) ) ++i; return i;`.  The C
string is given by its characters; past them comes the terminating `'\0'`. -/
def strlen : List Char → Nat
  | [] => 0
  | c :: cs => if c ≠ NUL then strlen cs + 1 else 0

/-- Function `Csl::strcmp( str1, str2, len )`:
`for ( i = 0; i < len; ++i ) if ( str1[i] != str2[i] ) return str1[i] - str2[i]; return 0;`.
A pointer is given by the characters from it on; the storage past them holds `'\0'`. -/
def strcmp : List Char → List Char → Nat → Int
  | _, _, 0 => 0
  | str1, str2, len + 1 =>
    if str1.headD NUL ≠ str2.headD NUL then
      ((str1.headD NUL).toNat : Int) - ((str2.headD NUL).toNat : Int)
    else strcmp str1.tail str2.tail len

namespace Basic_string

/-- Constructor `Basic_string( const Type *begin )`: the `strlen( begin )` characters at
`begin`. -/
def of_c_str (begin_ : List Char) : List Char := begin_.take (strlen begin_)

/-- Method `size()`. -/
def size (s : List Char) : Nat := s.length

/-- Method `erase( len )`: `_length = len;`.  The storage is not touched: the string is then
the first `len` characters of the storage and the characters behind them stay where they are.
It returns the characters of the string and the characters that the storage holds behind
them. -/
def erase (s stale : List Char) (len : Nat) : List Char × List Char :=
  ((List.range len).map (fun k => (s ++ stale).getD k NUL), (s ++ stale).drop len)

/-- Method `contains_at( pattern, offset )`:
`if ( pattern.size() > size() - offset ) return false;`
`else return strcmp( data() + offset, pattern.data(), pattern.size() ) == 0;`.
The `size_t` difference `size() - offset` is exact for `offset ≤ size()` and wraps otherwise;
the comparison then reads the storage from `data() + offset` on. -/
def contains_at (W : Nat) (s stale pattern : List Char) (offset : Nat) : Bool :=
  if size pattern >
      (if offset ≤ size s then size s - offset
        else Data_descriptor_template.size_sub W (size s) offset) then false
  else strcmp ((s ++ stale).drop offset) pattern (size pattern) == 0

/-- Method `at( index )`: `if ( index >= size() ) throw Out_of_range(); return data()[index];`. -/
def at_ (s : List Char) (index : Nat) : Except Xml_exception Char :=
  if index ≥ size s then .error .Out_of_range else .ok (s.getD index NUL)

/-- Method `push_back( c )`. -/
def push_back (s : List Char) (c : Char) : List Char := s ++ [c]

/-- Constant `npos = ~0`, the largest value of `size_t`. -/
def npos (W : Nat) : Nat := wordMod W - 1

/-- The loop of `find( c, pos )` for a character `c`:
`for ( ; pos < size(); ++pos ) { if ( c == at( pos ) ) return pos; } return npos;`.
It is `none` when the fuel ran out. -/
def find_char_loop (W : Nat) (s : List Char) (c : Char) :
    Nat → Nat → Option (Except Xml_exception Nat)
  | 0, _ => none
  | fuel + 1, pos =>
    if pos < size s then
      match at_ s pos with
      | .error e => some (.error e)
      | .ok x => if c = x then some (.ok pos) else find_char_loop W s c fuel (pos + 1)
    else some (.ok (npos W))

/-- Method `find( c, pos )` for a character `c`, with fuel for one round per character of the
string and the final test. -/
def find_char (W : Nat) (s : List Char) (c : Char) (pos : Nat) :
    Option (Except Xml_exception Nat) :=
  find_char_loop W s c (size s + 1) pos

/-- The loop of `find( pattern, pos )`:
`for ( ; pos <= diff; ++pos ) { if ( ! strcmp( data() + pos, pattern.data(), pattern.size() ) )`
`return pos; } return npos;`.  The comparison reads `pattern.size()` characters from
`data() + pos` on, whatever `size()` is: past the characters `s` of the string it reads the
characters `stale` that the storage holds behind them, and `'\0'` past those.  It is `none` when
the fuel ran out. -/
def find_loop (W : Nat) (s stale pattern : List Char) (diff : Nat) : Nat → Nat → Option Nat
  | 0, _ => none
  | fuel + 1, pos =>
    if pos ≤ diff then
      if strcmp ((s ++ stale).drop pos) pattern (size pattern) = 0 then some pos
      else find_loop W s stale pattern diff fuel (pos + 1)
    else some (npos W)

/-- Method `find( pattern, pos )`:
`size_t diff = ( size() < pattern.size() ) ? 0 : size() - pattern.size();` and the loop, with
fuel for the at most `diff + 2` tests of the loop. -/
def find (W : Nat) (s stale pattern : List Char) (pos : Nat) : Option Nat :=
  find_loop W s stale pattern (if size s < size pattern then 0 else size s - size pattern)
    (size s + 2) pos

/-- Method `substr( pos, len )`:
`if ( npos == len ) len = size() - pos; if ( pos + len > size() ) len = size() - pos;`
`return Basic_string( _storage.data() + pos, len );`, the `size_t` arithmetic wrapping.  The
constructor copies `len` characters from `data() + pos` on, whatever `size()` is: past the
characters `s` of the string these are the characters `stale` that the storage holds behind
them, and `'\0'` past those.  The result is a string made by a constructor. -/
def substr (W : Nat) (s stale : List Char) (pos len : Nat) : List Char :=
  let len1 := if npos W = len then Data_descriptor_template.size_sub W (size s) pos else len
  let len2 :=
    if (pos + len1) % wordMod W > size s then Data_descriptor_template.size_sub W (size s) pos
    else len1
  (List.range len2).map (fun k => ((s ++ stale).drop pos).getD k NUL)

/-- Class `Char_set`, method `has_member( c )`:
`for ( i = 0; i < strlen( _begin ); ++i ) { if ( _begin[i] == c ) return true; } return false;`.
The set is given by the bytes of the C string `_begin`; a 0 byte ends it. -/
def Char_set_has_member : List Nat → Nat → Bool
  | [], _ => false
  | x :: xs, c => if x = 0 then false else if x = c then true else Char_set_has_member xs c

/-- The loop of `find_last_not_of( c )`, over the memory, for a string whose characters are
the `size()` bytes at the address `data`:
`for ( size_t i = size() - 1; i >= 0; --i ) { if ( not set.has_member( data()[i] ) ) return i; }`.
For the `size_t` `i` the test `i >= 0` is always true and `--i` wraps around; `data()[i]` is the
byte at the address `data + i`, which wraps as well.  It is `none` when the fuel ran out. -/
def find_last_not_of_loop (W : Nat) (m : Mem) (data : Nat) (c : List Nat) :
    Nat → Nat → Option Nat
  | 0, _ => none
  | fuel + 1, i =>
    if !(Char_set_has_member c (m (Data_descriptor_template.ptr_add W data i))) then some i
    else find_last_not_of_loop W m data c fuel (Data_descriptor_template.size_sub W i 1)

/-- Method `find_last_not_of( c )`: `Char_set set( c );` and the loop started at
`size() - 1`, which wraps around for the empty string.  The `return npos` after the loop is
never reached. -/
def find_last_not_of (W fuel : Nat) (m : Mem) (data size_ : Nat) (c : List Nat) : Option Nat :=
  find_last_not_of_loop W m data c fuel (Data_descriptor_template.size_sub W size_ 1)

end Basic_string

/-- Function `_upcase( c )`: `if ( 'a' <= c && c <= 'z' ) return c - ( 'a' - 'A' ); return c;`. -/
def _upcase (c : Char) : Char :=
  if 'a' ≤ c ∧ c ≤ 'z' then Char.ofNat (c.toNat - ('a'.toNat - 'A'.toNat)) else c

/-- Constant `HEX_DIGITS( "0123456789ABCDEF" )` of `hex_to_ustring`. -/
def HEX_DIGITS : List Char :=
  ['0', '1', '2', '3', '4', '5', '6', '7', '8', '9', 'A', 'B', 'C', 'D', 'E', 'F']

/-- The initialiser `const uint8_t hc = HEX_DIGITS.find( _upcase( hex[i] ) )` of
`hex_to_ustring`: the `size_t` that `find` returns is cut down to 8 bits. -/
def hex_value (W : Nat) (hex : List Char) (i : Nat) : Option (Except Xml_exception Nat) :=
  match Basic_string.at_ hex i with
  | .error e => some (.error e)
  | .ok c =>
    match Basic_string.find_char W HEX_DIGITS (_upcase c) 0 with
    | none => none
    | some (.error e) => some (.error e)
    | some (.ok f) => some (.ok (f % 256))

/-- The loop of `hex_to_ustring( hex )`:
`for ( i = 0; i < hex.size(); ++i ) { const uint8_t hc = ..; ++i; const uint8_t lc = ..;`
`if ( hc == ustring::npos ) return ustring(); if ( lc == ustring::npos ) return ustring();`
`uint8_t r = ( 0xff & hc ) << 4 | ( 0xff & lc ); res.push_back( r ); }`.
In the two comparisons the 8-bit `hc` and `lc` are compared with the `size_t` `npos`. -/
def hex_to_ustring_loop (W : Nat) (hex : List Char) :
    Nat → Nat → List Nat → Option (Except Xml_exception (List Nat))
  | 0, _, _ => none
  | fuel + 1, i, res =>
    if i < Basic_string.size hex then
      match hex_value W hex i with
      | none => none
      | some (.error e) => some (.error e)
      | some (.ok hc) =>
        match hex_value W hex (i + 1) with
        | none => none
        | some (.error e) => some (.error e)
        | some (.ok lc) =>
          if hc = Basic_string.npos W then some (.ok [])
          else if lc = Basic_string.npos W then some (.ok [])
          else hex_to_ustring_loop W hex fuel (i + 1 + 1)
            (res ++ [(((0xff &&& hc) <<< 4) ||| (0xff &&& lc)) % 256])
    else some (.ok res)

/-- Function `hex_to_ustring( hex )`: `if ( hex.size() % 2 ) return ustring();` and the loop,
with fuel for one round per character and the final test. -/
def hex_to_ustring (W : Nat) (hex : List Char) : Option (Except Xml_exception (List Nat)) :=
  if Basic_string.size hex % 2 ≠ 0 then some (.ok [])
  else hex_to_ustring_loop W hex (Basic_string.size hex + 1) 0 []

namespace Xml_path

/-- Struct `Special_char`: the character and the name that escapes it. -/
structure Special_char where
  c : Char
  escape_sequence : List Char
  deriving DecidableEq, Repr

/-- Constant `NODE_SEPARATOR { '/', "slash" }`. -/
def NODE_SEPARATOR : Special_char := Special_char.mk '/' ['s', 'l', 'a', 's', 'h']

/-- Constant `ATTR_SEPARATOR { ':', "colon" }`. -/
def ATTR_SEPARATOR : Special_char := Special_char.mk ':' ['c', 'o', 'l', 'o', 'n']

/-- Constant `VALUE_SEPARATOR { '=', "equals" }`. -/
def VALUE_SEPARATOR : Special_char := Special_char.mk '=' ['e', 'q', 'u', 'a', 'l', 's']

/-- Constant `ESCAPE { '&', "amp" }`. -/
def ESCAPE : Special_char := Special_char.mk '&' ['a', 'm', 'p']

/-- Constant `INVALID { '\0', "invalid" }`. -/
def INVALID : Special_char := Special_char.mk NUL ['i', 'n', 'v', 'a', 'l', 'i', 'd']

/-- Constant `special_char_list`. -/
def special_char_list : List Special_char :=
  [NODE_SEPARATOR, ATTR_SEPARATOR, VALUE_SEPARATOR, ESCAPE, INVALID]

/-- The inner loop of `unescape` at position `i`:
`for ( Special_char sp : special_char_list ) { if ( sp.c == '\0' ) throw Invalid_syntax( .. );`
`if ( s.contains_at( string( sp.escape_sequence ), i + 1 ) )`
`{ result.push_back( sp.c ); i += Genode::strlen( sp.escape_sequence ); break; } }`.
It yields the character pushed and the new `i`, or `none` when the list ends without a
`break`. -/
def unescape_inner (W : Nat) (s stale : List Char) (i : Nat) :
    List Special_char → Except Xml_exception (Option (Char × Nat))
  | [] => .ok none
  | sp :: rest =>
    if sp.c = NUL then .error Xml_exception.Invalid_syntax
    else if Basic_string.contains_at W s stale (Basic_string.of_c_str sp.escape_sequence)
        (i + 1) then
      .ok (some (sp.c, i + strlen sp.escape_sequence))
    else unescape_inner W s stale i rest

/-- The outer loop of `unescape`, from position `i` with the characters `result` pushed so far:
`for ( ; i < s.size(); i++ ) { if ( s.at( i ) == ESCAPE.c ) { .. } else`
`result.push_back( s.at( i ) ); } return result;`.  It is `none` when the fuel ran out. -/
def unescape_loop (W : Nat) (s stale : List Char) :
    Nat → Nat → List Char → Option (Except Xml_exception (List Char))
  | 0, _, _ => none
  | fuel + 1, i, result =>
    if i < Basic_string.size s then
      match Basic_string.at_ s i with
      | .error e => some (.error e)
      | .ok c =>
        if c = ESCAPE.c then
          match unescape_inner W s stale i special_char_list with
          | .error e => some (.error e)
          | .ok (some (c1, i1)) =>
            unescape_loop W s stale fuel (i1 + 1) (Basic_string.push_back result c1)
          | .ok none => unescape_loop W s stale fuel (i + 1) result
        else unescape_loop W s stale fuel (i + 1) (Basic_string.push_back result c)
    else some (.ok result)

/-- Function `Xml_path::unescape( s )`, with fuel for one round of the outer loop per
character of `s` and the final test.  The string `s` comes with the characters `stale` that its
storage holds behind it. -/
def unescape (W : Nat) (s stale : List Char) : Option (Except Xml_exception (List Char)) :=
  unescape_loop W s stale (s.length + 1) 0 []

end Xml_path

/-! ## string_util.cc -/

/-- The `do .. while` loop of `split( str, delim, include_empty_strings )`:
`do { next = str.find( delim, curr );`
`size_t len = ( next == npos ) ? str.size() - curr : next - curr;`
`if ( include_empty_strings || len != 0 ) { res.push_back( str.substr( curr, len ) ); }`
`curr = next + delim.size(); } while ( next != npos );`, the `size_t` arithmetic wrapping.
It is `none` when the fuel ran out. -/
def split_loop (W : Nat) (str stale delim : List Char) (include_empty_strings : Bool) :
    Nat → Nat → List (List Char) → Option (List (List Char))
  | 0, _, _ => none
  | fuel + 1, curr, res =>
    match Basic_string.find W str stale delim curr with
    | none => none
    | some next =>
      let len :=
        if next = Basic_string.npos W then
          Data_descriptor_template.size_sub W (Basic_string.size str) curr
        else Data_descriptor_template.size_sub W next curr
      let res1 :=
        if include_empty_strings || len != 0 then
          res ++ [Basic_string.substr W str stale curr len]
        else res
      if next ≠ Basic_string.npos W then
        split_loop W str stale delim include_empty_strings fuel
          (Data_descriptor_template.size_add W next (Basic_string.size delim)) res1
      else some res1

/-- Function `split( str, delim, include_empty_strings )`, with fuel for one round of the loop
per character of `str` and one more.  The string `str` comes with the characters `stale` that
its storage holds behind it; the pieces are strings made by a constructor. -/
def split (W : Nat) (str stale delim : List Char) (include_empty_strings : Bool) :
    Option (List (List Char)) :=
  split_loop W str stale delim include_empty_strings (Basic_string.size str + 1) 0 []

/-! ## list.h -/

namespace List_set

/-- Method `find( item )`:
`for ( Iterator i = begin(); i != end(); ++i ) if ( *i == item ) return i; return end();`.
The iterator is given by the position of its element; `none` is `end()`. -/
def find {T : Type} [DecidableEq T] : List T → T → Option Nat
  | [], _ => none
  | x :: xs, item => if x = item then some 0 else (find xs item).map (· + 1)

/-- Method `exists( item )`: `return end() != find( item );`. -/
def exists_ {T : Type} [DecidableEq T] (l : List T) (item : T) : Bool := (find l item).isSome

/-- Method `operator==( other )`:
`if ( size() != other.size() ) return false;`
`for ( auto i : *this ) { if ( not other.exists( i ) ) return false; } return true;`. -/
def eq {T : Type} [DecidableEq T] (l other : List T) : Bool :=
  if l.length ≠ other.length then false else l.all (fun i => exists_ other i)

/-- Method `operator!=( other )`: `return not( *this == other );`. -/
def ne {T : Type} [DecidableEq T] (l other : List T) : Bool := !(eq l other)

/-- Method `insert( item )`: `List<T>::push_back( item )`, which appends a new element at the
tail, whether or not the list holds an equal one. -/
def insert {T : Type} (l : List T) (item : T) : List T := l ++ [item]

end List_set

/-! ## hash.h -/

/-- Function `djb2hash( str, len )`:
`size_t hash = 5381; for ( i = 0; i < len; ++i ) { uint32_t c = str[i];`
`hash = ( ( hash << 5 ) + hash ) + c; } return hash;`, every `size_t` operation taken modulo
`2^(8W)`. -/
def djb2hash (W : Nat) (m : Mem) (str len : Nat) : Nat :=
  (List.range len).foldl
    (fun hash i => (((hash <<< 5) % wordMod W + hash) % wordMod W + m (str + i)) % wordMod W)
    (5381 % wordMod W)

/-! ## Specification-level predicates -/

/-- Records with the non-`LAST` types `tags`, in this order, are packed from address `a` up to
address `t`: each one starts where the one before it ends. -/
def Walk (W : Nat) (m : Mem) : Nat → Nat → List Nat → Prop
  | a, t, [] => a = t
  | a, t, p :: ps =>
    item.type m a = p ∧ p ≠ LAST ∧ a + hdr W + item.size W m a ≤ t ∧
      Walk W m (a + hdr W + item.size W m a) t ps

/-- Whether `Walk` holds can be computed. -/
instance Walk.decidable (W : Nat) (m : Mem) :
    ∀ (tags : List Nat) (a t : Nat), Decidable (Walk W m a t tags)
  | [], a, t => inferInstanceAs (Decidable (a = t))
  | p :: ps, a, t =>
    have := Walk.decidable W m ps (a + hdr W + item.size W m a) t
    inferInstanceAs (Decidable (item.type m a = p ∧ p ≠ LAST ∧
      a + hdr W + item.size W m a ≤ t ∧ Walk W m (a + hdr W + item.size W m a) t ps))

/-- A well-formed store: the backing Region lies inside the address space, records with types
`tags` are packed from `_begin` up to `t`, the item at `t` has type `LAST` (the terminator) and
its header lies inside the Region. -/
structure Well_formed (W : Nat) (s : Property_sequence) (m : Mem) (tags : List Nat) (t : Nat) :
    Prop where
  word : 0 < W
  begin_eq : s._begin = s._mem._data
  end_lt : s._mem._data + s._mem._size < wordMod W
  walk : Walk W m s._begin t tags
  last : item.type m t = LAST
  fits : t + hdr W ≤ s._mem._data + s._mem._size

/-- The `size_t` sums `item_end` and `tail_end` computed by `_set( p, size, data )` are exact,
that is, they do not wrap around. -/
def Set_exact (W fuel : Nat) (s : Property_sequence) (m : Mem) (size : Nat) : Prop :=
  ∃ last, Property_sequence.last_item W m fuel s._begin = some last ∧
    last + hdr W + size + hdr W < wordMod W

/-- Stores built in fresh mode over the Region `mem` and then filled by `set` calls that returned
normally and whose address arithmetic was exact; `calls` lists the types set, in order.  Between
the calls the bytes outside the Region may change. -/
inductive Filled (W : Nat) (mem : Data_descriptor_mod) : Property_sequence → List Nat → Mem → Prop
  | fresh (m0 : Mem) :
      Filled W mem (Property_sequence.fresh W mem m0).1 [] (Property_sequence.fresh W mem m0).2
  | set {s : Property_sequence} {calls : List Nat} {m : Mem} (fuel p size data : Nat) :
      Filled W mem s calls m → Set_exact W fuel s m size →
      (Property_sequence._set W fuel s m p size data).outcome = .ret () →
      Filled W mem s (calls ++ [p]) (Property_sequence._set W fuel s m p size data).mem
  | frame {s : Property_sequence} {calls : List Nat} {m : Mem} (m1 : Mem) :
      Filled W mem s calls m →
      (∀ x, mem._data ≤ x → x < mem._data + mem._size → m1 x = m x) →
      Filled W mem s calls m1

/-- Offset of record `i` of a sequence of records `recs` (type and payload bytes) packed
without padding: the sum of header size plus payload length over the records before it.  For
`i = recs.length` it is the offset right after the last record. -/
def record_offset (W : Nat) (recs : List (Nat × List Nat)) (i : Nat) : Nat :=
  ((recs.take i).map (fun r => hdr W + r.2.length)).sum

/-- Stores built in fresh mode over the Region `mem` and then filled by `set` calls with
non-zero tags that returned normally, whose address arithmetic was exact and whose source bytes
did not overlap the record being written; `recs` lists the type and the payload bytes of each
call, in order.  Between the calls the bytes outside the Region may change. -/
inductive Stored (W : Nat) (mem : Data_descriptor_mod) :
    Property_sequence → List (Nat × List Nat) → Mem → Prop
  | fresh (m0 : Mem) :
      Stored W mem (Property_sequence.fresh W mem m0).1 [] (Property_sequence.fresh W mem m0).2
  | set {s : Property_sequence} {recs : List (Nat × List Nat)} {m : Mem}
      (fuel p size data last : Nat) :
      Stored W mem s recs m →
      Property_sequence.last_item W m fuel s._begin = some last →
      last + hdr W + size + hdr W < wordMod W →
      (data + size ≤ last ∨ last + hdr W + size ≤ data) →
      p ≠ LAST →
      (Property_sequence._set W fuel s m p size data).outcome = .ret () →
      Stored W mem s (recs ++ [(p, readBytes m data size)])
        (Property_sequence._set W fuel s m p size data).mem
  | frame {s : Property_sequence} {recs : List (Nat × List Nat)} {m : Mem} (m1 : Mem) :
      Stored W mem s recs m →
      (∀ x, mem._data ≤ x → x < mem._data + mem._size → m1 x = m x) →
      Stored W mem s recs m1

/-- The memory after the writes of `_set` to the item at `last`: `last->type = p`,
`last->size = size`, the `memset` of the payload and the `memcpy` into it. -/
def set_record (W : Nat) (m : Mem) (last p size data : Nat) : Mem :=
  memcpy (memset (item.set_size W (item.set_type m last p) last size) (item.data W last) 0 size)
    (item.data W last) data size

/-- The memory after the writes of `_set` to the new terminator: `tail->type = LAST`,
`tail->size = 0`. -/
def set_tail (W : Nat) (m : Mem) (tail : Nat) : Mem :=
  item.set_size W (item.set_type m tail LAST) tail 0

/-- The memory after a `_set` that returns: the record written at `last` and the new terminator
right after its payload. -/
def set_done (W : Nat) (m : Mem) (last p size data : Nat) : Mem :=
  set_tail W (set_record W m last p size data) (last + hdr W + size)

/-- The assertions that `_set( p, .. )` logs on a store whose records have the types `tags`:
`p != 0` once when `p` is 0, and `p != i.value->type` once for each record of type `p`. -/
def set_log (p : Nat) (tags : List Nat) : List Assertion :=
  (if p ≠ 0 then [] else [Assertion.p_ne_0]) ++
    List.replicate (tags.count p) Assertion.p_ne_type

/-- The unescaping that the specification describes, as a relation between a string and its
result, read from left to right: a character other than `&` is copied, and `&slash`, `&colon`,
`&equals`, `&amp` are replaced by `/`, `:`, `=`, `&`. -/
inductive Unescapes : List Char → List Char → Prop
  | done : Unescapes [] []
  | copy (c : Char) {s r : List Char} : c ≠ '&' → Unescapes s r → Unescapes (c :: s) (c :: r)
  | slash {s r : List Char} : Unescapes s r →
      Unescapes ('&' :: (['s', 'l', 'a', 's', 'h'] ++ s)) ('/' :: r)
  | colon {s r : List Char} : Unescapes s r →
      Unescapes ('&' :: (['c', 'o', 'l', 'o', 'n'] ++ s)) (':' :: r)
  | equals {s r : List Char} : Unescapes s r →
      Unescapes ('&' :: (['e', 'q', 'u', 'a', 'l', 's'] ++ s)) ('=' :: r)
  | amp {s r : List Char} : Unescapes s r →
      Unescapes ('&' :: (['a', 'm', 'p'] ++ s)) ('&' :: r)

/-- None of the four names `slash`, `colon`, `equals`, `amp` starts the string `rest`. -/
def No_escape_name (rest : List Char) : Prop :=
  ¬ ['s', 'l', 'a', 's', 'h'] <+: rest ∧ ¬ ['c', 'o', 'l', 'o', 'n'] <+: rest ∧
    ¬ ['e', 'q', 'u', 'a', 'l', 's'] <+: rest ∧ ¬ ['a', 'm', 'p'] <+: rest

/-- The scan of the specification reaches an `&` that is followed by none of the four names:
the string is `pre ++ '&' :: rest` where `pre` unescapes as a whole and no name starts
`rest`. -/
def Unescape_fails (s : List Char) : Prop :=
  ∃ pre r rest, s = pre ++ '&' :: rest ∧ Unescapes pre r ∧ No_escape_name rest

/-- The DJB2 hash of the specification for a `w`-bit size type: start from 5381 and, for each
byte `c` in order, replace `h` by `h * 33 + c`, modulo `2^w`. -/
def djb2_spec (w : Nat) (b : List Nat) : Nat :=
  b.foldl (fun h c => (h * 33 + c) % 2 ^ w) (5381 % 2 ^ w)

/-! ## Concrete scenarios -/

/-- Memory of the scenarios: the byte at address `x` is `x % 251`, except for the `uint32_t`
object `0xDEADBEEF` stored at address `0x100`. -/
def scenario_mem : Mem := writeWord (fun x => x % 251) 0x100 0xDEADBEEF 4

/-- A 64-byte Region at address `0x1000`. -/
def buf64 : Data_descriptor_mod := ⟨0x1000, 64⟩

/-- The store made in fresh mode over `buf64` on a target with `sizeof(size_t) = 8`. -/
def store64 : Property_sequence := (Property_sequence.fresh 8 buf64 scenario_mem).1

/-- The memory right after `store64` was made. -/
def mem64 : Mem := (Property_sequence.fresh 8 buf64 scenario_mem).2

/-- The memory after `set<2>` of the 4-byte object at `0x200` on the fresh `store64`. -/
def mem64_2 : Mem := (Property_sequence._set 8 4 store64 mem64 2 4 0x200).mem

/-- The memory after `set<1>` of the `uint32_t` object `0xDEADBEEF` on the fresh `store64`. -/
def mem64_1 : Mem := (Property_sequence.set 8 4 store64 mem64 1 4 0x100).mem

/-- A 64-byte Region at address `0xF0000000` of a target with `sizeof(size_t) = 4`. -/
def buf_high : Data_descriptor_mod := ⟨0xF0000000, 64⟩

/-- The store made in fresh mode over `buf_high`. -/
def store_high : Property_sequence := (Property_sequence.fresh 4 buf_high scenario_mem).1

/-- The memory right after `store_high` was made. -/
def mem_high : Mem := (Property_sequence.fresh 4 buf_high scenario_mem).2

/-- The 64-byte Region at address `0x2000` that receives a copy of `buf64`. -/
def buf_copy : Data_descriptor_mod := ⟨0x2000, 64⟩

/-- The memory `mem64_2` after its Region `buf64` was copied to `buf_copy`. -/
def mem_copy : Mem := memcpy mem64_2 0x2000 0x1000 64

/-- A memory that is 0 everywhere except for one item header at `0x1000`: type 1 and
size 100, more than the 64 bytes of `buf64`. -/
def overlong_mem : Mem := item.set_size 8 (item.set_type (fun _ => 0) 0x1000 1) 0x1000 100

/-- A memory that is 0 everywhere except for one item header at `0x1000`: type 1 and size
`2^64 - 16`, so that `next()` of this item is the item itself. -/
def cycle_mem : Mem := item.set_size 8 (item.set_type (fun _ => 0) 0x1000 1) 0x1000 (2 ^ 64 - 16)

/-- A memory that holds the byte 32 (a blank) everywhere except for the byte 65 at `0x1FE`. -/
def blank_mem : Mem := fun x => if x = 0x1FE then 65 else 32

/-- The characters of the C string `" \t\n\r"`. -/
def whitespace : List Nat := [32, 9, 10, 13]

/-- A valid shared settings object whose Region is `buf64`. -/
def settings64 : Shared_settings := ⟨true, buf64⟩

/-- An accessor that calls `p.set<2>` with the 4-byte object at `0x200`. -/
def set2_accessor (p : Property_sequence) (m : Mem) : Mem × Outcome Unit :=
  ((Property_sequence.set 8 4 p m 2 4 0x200).mem, (Property_sequence.set 8 4 p m 2 4 0x200).outcome)

/-- An accessor that calls `p.set<3>` with the 24-byte object at `0x200`. -/
def set3_accessor (p : Property_sequence) (m : Mem) : Mem × Outcome Unit :=
  ((Property_sequence.set 8 4 p m 3 24 0x200).mem,
    (Property_sequence.set 8 4 p m 3 24 0x200).outcome)

/-- An accessor that calls `p.get<1>` into a `uint32_t` and writes nothing. -/
def get1_accessor (p : Property_sequence) (m : Mem) : Mem × Outcome Unit :=
  (m, (Property_sequence.get 8 4 p m 1 4 []).1.outcome)

theorem wordMod_eq (W : Nat) : wordMod W = 256 ^ W := by
  unfold wordMod
  rw [pow_mul]
  norm_num

theorem write_apply (m : Mem) (a v x : Nat) : write m a v x = if x = a then v else m x := rfl

theorem memset_apply (m : Mem) (dst v n x : Nat) :
    memset m dst v n x = if dst ≤ x ∧ x < dst + n then v else m x := rfl

theorem memcpy_apply (m : Mem) (dst src n x : Nat) :
    memcpy m dst src n x = if dst ≤ x ∧ x < dst + n then m (src + (x - dst)) else m x := rfl

theorem writeWord_outside (n : Nat) : ∀ (m : Mem) (a v x : Nat), (x < a ∨ a + n ≤ x) →
    writeWord m a v n x = m x := by
  induction n with
  | zero => intro m a v x _; rfl
  | succ n ih =>
    intro m a v x hx
    rw [writeWord, ih _ _ _ _ (by omega), write_apply, if_neg (by omega)]

theorem readWord_congr (n : Nat) : ∀ (m1 m : Mem) (a : Nat),
    (∀ x, a ≤ x → x < a + n → m1 x = m x) → readWord m1 a n = readWord m a n := by
  induction n with
  | zero => intro m1 m a _; rfl
  | succ n ih =>
    intro m1 m a h
    rw [readWord, readWord, h a (le_refl a) (by omega),
      ih m1 m (a + 1) (fun x h1 h2 => h x (by omega) (by omega))]

theorem readWord_writeWord (n : Nat) : ∀ (m : Mem) (a v : Nat),
    readWord (writeWord m a v n) a n = v % 256 ^ n := by
  induction n with
  | zero => intro m a v; simp [readWord, Nat.mod_one]
  | succ n ih =>
    intro m a v
    rw [readWord, writeWord, ih, writeWord_outside n _ _ _ _ (Or.inl (Nat.lt_succ_self a)),
      write_apply, if_pos rfl, pow_succ, mul_comm (256 ^ n) 256, Nat.mod_mul]

theorem readWord_zero (n : Nat) : ∀ (m : Mem) (a : Nat),
    (∀ x, a ≤ x → x < a + n → m x = 0) → readWord m a n = 0 := by
  induction n with
  | zero => intro m a _; rfl
  | succ n ih =>
    intro m a h
    rw [readWord, h a (le_refl a) (by omega), ih m (a + 1) (fun x h1 h2 => h x (by omega) (by omega))]

theorem readBytes_length (m : Mem) (a n : Nat) : (readBytes m a n).length = n := by
  simp [readBytes]

theorem readBytes_congr (m1 m : Mem) (a b n : Nat) (h : ∀ k, k < n → m1 (a + k) = m (b + k)) :
    readBytes m1 a n = readBytes m b n := by
  unfold readBytes
  apply List.map_congr_left
  intro k hk
  exact h k (List.mem_range.mp hk)

/-! ## Items and walks -/

theorem item_size_congr (W : Nat) (m1 m : Mem) (a : Nat)
    (h : ∀ x, a + W ≤ x → x < a + hdr W → m1 x = m x) : item.size W m1 a = item.size W m a := by
  unfold item.size
  apply readWord_congr
  intro x h1 h2
  exact h x h1 (by unfold hdr; omega)

theorem item_next_exact (W : Nat) (m : Mem) (a : Nat)
    (h : a + hdr W + item.size W m a < wordMod W) :
    item.next W m a = a + hdr W + item.size W m a := by
  unfold item.next
  exact Nat.mod_eq_of_lt h

theorem iterator_ne_end_true (m : Mem) (a : Nat) (h : item.type m a ≠ LAST) :
    iterator_ne_end m a = true := by
  simp [iterator_ne_end, h]

theorem iterator_ne_end_false (m : Mem) (a : Nat) (h : item.type m a = LAST) :
    iterator_ne_end m a = false := by
  simp [iterator_ne_end, h]

theorem Walk_le (W : Nat) (m : Mem) (t : Nat) : ∀ (tags : List Nat) (a : Nat),
    Walk W m a t tags → a ≤ t := by
  intro tags
  induction tags with
  | nil => intro a h; exact le_of_eq h
  | cons p ps ih =>
    intro a h
    have := ih _ h.2.2.2
    omega

theorem Walk_congr (W : Nat) (hW : 0 < W) (m1 m : Mem) (t : Nat) : ∀ (tags : List Nat) (a : Nat),
    (∀ x, a ≤ x → x < t → m1 x = m x) → Walk W m a t tags → Walk W m1 a t tags := by
  intro tags
  induction tags with
  | nil => intro a _ h; exact h
  | cons p ps ih =>
    intro a hm h
    obtain ⟨h1, h2, h3, h4⟩ := h
    have hs : item.size W m1 a = item.size W m a :=
      item_size_congr W m1 m a (fun x hx1 hx2 => hm x (by omega) (by omega))
    have ht : item.type m1 a = item.type m a := hm a (le_refl a) (by unfold hdr at h3; omega)
    refine ⟨ht.trans h1, h2, by rw [hs]; exact h3, ?_⟩
    rw [hs]
    exact ih _ (fun x hx1 hx2 => hm x (by omega) hx2) h4

theorem Walk_snoc (W : Nat) (m : Mem) (t : Nat) (ht : item.type m t ≠ LAST) :
    ∀ (tags : List Nat) (a : Nat), Walk W m a t tags →
      Walk W m a (t + hdr W + item.size W m t) (tags ++ [item.type m t]) := by
  intro tags
  induction tags with
  | nil =>
    intro a h
    have ha : a = t := h
    subst ha
    exact ⟨rfl, ht, le_refl _, rfl⟩
  | cons p ps ih =>
    intro a h
    obtain ⟨h1, h2, h3, h4⟩ := h
    exact ⟨h1, h2, by omega, ih _ h4⟩

namespace Property_sequence

theorem last_item_walk (W : Nat) (m : Mem) (t : Nat) (ht : t < wordMod W)
    (hlast : item.type m t = LAST) : ∀ (tags : List Nat) (a fuel : Nat), Walk W m a t tags →
      last_item W m fuel a = if tags.length < fuel then some t else none := by
  intro tags
  induction tags with
  | nil =>
    intro a fuel h
    have ha : a = t := h
    subst ha
    cases fuel with
    | zero => rfl
    | succ f => simp [last_item, iterator_ne_end_false m a hlast]
  | cons p ps ih =>
    intro a fuel h
    obtain ⟨h1, h2, h3, h4⟩ := h
    cases fuel with
    | zero => rfl
    | succ f =>
      have hne : item.type m a ≠ LAST := by rw [h1]; exact h2
      rw [last_item, iterator_ne_end_true m a hne, if_pos rfl,
        item_next_exact W m a (by omega), ih _ f h4]
      simp

theorem iterate_steps_walk (W : Nat) (m : Mem) (t : Nat) (ht : t < wordMod W)
    (hlast : item.type m t = LAST) : ∀ (tags : List Nat) (a fuel : Nat), Walk W m a t tags →
      tags.length < fuel → iterate_steps W m fuel a = some tags.length := by
  intro tags
  induction tags with
  | nil =>
    intro a fuel h hf
    have ha : a = t := h
    subst ha
    cases fuel with
    | zero => omega
    | succ f => simp [iterate_steps, iterator_ne_end_false m a hlast]
  | cons p ps ih =>
    intro a fuel h hf
    obtain ⟨h1, h2, h3, h4⟩ := h
    cases fuel with
    | zero => simp at hf
    | succ f =>
      have hne : item.type m a ≠ LAST := by rw [h1]; exact h2
      have hf1 : ps.length < f := by simpa using hf
      rw [iterate_steps, iterator_ne_end_true m a hne, if_pos rfl,
        item_next_exact W m a (by omega), ih _ f h4 hf1]
      rfl

theorem _set_loop_walk (W : Nat) (m : Mem) (p t : Nat) (ht : t < wordMod W)
    (hlast : item.type m t = LAST) :
    ∀ (tags : List Nat) (a fuel : Nat) (log : List Assertion), Walk W m a t tags →
      tags.length < fuel →
      _set_loop W m p fuel a log =
        some (t, log ++ List.replicate (tags.count p) Assertion.p_ne_type) := by
  intro tags
  induction tags with
  | nil =>
    intro a fuel log h hf
    have ha : a = t := h
    subst ha
    cases fuel with
    | zero => omega
    | succ f => simp [_set_loop, iterator_ne_end_false m a hlast]
  | cons q ps ih =>
    intro a fuel log h hf
    obtain ⟨h1, h2, h3, h4⟩ := h
    cases fuel with
    | zero => simp at hf
    | succ f =>
      have hne : item.type m a ≠ LAST := by rw [h1]; exact h2
      have hf1 : ps.length < f := by simpa using hf
      rw [_set_loop, iterator_ne_end_true m a hne, if_pos rfl,
        item_next_exact W m a (by omega), ih _ f _ h4 hf1, h1]
      by_cases hpq : p = q
      · subst hpq
        simp [List.replicate_succ]
      · have hqp : ¬ q = p := fun h => hpq h.symm
        simp [hpq, List.count_cons, hqp]

theorem _get_loop_skip (W : Nat) (s : Property_sequence) (m : Mem) (p t : Nat)
    (ht : t < wordMod W) :
    ∀ (tags : List Nat) (a fuel : Nat) (log : List Assertion), Walk W m a t tags →
      p ∉ tags → tags.length < fuel →
      ∃ log1, _get_loop W s m p fuel a log = _get_loop W s m p (fuel - tags.length) t log1 := by
  intro tags
  induction tags with
  | nil =>
    intro a fuel log h _ _
    have ha : a = t := h
    subst ha
    exact ⟨log, rfl⟩
  | cons q ps ih =>
    intro a fuel log h hp hf
    obtain ⟨h1, h2, h3, h4⟩ := h
    cases fuel with
    | zero => simp at hf
    | succ f =>
      have hne : item.type m a ≠ LAST := by rw [h1]; exact h2
      have hf1 : ps.length < f := by simpa using hf
      have hpq : ¬ p = item.type m a := by
        rw [h1]
        intro h
        exact hp (by simp [h])
      have hps : p ∉ ps := fun h => hp (List.mem_cons_of_mem _ h)
      obtain ⟨log1, hlog1⟩ := ih _ f
        (if s._mem.end_ W ≥ (a + item.size W m a) % wordMod W then log
          else log ++ [Assertion.mem_end_ge_item_end]) h4 hps hf1
      refine ⟨log1, ?_⟩
      rw [_get_loop, iterator_ne_end_true m a hne, if_pos rfl]
      simp only [if_neg hpq]
      rw [item_next_exact W m a (by omega), hlog1]
      simp

theorem _get_loop_found (W : Nat) (s : Property_sequence) (m : Mem) (p t : Nat)
    (ht : t < wordMod W) :
    ∀ (tags : List Nat) (a fuel : Nat) (log : List Assertion), Walk W m a t tags →
      p ∈ tags → tags.length < fuel →
      ∃ i log1, _get_loop W s m p fuel a log = ⟨log1, .ret i⟩ ∧ a ≤ i ∧
        i + hdr W + item.size W m i ≤ t ∧ item.type m i = p := by
  intro tags
  induction tags with
  | nil => intro a fuel log _ hp; simp at hp
  | cons q ps ih =>
    intro a fuel log h hp hf
    obtain ⟨h1, h2, h3, h4⟩ := h
    cases fuel with
    | zero => simp at hf
    | succ f =>
      have hne : item.type m a ≠ LAST := by rw [h1]; exact h2
      have hf1 : ps.length < f := by simpa using hf
      by_cases hpq : p = item.type m a
      · refine ⟨a, (if s._mem.end_ W ≥ (a + item.size W m a) % wordMod W then log
          else log ++ [Assertion.mem_end_ge_item_end]), ?_, le_refl a, h3, hpq.symm⟩
        rw [_get_loop, iterator_ne_end_true m a hne, if_pos rfl]
        simp only [if_pos hpq]
      · have hps : p ∈ ps := by
          rcases List.mem_cons.mp hp with h | h
          · exact absurd (h.trans h1.symm) hpq
          · exact h
        obtain ⟨i, log1, hi, hai, hit, hip⟩ := ih _ f
          (if s._mem.end_ W ≥ (a + item.size W m a) % wordMod W then log
            else log ++ [Assertion.mem_end_ge_item_end]) h4 hps hf1
        refine ⟨i, log1, ?_, by omega, hit, hip⟩
        rw [_get_loop, iterator_ne_end_true m a hne, if_pos rfl]
        simp only [if_neg hpq]
        rw [item_next_exact W m a (by omega), hi]

theorem _get_loop_congr (W : Nat) (hW : 0 < W) (s : Property_sequence) (m1 m : Mem) (p t : Nat)
    (ht : t < wordMod W) :
    ∀ (tags : List Nat) (a fuel : Nat) (log : List Assertion), Walk W m a t tags →
      p ∈ tags → (∀ x, a ≤ x → x < t → m1 x = m x) →
      _get_loop W s m1 p fuel a log = _get_loop W s m p fuel a log := by
  intro tags
  induction tags with
  | nil => intro a fuel log _ hp; simp at hp
  | cons q ps ih =>
    intro a fuel log h hp hm
    obtain ⟨h1, h2, h3, h4⟩ := h
    cases fuel with
    | zero => rfl
    | succ f =>
      have hne : item.type m a ≠ LAST := by rw [h1]; exact h2
      have hs : item.size W m1 a = item.size W m a :=
        item_size_congr W m1 m a (fun x hx1 hx2 => hm x (by omega) (by omega))
      have hty : item.type m1 a = item.type m a := hm a (le_refl a) (by unfold hdr at h3; omega)
      have hne1 : item.type m1 a ≠ LAST := by rw [hty]; exact hne
      rw [_get_loop, _get_loop, iterator_ne_end_true m a hne, iterator_ne_end_true m1 a hne1,
        if_pos rfl, if_pos rfl]
      simp only [hs, hty]
      by_cases hpq : p = item.type m a
      · simp only [if_pos hpq]
      · have hps : p ∈ ps := by
          rcases List.mem_cons.mp hp with h | h
          · exact absurd (h.trans h1.symm) hpq
          · exact h
        simp only [if_neg hpq]
        rw [item_next_exact W m a (by omega), item_next_exact W m1 a (by rw [hs]; omega), hs]
        exact ih _ f _ h4 hps (fun x hx1 hx2 => hm x (by omega) hx2)

end Property_sequence

/-! ## What `_set` writes -/

theorem item_size_set_size (W : Nat) (m : Mem) (a v : Nat) (hv : v < wordMod W) :
    item.size W (item.set_size W m a v) a = v := by
  unfold item.size item.set_size
  rw [readWord_writeWord, ← wordMod_eq]
  exact Nat.mod_eq_of_lt hv

theorem set_record_below (W : Nat) (m : Mem) (last p size data x : Nat) (hx : x < last) :
    set_record W m last p size data x = m x := by
  unfold set_record item.data item.set_size item.set_type hdr
  rw [memcpy_apply, if_neg (by omega), memset_apply, if_neg (by omega),
    writeWord_outside _ _ _ _ _ (by omega), write_apply, if_neg (by omega)]

theorem set_record_above (W : Nat) (hW : 0 < W) (m : Mem) (last p size data x : Nat)
    (hx : last + hdr W + size ≤ x) : set_record W m last p size data x = m x := by
  unfold hdr at hx
  unfold set_record item.data item.set_size item.set_type hdr
  rw [memcpy_apply, if_neg (by omega), memset_apply, if_neg (by omega),
    writeWord_outside _ _ _ _ _ (by omega), write_apply, if_neg (by omega)]

theorem set_record_type (W : Nat) (hW : 0 < W) (m : Mem) (last p size data : Nat) :
    item.type (set_record W m last p size data) last = p := by
  unfold item.type set_record item.data item.set_size item.set_type hdr
  rw [memcpy_apply, if_neg (by omega), memset_apply, if_neg (by omega),
    writeWord_outside _ _ _ _ _ (by omega), write_apply, if_pos rfl]

theorem set_record_size (W : Nat) (m : Mem) (last p size data : Nat) (hs : size < wordMod W) :
    item.size W (set_record W m last p size data) last = size := by
  refine Eq.trans ?_ (item_size_set_size W (item.set_type m last p) last size hs)
  apply item_size_congr
  intro x h1 h2
  unfold set_record item.data
  rw [memcpy_apply, if_neg (by omega), memset_apply, if_neg (by omega)]

theorem set_record_payload (W : Nat) (hW : 0 < W) (m : Mem) (last p size data k : Nat)
    (hk : k < size) (hd : data + size ≤ last ∨ last + hdr W + size ≤ data) :
    set_record W m last p size data (last + hdr W + k) = m (data + k) := by
  unfold hdr at hd
  unfold set_record item.data item.set_size item.set_type hdr
  rw [memcpy_apply, if_pos (by omega), memset_apply, if_neg (by omega),
    writeWord_outside _ _ _ _ _ (by omega), write_apply, if_neg (by omega)]
  congr 1
  omega

theorem set_tail_outside (W : Nat) (hW : 0 < W) (m : Mem) (tail x : Nat)
    (hx : x < tail ∨ tail + hdr W ≤ x) :
    set_tail W m tail x = m x := by
  unfold hdr at hx
  unfold set_tail item.set_size item.set_type
  rw [writeWord_outside _ _ _ _ _ (by omega), write_apply, if_neg (by omega)]

theorem set_tail_type (W : Nat) (m : Mem) (tail : Nat) :
    item.type (set_tail W m tail) tail = LAST := by
  unfold item.type set_tail item.set_size item.set_type
  rw [writeWord_outside _ _ _ _ _ (by omega), write_apply, if_pos rfl]

namespace Property_sequence

theorem _set_eq (W fuel : Nat) (s : Property_sequence) (m : Mem) (tags : List Nat)
    (t p size data : Nat) (wf : Well_formed W s m tags t) (hf : tags.length < fuel)
    (hx : t + hdr W + size + hdr W < wordMod W) :
    _set W fuel s m p size data =
      if s._mem._data + s._mem._size < t + hdr W + size then
        ⟨m, set_log p tags, .thrown .Not_enough_space_for_data⟩
      else if s._mem._data + s._mem._size < t + hdr W + size + hdr W then
        ⟨set_record W m t p size data, set_log p tags, .thrown .Not_enough_space_for_tail⟩
      else
        ⟨set_tail W (set_record W m t p size data) (t + hdr W + size), set_log p tags,
          .ret ()⟩ := by
  have hend : s._mem.end_ W = s._mem._data + s._mem._size := Nat.mod_eq_of_lt wf.end_lt
  have hloop := _set_loop_walk W m p t (by omega) wf.last tags s._begin fuel
    (if p ≠ 0 then [] else [Assertion.p_ne_0]) wf.walk hf
  have hsz : item.size W (item.set_size W (item.set_type m t p) t size) t = size :=
    item_size_set_size W _ t size (by omega)
  have hnext : item.next W (set_record W m t p size data) t = t + hdr W + size := by
    rw [item_next_exact, set_record_size W m t p size data (by omega)]
    rw [set_record_size W m t p size data (by omega)]
    omega
  unfold _set
  rw [hloop]
  simp only
  rw [hend, Nat.mod_eq_of_lt (by omega : t + hdr W + size < wordMod W), hsz]
  change (if s._mem._data + s._mem._size < t + hdr W + size then _ else
    if s._mem._data + s._mem._size <
      (item.next W (set_record W m t p size data) t + hdr W) % wordMod W then _ else
      (⟨set_tail W (set_record W m t p size data)
        (item.next W (set_record W m t p size data) t), _, _⟩ : Set_result)) = _
  rw [hnext, Nat.mod_eq_of_lt hx]
  rfl

end Property_sequence

/-! ## Well-formedness is established by `reset` and kept by `_set` -/

theorem writeWord_zero_inside (n : Nat) : ∀ (m : Mem) (a x : Nat), a ≤ x → x < a + n →
    writeWord m a 0 n x = 0 := by
  induction n with
  | zero => intro m a x h1 h2; omega
  | succ n ih =>
    intro m a x h1 h2
    rw [writeWord]
    by_cases hxa : x = a
    · rw [writeWord_outside n _ _ _ _ (by omega), write_apply, if_pos hxa]
    · exact ih _ _ _ (by omega) (by omega)

namespace Property_sequence

theorem reset_apply (W : Nat) (s : Property_sequence) (m : Mem) (x : Nat) :
    reset W s m x =
      if (s._mem._data ≤ x ∧ x < s._mem._data + s._mem._size) ∨ x = s._begin ∨
          (s._begin + W ≤ x ∧ x < s._begin + hdr W) then 0
      else m x := by
  unfold reset item.set_size item.set_type Data_descriptor_template.nullify hdr LAST
  by_cases h3 : s._begin + W ≤ x ∧ x < s._begin + 2 * W
  · rw [writeWord_zero_inside _ _ _ _ h3.1 (by omega), if_pos (Or.inr (Or.inr h3))]
  · rw [writeWord_outside _ _ _ _ _ (by omega), write_apply]
    by_cases h2 : x = s._begin
    · rw [if_pos h2, if_pos (Or.inr (Or.inl h2))]
    · rw [if_neg h2]
      show memset m s._mem._data 0 s._mem._size x = _
      rw [memset_apply]
      by_cases h1 : s._mem._data ≤ x ∧ x < s._mem._data + s._mem._size
      · rw [if_pos h1, if_pos (Or.inl h1)]
      · rw [if_neg h1, if_neg (by tauto)]

theorem fresh_well_formed (W : Nat) (mem : Data_descriptor_mod) (m0 : Mem) (hW : 0 < W)
    (hend : mem._data + mem._size < wordMod W) (hN : hdr W ≤ mem._size) :
    Well_formed W (fresh W mem m0).1 (fresh W mem m0).2 [] mem._data := by
  refine ⟨hW, rfl, hend, rfl, ?_, by simpa [fresh] using hN⟩
  show reset W ⟨mem, mem.data⟩ m0 mem._data = LAST
  rw [reset_apply]
  simp [Data_descriptor_template.data, LAST]

theorem Well_formed_congr (W : Nat) (s : Property_sequence) (m1 m : Mem) (tags : List Nat)
    (t : Nat) (wf : Well_formed W s m tags t) (h : ∀ x, s._begin ≤ x → x ≤ t → m1 x = m x) :
    Well_formed W s m1 tags t := by
  refine ⟨wf.word, wf.begin_eq, wf.end_lt, ?_, ?_, wf.fits⟩
  · exact Walk_congr W wf.word m1 m t tags _ (fun x h1 h2 => h x h1 (le_of_lt h2)) wf.walk
  · have := h t (Walk_le W m t tags _ wf.walk) (le_refl t)
    unfold item.type
    rw [this]
    exact wf.last

theorem Well_formed_unique (W : Nat) (s : Property_sequence) (m : Mem) (tags : List Nat)
    (t fuel last : Nat) (wf : Well_formed W s m tags t)
    (h : last_item W m fuel s._begin = some last) : tags.length < fuel ∧ last = t := by
  have hfit := wf.fits
  have hend := wf.end_lt
  rw [last_item_walk W m t (by omega) wf.last tags _ fuel wf.walk] at h
  by_cases hf : tags.length < fuel
  · rw [if_pos hf] at h
    exact ⟨hf, (Option.some.inj h).symm⟩
  · rw [if_neg hf] at h
    cases h

theorem _set_well_formed (W fuel : Nat) (s : Property_sequence) (m : Mem) (tags : List Nat)
    (t p size data : Nat) (wf : Well_formed W s m tags t) (hf : tags.length < fuel)
    (hx : t + hdr W + size + hdr W < wordMod W)
    (hret : (_set W fuel s m p size data).outcome = .ret ()) :
    Well_formed W s (_set W fuel s m p size data).mem
      (if p = LAST then tags else tags ++ [p]) (if p = LAST then t else t + hdr W + size) := by
  have hW := wf.word
  have hH : 0 < hdr W := by unfold hdr; omega
  rw [_set_eq W fuel s m tags t p size data wf hf hx] at hret ⊢
  by_cases h1 : s._mem._data + s._mem._size < t + hdr W + size
  · rw [if_pos h1] at hret
    cases hret
  rw [if_neg h1] at hret ⊢
  by_cases h2 : s._mem._data + s._mem._size < t + hdr W + size + hdr W
  · rw [if_pos h2] at hret
    cases hret
  rw [if_neg h2]
  have hbelow : ∀ x, x < t →
      set_tail W (set_record W m t p size data) (t + hdr W + size) x = m x := by
    intro x hxt
    rw [set_tail_outside W hW _ _ _ (by omega), set_record_below W m t p size data x hxt]
  have hwalk : Walk W (set_tail W (set_record W m t p size data) (t + hdr W + size))
      s._begin t tags :=
    Walk_congr W hW _ m t tags _ (fun x _ h2 => hbelow x h2) wf.walk
  have htype : item.type (set_tail W (set_record W m t p size data) (t + hdr W + size)) t
      = p := by
    unfold item.type
    rw [set_tail_outside W hW _ _ _ (by omega)]
    exact set_record_type W hW m t p size data
  have hsize : item.size W (set_tail W (set_record W m t p size data) (t + hdr W + size)) t
      = size := by
    rw [item_size_congr W _ (set_record W m t p size data) t
      (fun x _ h2 => set_tail_outside W hW _ _ _ (by omega))]
    exact set_record_size W m t p size data (by omega)
  by_cases hp : p = LAST
  · rw [if_pos hp, if_pos hp]
    exact ⟨hW, wf.begin_eq, wf.end_lt, hwalk, htype.trans hp, wf.fits⟩
  · rw [if_neg hp, if_neg hp]
    refine ⟨hW, wf.begin_eq, wf.end_lt, ?_, set_tail_type W _ _, by omega⟩
    have := Walk_snoc W _ t (by rw [htype]; exact hp) tags _ hwalk
    rw [htype, hsize] at this
    exact this

end Property_sequence

theorem Filled_well_formed (W : Nat) (mem : Data_descriptor_mod) (hW : 0 < W)
    (hend : mem._data + mem._size < wordMod W) (hN : hdr W ≤ mem._size)
    (s : Property_sequence) (calls : List Nat) (m : Mem) (h : Filled W mem s calls m) :
    s = ⟨mem, mem._data⟩ ∧ ∃ t, Well_formed W s m (calls.filter (fun q => q ≠ LAST)) t := by
  induction h with
  | fresh m0 => exact ⟨rfl, mem._data, Property_sequence.fresh_well_formed W mem m0 hW hend hN⟩
  | @set s calls m fuel p size data _ hexact hret ih =>
    obtain ⟨hs, t, wf⟩ := ih
    obtain ⟨last, hlast, hx⟩ := hexact
    obtain ⟨hf, hlt⟩ := Property_sequence.Well_formed_unique W s m _ t fuel last wf hlast
    subst hlt
    refine ⟨hs, (if p = LAST then last else last + hdr W + size), ?_⟩
    have := Property_sequence._set_well_formed W fuel s m _ last p size data wf hf hx hret
    by_cases hp : p = LAST
    · rw [if_pos hp, if_pos hp] at this
      simpa [List.filter_append, hp] using this
    · rw [if_neg hp, if_neg hp] at this
      simpa [List.filter_append, hp] using this
  | @frame s calls m m1 _ hm ih =>
    obtain ⟨hs, t, wf⟩ := ih
    refine ⟨hs, t, Property_sequence.Well_formed_congr W s m1 m _ t wf ?_⟩
    intro x h1 h2
    have hfit := wf.fits
    have hb := wf.begin_eq
    have hW2 : 0 < hdr W := by unfold hdr; omega
    subst hs
    exact hm x (by simpa using (hb ▸ h1)) (by simp at hfit; omega)

/-! ## The memory after a `_set` that returns -/

theorem set_done_below (W : Nat) (hW : 0 < W) (m : Mem) (t p size data x : Nat) (hx : x < t) :
    set_done W m t p size data x = m x := by
  unfold set_done
  rw [set_tail_outside W hW _ _ _ (by omega), set_record_below W m t p size data x hx]

theorem set_done_above (W : Nat) (hW : 0 < W) (m : Mem) (t p size data x : Nat)
    (hx : t + hdr W + size + hdr W ≤ x) : set_done W m t p size data x = m x := by
  unfold set_done
  rw [set_tail_outside W hW _ _ _ (by omega), set_record_above W hW m t p size data x (by omega)]

theorem set_done_type (W : Nat) (hW : 0 < W) (m : Mem) (t p size data : Nat) :
    item.type (set_done W m t p size data) t = p := by
  have hH : 0 < hdr W := by unfold hdr; omega
  unfold item.type set_done
  rw [set_tail_outside W hW _ _ _ (by omega)]
  exact set_record_type W hW m t p size data

theorem set_done_size (W : Nat) (hW : 0 < W) (m : Mem) (t p size data : Nat)
    (hs : size < wordMod W) : item.size W (set_done W m t p size data) t = size := by
  unfold set_done
  rw [item_size_congr W _ (set_record W m t p size data) t
    (fun x _ h2 => set_tail_outside W hW _ _ _ (by omega))]
  exact set_record_size W m t p size data hs

theorem set_done_payload (W : Nat) (hW : 0 < W) (m : Mem) (t p size data k : Nat)
    (hk : k < size) (hd : data + size ≤ t ∨ t + hdr W + size ≤ data) :
    set_done W m t p size data (t + hdr W + k) = m (data + k) := by
  unfold set_done
  rw [set_tail_outside W hW _ _ _ (by omega)]
  exact set_record_payload W hW m t p size data k hk hd

namespace Property_sequence

theorem _set_ret (W fuel : Nat) (s : Property_sequence) (m : Mem) (tags : List Nat)
    (t p size data : Nat) (wf : Well_formed W s m tags t) (hf : tags.length < fuel)
    (hfit : t + hdr W + size + hdr W ≤ s._mem._data + s._mem._size) :
    _set W fuel s m p size data = ⟨set_done W m t p size data, set_log p tags, .ret ()⟩ := by
  have hend := wf.end_lt
  rw [_set_eq W fuel s m tags t p size data wf hf (by omega), if_neg (by omega),
    if_neg (by omega)]
  rfl

theorem _set_below (W fuel : Nat) (s : Property_sequence) (m : Mem) (tags : List Nat)
    (t p size data : Nat) (wf : Well_formed W s m tags t) (hf : tags.length < fuel)
    (hx : t + hdr W + size + hdr W < wordMod W) (x : Nat) (hxt : x < t) :
    (_set W fuel s m p size data).mem x = m x := by
  rw [_set_eq W fuel s m tags t p size data wf hf hx]
  split_ifs
  · rfl
  · exact set_record_below W m t p size data x hxt
  · exact set_done_below W wf.word m t p size data x hxt

theorem _get_new (W fuel : Nat) (s : Property_sequence) (m : Mem) (tags : List Nat)
    (t p : Nat) (ht : t < wordMod W) (hwalk : Walk W m s._begin t tags)
    (hnew : p ∉ tags) (hp : p ≠ LAST) (htype : item.type m t = p) (hf : tags.length < fuel) :
    ∃ log1, _get W fuel s m p = ⟨log1, .ret t⟩ := by
  unfold _get
  obtain ⟨log1, h1⟩ := _get_loop_skip W s m p t ht tags s._begin fuel
    (if p ≠ LAST then [] else [Assertion.p_ne_LAST]) hwalk hnew hf
  rw [h1]
  obtain ⟨f, hf1⟩ : ∃ f, fuel - tags.length = f + 1 := ⟨fuel - tags.length - 1, by omega⟩
  rw [hf1, _get_loop, iterator_ne_end_true m t (by rw [htype]; exact hp), if_pos rfl]
  simp only [if_pos htype.symm]
  exact ⟨_, rfl⟩

theorem _get_absent (W fuel : Nat) (s : Property_sequence) (m : Mem) (tags : List Nat)
    (t p : Nat) (wf : Well_formed W s m tags t) (hnew : p ∉ tags) (hf : tags.length < fuel) :
    ∃ log1, _get W fuel s m p = ⟨log1, .thrown .Property_not_found⟩ := by
  have hfit := wf.fits
  have hend := wf.end_lt
  unfold _get
  obtain ⟨log1, h1⟩ := _get_loop_skip W s m p t (by omega) tags s._begin fuel
    (if p ≠ LAST then [] else [Assertion.p_ne_LAST]) wf.walk hnew hf
  rw [h1]
  obtain ⟨f, hf1⟩ : ∃ f, fuel - tags.length = f + 1 := ⟨fuel - tags.length - 1, by omega⟩
  rw [hf1, _get_loop, iterator_ne_end_false m t wf.last]
  exact ⟨_, rfl⟩

theorem _get_present (W fuel : Nat) (s : Property_sequence) (m : Mem) (tags : List Nat)
    (t p : Nat) (wf : Well_formed W s m tags t) (hmem : p ∈ tags) (hf : tags.length < fuel) :
    ∃ i log1, _get W fuel s m p = ⟨log1, .ret i⟩ ∧ s._begin ≤ i ∧
      i + hdr W + item.size W m i ≤ t ∧ item.type m i = p := by
  have hfit := wf.fits
  have hend := wf.end_lt
  unfold _get
  exact _get_loop_found W s m p t (by omega) tags s._begin fuel _ wf.walk hmem hf

theorem _get_frame (W fuel : Nat) (s : Property_sequence) (m1 m : Mem) (tags : List Nat)
    (t p : Nat) (wf : Well_formed W s m tags t) (hmem : p ∈ tags)
    (hm : ∀ x, x < t → m1 x = m x) : _get W fuel s m1 p = _get W fuel s m p := by
  have hfit := wf.fits
  have hend := wf.end_lt
  unfold _get
  exact _get_loop_congr W wf.word s m1 m p t (by omega) tags s._begin fuel _ wf.walk hmem
    (fun x _ h2 => hm x h2)

theorem get_string_frame (W fuel : Nat) (s : Property_sequence) (m1 m : Mem) (tags : List Nat)
    (t p : Nat) (wf : Well_formed W s m tags t) (hmem : p ∈ tags) (hf : tags.length < fuel)
    (hm : ∀ x, x < t → m1 x = m x) (out : List Nat) :
    get_string W fuel s m1 p out = get_string W fuel s m p out := by
  obtain ⟨i, log1, hi, _, hit, _⟩ := _get_present W fuel s m tags t p wf hmem hf
  have hs : item.size W m1 i = item.size W m i :=
    item_size_congr W m1 m i (fun x _ h2 => hm x (by omega))
  unfold get_string
  rw [_get_frame W fuel s m1 m tags t p wf hmem hm, hi]
  simp only [hs]
  rw [readBytes_congr m1 m _ _ _ (fun k hk => hm _ (by unfold item.data; omega))]

theorem get_descriptor_frame (W fuel : Nat) (s : Property_sequence) (m1 m : Mem)
    (tags : List Nat) (t p : Nat) (wf : Well_formed W s m tags t) (hmem : p ∈ tags)
    (hf : tags.length < fuel) (hm : ∀ x, x < t → m1 x = m x) (out : Data_descriptor_mod) :
    get_descriptor W fuel s m1 p out = get_descriptor W fuel s m p out := by
  obtain ⟨i, log1, hi, _, hit, _⟩ := _get_present W fuel s m tags t p wf hmem hf
  have hs : item.size W m1 i = item.size W m i :=
    item_size_congr W m1 m i (fun x _ h2 => hm x (by omega))
  unfold get_descriptor
  rw [_get_frame W fuel s m1 m tags t p wf hmem hm, hi]
  simp only [hs]

theorem get_frame (W fuel : Nat) (s : Property_sequence) (m1 m : Mem) (tags : List Nat)
    (t p n : Nat) (wf : Well_formed W s m tags t) (hmem : p ∈ tags) (hf : tags.length < fuel)
    (hm : ∀ x, x < t → m1 x = m x)
    (hn : ∀ log i, _get W fuel s m p = ⟨log, .ret i⟩ → n ≤ item.size W m i) (out : List Nat) :
    get W fuel s m1 p n out = get W fuel s m p n out := by
  obtain ⟨i, log1, hi, _, hit, _⟩ := _get_present W fuel s m tags t p wf hmem hf
  have hni := hn log1 i hi
  unfold get
  rw [_get_frame W fuel s m1 m tags t p wf hmem hm, hi]
  simp only
  rw [readBytes_congr m1 m _ _ _ (fun k hk => hm _ (by unfold item.data; omega))]

end Property_sequence

/-! ## Shared consequences -/

theorem Filled_terminator (W : Nat) (mem : Data_descriptor_mod) (hW : 0 < W)
    (hend : mem._data + mem._size < wordMod W) (hN : hdr W ≤ mem._size)
    (s : Property_sequence) (calls : List Nat) (m : Mem) (h : Filled W mem s calls m)
    (fuel0 a : Nat) (hu : Property_sequence.last_item W m fuel0 s._begin = some a) :
    s = ⟨mem, mem._data⟩ ∧ Well_formed W s m (calls.filter (fun q => q ≠ LAST)) a ∧
      (calls.filter (fun q => q ≠ LAST)).length < fuel0 := by
  obtain ⟨hs, t, wf⟩ := Filled_well_formed W mem hW hend hN s calls m h
  obtain ⟨hf, hat⟩ := Property_sequence.Well_formed_unique W s m _ t fuel0 a wf hu
  subst hat
  exact ⟨hs, wf, hf⟩

theorem set_then_get (W fuel : Nat) (s : Property_sequence) (m : Mem) (tags : List Nat)
    (t p size data : Nat) (wf : Well_formed W s m tags t) (hnew : p ∉ tags) (hp : p ≠ LAST)
    (hf : tags.length < fuel)
    (hfit : t + hdr W + size + hdr W ≤ s._mem._data + s._mem._size)
    (hsep : data + size ≤ t ∨ t + hdr W + size ≤ data) :
    Property_sequence._set W fuel s m p size data =
        ⟨set_done W m t p size data, set_log p tags, .ret ()⟩ ∧
      (∃ log1, Property_sequence._get W fuel s (set_done W m t p size data) p =
        ⟨log1, .ret t⟩) ∧
      item.size W (set_done W m t p size data) t = size ∧
      readBytes (set_done W m t p size data) (item.data W t) size = readBytes m data size := by
  have hW := wf.word
  have hend := wf.end_lt
  refine ⟨Property_sequence._set_ret W fuel s m tags t p size data wf hf hfit, ?_,
    set_done_size W hW m t p size data (by omega), ?_⟩
  · apply Property_sequence._get_new W fuel s _ tags t p (by omega) ?_ hnew hp
      (set_done_type W hW m t p size data) hf
    exact Walk_congr W hW _ m t tags _
      (fun x _ h2 => set_done_below W hW m t p size data x h2) wf.walk
  · apply readBytes_congr
    intro k hk
    exact set_done_payload W hW m t p size data k hk hsep

/-! ## The claims -/

/-- Round trip of fixed-size values while no `size_t` sum wraps: what holds of C1.  A store is
made in fresh mode over the Region `mem` (inside the address space) and filled by `set` calls that
returned normally and whose sums `item_end` and `tail_end` were exact (`Filled`); its terminator
is at offset `u`.  For a tag `p ≠ 0` not set so far and an object of `n = sizeof(T)` bytes `v` at
address `value`, not overlapping the bytes of the record to be written, with `u + header + n +
header ≤ N`: `set<p,T>` returns normally and a following `get<p,T>( out )` returns normally and
leaves exactly the bytes `v` in `out`.  Any fuel that lets the walk reach the terminator is
enough. -/
theorem set_get_round_trip_fixed (W : Nat) (mem : Data_descriptor_mod) (s : Property_sequence)
    (calls : List Nat) (m : Mem) (fuel0 u p n value : Nat) (v : List Nat)
    (hW : 0 < W) (hend : mem._data + mem._size < wordMod W)
    (hfilled : Filled W mem s calls m)
    (hu : Property_sequence.last_item W m fuel0 s._begin = some (mem._data + u))
    (hp : p ≠ 0) (hnew : p ∉ calls)
    (hfit : u + hdr W + n + hdr W ≤ mem._size)
    (hv : readBytes m value n = v)
    (hsep : value + n ≤ mem._data + u ∨ mem._data + u + hdr W + n ≤ value)
    (fuel : Nat) (hfuel : fuel0 ≤ fuel) (out : List Nat) :
    (Property_sequence.set W fuel s m p n value).outcome = .ret () ∧
    (Property_sequence.get W fuel s (Property_sequence.set W fuel s m p n value).mem
      p n out).1.outcome = .ret () ∧
    (Property_sequence.get W fuel s (Property_sequence.set W fuel s m p n value).mem
      p n out).2 = v := by
  obtain ⟨hs, wf, hf⟩ := Filled_terminator W mem hW hend (by omega) s calls m hfilled fuel0 _ hu
  have hnew1 : p ∉ calls.filter (fun q => q ≠ LAST) := fun h => hnew (List.mem_filter.mp h).1
  have hfit1 : mem._data + u + hdr W + n + hdr W ≤ s._mem._data + s._mem._size := by
    subst hs
    show mem._data + u + hdr W + n + hdr W ≤ mem._data + mem._size
    omega
  obtain ⟨hset, ⟨log1, hget⟩, _, hbytes⟩ := set_then_get W fuel s m _ (mem._data + u) p n value
    wf hnew1 hp (by omega) hfit1 (by omega)
  have hset1 : Property_sequence.set W fuel s m p n value =
      ⟨set_done W m (mem._data + u) p n value, set_log p _, .ret ()⟩ := hset
  rw [hset1]
  refine ⟨rfl, ?_, ?_⟩
  · show (Property_sequence.get W fuel s (set_done W m (mem._data + u) p n value)
      p n out).1.outcome = .ret ()
    unfold Property_sequence.get
    rw [hget]
  · show (Property_sequence.get W fuel s (set_done W m (mem._data + u) p n value)
      p n out).2 = v
    unfold Property_sequence.get
    rw [hget]
    exact hbytes.trans hv

/-- An instance of `set_get_round_trip_fixed`: on the 64-byte store that already holds a record of
type 2, `set<1>` of the `uint32_t` object `0xDEADBEEF` and then `get<1>`. -/
theorem set_get_round_trip_fixed_witness :
    Filled 8 buf64 store64 [2] mem64_2 ∧
    (Property_sequence.set 8 4 store64 mem64_2 1 4 0x100).outcome = .ret () ∧
    (Property_sequence.get 8 4 store64 (Property_sequence.set 8 4 store64 mem64_2 1 4 0x100).mem
      1 4 [0, 0, 0, 0]).1.outcome = .ret () ∧
    (Property_sequence.get 8 4 store64 (Property_sequence.set 8 4 store64 mem64_2 1 4 0x100).mem
      1 4 [0, 0, 0, 0]).2 = [0xEF, 0xBE, 0xAD, 0xDE] :=
  have hfilled : Filled 8 buf64 store64 [2] mem64_2 :=
    Filled.set 4 2 4 0x200 (Filled.fresh scenario_mem) ⟨0x1000, by decide, by decide⟩
      (by decide)
  ⟨hfilled, set_get_round_trip_fixed 8 buf64 store64 [2] mem64_2 4 20 1 4 0x100
    [0xEF, 0xBE, 0xAD, 0xDE] (by decide) (by decide) hfilled (by decide) (by decide) (by decide)
    (by decide) (by decide) (by decide) 4 (le_refl 4) [0, 0, 0, 0]⟩

/-- Round trip of variable-length values while no `size_t` sum wraps: what holds of C2.  A
store is made in fresh mode over the Region `mem` and filled by `set` calls that returned
normally and whose sums `item_end` and `tail_end` were exact (`Filled`); its terminator is at
offset `u`.  For a
tag `p ≠ 0` not set so far and a byte string `v` of any length, held at `d` (the bytes of a
`Csl::string`, of a `ustring`, or the Region of a `Data_descriptor`), not overlapping the bytes
of the record to be written and such that the record fits: `set<p>` returns normally, whichever
overload is used (they make the same `_set` call); a following `get<p>` into a string returns
exactly `v`, and `get<p>` into a Region returns a Region of length `|v|` whose bytes are `v`. -/
theorem set_get_round_trip_variable (W : Nat) (mem : Data_descriptor_mod)
    (s : Property_sequence) (calls : List Nat) (m : Mem) (fuel0 u p : Nat) (d : Data_descriptor)
    (v : List Nat) (hW : 0 < W) (hend : mem._data + mem._size < wordMod W)
    (hfilled : Filled W mem s calls m)
    (hu : Property_sequence.last_item W m fuel0 s._begin = some (mem._data + u))
    (hp : p ≠ 0) (hnew : p ∉ calls)
    (hfit : u + hdr W + d._size + hdr W ≤ mem._size)
    (hv : readBytes m d._data d._size = v)
    (hsep : d._data + d._size ≤ mem._data + u ∨ mem._data + u + hdr W + d._size ≤ d._data)
    (fuel : Nat) (hfuel : fuel0 ≤ fuel) (out : List Nat) (outd : Data_descriptor_mod) :
    (Property_sequence.set_string W fuel s m p d).outcome = .ret () ∧
    (Property_sequence.set_descriptor W fuel s m p d).outcome = .ret () ∧
    (Property_sequence.set_descriptor W fuel s m p d).mem =
      (Property_sequence.set_string W fuel s m p d).mem ∧
    (Property_sequence.get_string W fuel s (Property_sequence.set_string W fuel s m p d).mem
      p out).1.outcome = .ret () ∧
    (Property_sequence.get_string W fuel s (Property_sequence.set_string W fuel s m p d).mem
      p out).2 = v ∧
    (Property_sequence.get_descriptor W fuel s (Property_sequence.set_string W fuel s m p d).mem
      p outd).1.outcome = .ret () ∧
    (Property_sequence.get_descriptor W fuel s (Property_sequence.set_string W fuel s m p d).mem
      p outd).2._size = v.length ∧
    readBytes (Property_sequence.set_string W fuel s m p d).mem
      (Property_sequence.get_descriptor W fuel s
        (Property_sequence.set_string W fuel s m p d).mem p outd).2._data
      (Property_sequence.get_descriptor W fuel s
        (Property_sequence.set_string W fuel s m p d).mem p outd).2._size = v := by
  obtain ⟨hs, wf, hf⟩ := Filled_terminator W mem hW hend (by omega) s calls m hfilled fuel0 _ hu
  have hnew1 : p ∉ calls.filter (fun q => q ≠ LAST) := fun h => hnew (List.mem_filter.mp h).1
  have hfit1 : mem._data + u + hdr W + d._size + hdr W ≤ s._mem._data + s._mem._size := by
    subst hs
    show mem._data + u + hdr W + d._size + hdr W ≤ mem._data + mem._size
    omega
  obtain ⟨hset, ⟨log1, hget⟩, hsize, hbytes⟩ := set_then_get W fuel s m _ (mem._data + u) p
    d._size d._data wf hnew1 hp (by omega) hfit1 (by omega)
  have hset1 : Property_sequence.set_string W fuel s m p d =
      ⟨set_done W m (mem._data + u) p d._size d._data, set_log p _, .ret ()⟩ := hset
  have hset2 : Property_sequence.set_descriptor W fuel s m p d =
      ⟨set_done W m (mem._data + u) p d._size d._data, set_log p _, .ret ()⟩ := hset
  have hlen : v.length = d._size := by rw [← hv, readBytes_length]
  have hgs : Property_sequence.get_string W fuel s
      (set_done W m (mem._data + u) p d._size d._data) p out = (⟨log1, .ret ()⟩, v) := by
    unfold Property_sequence.get_string
    rw [hget]
    simp only [hsize]
    rw [hbytes, hv]
  have hgd : Property_sequence.get_descriptor W fuel s
      (set_done W m (mem._data + u) p d._size d._data) p outd =
        (⟨log1, .ret ()⟩, ⟨item.data W (mem._data + u), d._size⟩) := by
    unfold Property_sequence.get_descriptor
    rw [hget]
    simp only [hsize]
  rw [hset1, hset2]
  refine ⟨rfl, rfl, rfl, ?_, ?_, ?_, ?_, ?_⟩
  · exact congrArg (fun r => r.1.outcome) hgs
  · exact congrArg (fun r => r.2) hgs
  · exact congrArg (fun r => r.1.outcome) hgd
  · exact (congrArg (fun r => r.2._size) hgd).trans hlen.symm
  · show readBytes (set_done W m (mem._data + u) p d._size d._data)
      (Property_sequence.get_descriptor W fuel s
        (set_done W m (mem._data + u) p d._size d._data) p outd).2._data
      (Property_sequence.get_descriptor W fuel s
        (set_done W m (mem._data + u) p d._size d._data) p outd).2._size = v
    rw [hgd]
    exact hbytes.trans hv

/-- An instance of `set_get_round_trip_variable`: on the 64-byte store that already holds a record
of type 2, `set<1>` of the 7 bytes at address `0x300` and then the two kinds of `get<1>`. -/
theorem set_get_round_trip_variable_witness :
    (Property_sequence.set_string 8 4 store64 mem64_2 1 ⟨0x300, 7⟩).outcome = .ret () ∧
    (Property_sequence.get_string 8 4 store64
      (Property_sequence.set_string 8 4 store64 mem64_2 1 ⟨0x300, 7⟩).mem 1 []).2 =
      [15, 16, 17, 18, 19, 20, 21] ∧
    (Property_sequence.get_descriptor 8 4 store64
      (Property_sequence.set_string 8 4 store64 mem64_2 1 ⟨0x300, 7⟩).mem 1 ⟨0, 0⟩).2._size = 7 :=
  have hfilled : Filled 8 buf64 store64 [2] mem64_2 :=
    Filled.set 4 2 4 0x200 (Filled.fresh scenario_mem) ⟨0x1000, by decide, by decide⟩
      (by decide)
  have h := set_get_round_trip_variable 8 buf64 store64 [2] mem64_2 4 20 1 ⟨0x300, 7⟩
    [15, 16, 17, 18, 19, 20, 21] (by decide) (by decide) hfilled (by decide) (by decide)
    (by decide) (by decide) (by decide) (by decide) 4 (le_refl 4) [] ⟨0, 0⟩
  ⟨h.1, h.2.2.2.2.1, h.2.2.2.2.2.2.1⟩

/-- Counterexample to C3 as stated.  On the 64-byte store that holds `set<1>( 0xDEADBEEF )`, a
second `set<1>` logs the failed assertion `p != i.value->type` and returns normally: it is not
rejected.  The byte at offset 20 of the Region (the type of the item at the old terminator)
changes from 0 to 1, and iteration takes 2 steps instead of 1. -/
theorem duplicate_set_changes_sequence :
    (Property_sequence.set 8 4 store64 mem64_1 1 4 0x200).outcome = .ret () ∧
    (Property_sequence.set 8 4 store64 mem64_1 1 4 0x200).asserts = [Assertion.p_ne_type] ∧
    mem64_1 (0x1000 + 20) = 0 ∧
    (Property_sequence.set 8 4 store64 mem64_1 1 4 0x200).mem (0x1000 + 20) = 1 ∧
    Property_sequence.iterate_steps 8 mem64_1 4 store64._begin = some 1 ∧
    Property_sequence.iterate_steps 8 (Property_sequence.set 8 4 store64 mem64_1 1 4 0x200).mem
      4 store64._begin = some 2 := by
  decide

theorem Walk_ne_LAST (W : Nat) (m : Mem) (t q : Nat) : ∀ (tags : List Nat) (a : Nat),
    Walk W m a t tags → q ∈ tags → q ≠ LAST := by
  intro tags
  induction tags with
  | nil => intro a _ h; simp at h
  | cons p ps ih =>
    intro a h hq
    rcases List.mem_cons.mp hq with h1 | h1
    · rw [h1]; exact h.2.1
    · exact ih _ h.2.2.2 h1

/-- C3, amended.  On a well-formed store that holds a record of type `p`, with exact address
arithmetic, a second `set<p>` logs the failed assertion `p != i.value->type` (the only signal of
a duplicate) and is then carried out like any other `set`: it returns normally exactly when the
record and a new terminator fit, and then the records are the old ones followed by a second
record of type `p`.  In every case no byte before the old terminator changes and `get<p>`
returns what it returned before the call, the value of the first record of type `p` (for the
fixed-size `get` of `n` bytes, when `n` is at most the stored length). -/
theorem duplicate_set_appends (W fuel : Nat) (s : Property_sequence) (m : Mem)
    (tags : List Nat) (t p size data : Nat) (wf : Well_formed W s m tags t) (hdup : p ∈ tags)
    (hf : tags.length < fuel) (hx : t + hdr W + size + hdr W < wordMod W) :
    Assertion.p_ne_type ∈ (Property_sequence._set W fuel s m p size data).asserts ∧
    ((Property_sequence._set W fuel s m p size data).outcome = .ret () ↔
      t + hdr W + size + hdr W ≤ s._mem._data + s._mem._size) ∧
    ((Property_sequence._set W fuel s m p size data).outcome.out_of_space = true ↔
      s._mem._data + s._mem._size < t + hdr W + size + hdr W) ∧
    ((Property_sequence._set W fuel s m p size data).outcome = .ret () →
      Well_formed W s (Property_sequence._set W fuel s m p size data).mem (tags ++ [p])
        (t + hdr W + size)) ∧
    (∀ x, x < t → (Property_sequence._set W fuel s m p size data).mem x = m x) ∧
    (∀ out, Property_sequence.get_string W fuel s
        (Property_sequence._set W fuel s m p size data).mem p out =
      Property_sequence.get_string W fuel s m p out) ∧
    (∀ out, Property_sequence.get_descriptor W fuel s
        (Property_sequence._set W fuel s m p size data).mem p out =
      Property_sequence.get_descriptor W fuel s m p out) ∧
    (∀ n out, (∀ log i, Property_sequence._get W fuel s m p = ⟨log, .ret i⟩ →
        n ≤ item.size W m i) →
      Property_sequence.get W fuel s (Property_sequence._set W fuel s m p size data).mem p n out =
        Property_sequence.get W fuel s m p n out) := by
  have hbelow := Property_sequence._set_below W fuel s m tags t p size data wf hf hx
  have hpne : p ≠ LAST := Walk_ne_LAST W m t p tags _ wf.walk hdup
  refine ⟨?_, ?_, ?_, ?_, hbelow, ?_, ?_, ?_⟩
  · have hlog : (Property_sequence._set W fuel s m p size data).asserts = set_log p tags := by
      rw [Property_sequence._set_eq W fuel s m tags t p size data wf hf hx]
      split_ifs <;> rfl
    rw [hlog]
    unfold set_log
    apply List.mem_append_right
    obtain ⟨k, hk⟩ : ∃ k, tags.count p = k + 1 :=
      ⟨tags.count p - 1, by have := List.count_pos_iff.mpr hdup; omega⟩
    rw [hk, List.replicate_succ]
    exact List.mem_cons_self _ _
  · rw [Property_sequence._set_eq W fuel s m tags t p size data wf hf hx]
    split_ifs with h1 h2
    · constructor
      · intro h; cases h
      · intro h; omega
    · constructor
      · intro h; cases h
      · intro h; omega
    · constructor
      · intro _; omega
      · intro _; rfl
  · rw [Property_sequence._set_eq W fuel s m tags t p size data wf hf hx]
    split_ifs with h1 h2
    · simp only [Outcome.out_of_space, true_iff]
      omega
    · simp only [Outcome.out_of_space, true_iff]
      omega
    · simp only [Outcome.out_of_space, Bool.false_eq_true, false_iff]
      omega
  · intro hret
    have := Property_sequence._set_well_formed W fuel s m tags t p size data wf hf hx hret
    rw [if_neg hpne, if_neg hpne] at this
    exact this
  · intro out
    exact Property_sequence.get_string_frame W fuel s _ m tags t p wf hdup hf hbelow out
  · intro out
    exact Property_sequence.get_descriptor_frame W fuel s _ m tags t p wf hdup hf hbelow out
  · intro n out hn
    exact Property_sequence.get_frame W fuel s _ m tags t p n wf hdup hf hbelow hn out

/-- Witness of the amended C3: the second `set<1>` on the 64-byte store that holds
`set<1>( 0xDEADBEEF )`. -/
theorem duplicate_set_appends_witness :
    Well_formed 8 store64 mem64_1 [1] (0x1000 + 20) ∧
    Assertion.p_ne_type ∈ (Property_sequence._set 8 4 store64 mem64_1 1 4 0x200).asserts ∧
    Property_sequence.get_string 8 4 store64
        (Property_sequence._set 8 4 store64 mem64_1 1 4 0x200).mem 1 [] =
      Property_sequence.get_string 8 4 store64 mem64_1 1 [] :=
  have wf : Well_formed 8 store64 mem64_1 [1] (0x1000 + 20) :=
    ⟨by decide, by decide, by decide, by decide, by decide, by decide⟩
  have h := duplicate_set_appends 8 4 store64 mem64_1 [1] (0x1000 + 20) 1 4 0x200 wf
    (by decide) (by decide) (by decide)
  ⟨wf, h.1, h.2.2.2.2.2.1 []⟩

/-- C5, the code at the failing input.  On the fresh 64-byte store (`sizeof(size_t) = 8`, header
16 bytes) `set<1>` of a 40-byte payload passes the first check (`16 + 40 ≤ 64`), writes the
record over the terminator and only then throws "Not enough space for tail" (`56 + 16 > 64`):
the type byte at offset 0 changed from 0 to 1, the length field holds 40 and a following
`get<1>` returns normally with the bytes just written instead of throwing. -/
theorem out_of_space_after_write :
    Well_formed 8 store64 mem64 [] 0x1000 ∧
    (Property_sequence.set_string 8 4 store64 mem64 1 ⟨0x200, 40⟩).outcome =
      .thrown .Not_enough_space_for_tail ∧
    item.type mem64 0x1000 = LAST ∧
    item.type (Property_sequence.set_string 8 4 store64 mem64 1 ⟨0x200, 40⟩).mem 0x1000 = 1 ∧
    item.size 8 (Property_sequence.set_string 8 4 store64 mem64 1 ⟨0x200, 40⟩).mem 0x1000 = 40 ∧
    (Property_sequence.get 8 4 store64
      (Property_sequence.set_string 8 4 store64 mem64 1 ⟨0x200, 40⟩).mem 1 4
      [0, 0, 0, 0]).1.outcome = .ret () ∧
    (Property_sequence.get 8 4 store64
      (Property_sequence.set_string 8 4 store64 mem64 1 ⟨0x200, 40⟩).mem 1 4
      [0, 0, 0, 0]).2 = [10, 11, 12, 13] :=
  ⟨⟨by decide, by decide, by decide, by decide, by decide, by decide⟩, by decide⟩

/-- C6, the code at the failing input.  On a target with `sizeof(size_t) = 4`, the fresh store
over the 64-byte Region at `0xF0000000`, `set<1>` of the Region `( 0x100, 0x10000000 )`:
`item_end = 0xF0000000 + 8 + 0x10000000` wraps to 8, the check `_mem.end() < item_end` passes,
and `memset`/`memcpy` run over `0x10000000` bytes from offset 8 on.  The store is well formed,
the call returns normally and the byte right after the Region, at offset 64, has changed. -/
theorem set_overflow_writes_outside :
    Well_formed 4 store_high mem_high [] 0xF0000000 ∧
    (Property_sequence.set_descriptor 4 4 store_high mem_high 1 ⟨0x100, 0x10000000⟩).outcome =
      .ret () ∧
    mem_high (0xF0000000 + 64) = 195 ∧
    (Property_sequence.set_descriptor 4 4 store_high mem_high 1 ⟨0x100, 0x10000000⟩).mem
      (0xF0000000 + 64) = 61 :=
  ⟨⟨by decide, by decide, by decide, by decide, by decide, by decide⟩, by decide⟩

/-- C7. `get` fails exactly on absent tags.  On a well-formed store whose records have the types
`tags`, with fuel for one step more than there are records, `get<p>( out )` throws "Property not
found" if and only if no record carries `p`, and otherwise returns normally; when it throws,
`out` is what it was before the call.  The same holds for the string and the Region overload. -/
theorem get_not_found_iff (W fuel : Nat) (s : Property_sequence) (m : Mem) (tags : List Nat)
    (t p n : Nat) (out : List Nat) (outd : Data_descriptor_mod)
    (wf : Well_formed W s m tags t) (hf : tags.length < fuel) :
    ((Property_sequence.get W fuel s m p n out).1.outcome.not_found = true ↔ p ∉ tags) ∧
    ((Property_sequence.get W fuel s m p n out).1.outcome = .ret () ↔ p ∈ tags) ∧
    ((Property_sequence.get W fuel s m p n out).1.outcome.not_found = true →
      (Property_sequence.get W fuel s m p n out).2 = out) ∧
    ((Property_sequence.get_string W fuel s m p out).1.outcome.not_found = true ↔ p ∉ tags) ∧
    ((Property_sequence.get_string W fuel s m p out).1.outcome.not_found = true →
      (Property_sequence.get_string W fuel s m p out).2 = out) ∧
    ((Property_sequence.get_descriptor W fuel s m p outd).1.outcome.not_found = true ↔
      p ∉ tags) ∧
    ((Property_sequence.get_descriptor W fuel s m p outd).1.outcome.not_found = true →
      (Property_sequence.get_descriptor W fuel s m p outd).2 = outd) := by
  unfold Property_sequence.get Property_sequence.get_string Property_sequence.get_descriptor
  by_cases hmem : p ∈ tags
  · obtain ⟨i, log1, hi, _⟩ := Property_sequence._get_present W fuel s m tags t p wf hmem hf
    rw [hi]
    simp [Outcome.not_found, hmem]
  · obtain ⟨log1, hi⟩ := Property_sequence._get_absent W fuel s m tags t p wf hmem hf
    rw [hi]
    simp [Outcome.not_found, hmem]

/-- Witness of C7: `get<2>` and `get<1>` on the 64-byte store that holds one record of
type 1. -/
theorem get_not_found_iff_witness :
    Well_formed 8 store64 mem64_1 [1] (0x1000 + 20) ∧
    ((Property_sequence.get 8 4 store64 mem64_1 2 4 [7, 7, 7, 7]).1.outcome.not_found = true ↔
      2 ∉ [1]) ∧
    ((Property_sequence.get 8 4 store64 mem64_1 1 4 [7, 7, 7, 7]).1.outcome = .ret () ↔
      1 ∈ [1]) :=
  have wf : Well_formed 8 store64 mem64_1 [1] (0x1000 + 20) :=
    ⟨by decide, by decide, by decide, by decide, by decide, by decide⟩
  ⟨wf, (get_not_found_iff 8 4 store64 mem64_1 [1] (0x1000 + 20) 2 4 [7, 7, 7, 7] ⟨0, 0⟩ wf
      (by decide)).1,
    (get_not_found_iff 8 4 store64 mem64_1 [1] (0x1000 + 20) 1 4 [7, 7, 7, 7] ⟨0, 0⟩ wf
      (by decide)).2.1⟩

/-- Termination in `k` steps while no `size_t` sum wraps: what holds of C8.  A store made in fresh
mode over a Region that lies inside the address space and has room for a header, then filled by
`k` `set` calls with non-zero tags that returned normally and whose sums `item_end` and `tail_end`
were exact (`Filled`): the loop `for ( i = begin(); i != end(); ++i )` makes exactly `k`
increments (0 right after the reset), given fuel for more than `k` steps.  The tags need not be
distinct. -/
theorem iterate_steps_count (W : Nat) (mem : Data_descriptor_mod) (s : Property_sequence)
    (calls : List Nat) (m : Mem) (fuel : Nat) (hW : 0 < W)
    (hend : mem._data + mem._size < wordMod W) (hN : hdr W ≤ mem._size)
    (hfilled : Filled W mem s calls m) (hnz : ∀ q, q ∈ calls → q ≠ 0)
    (hf : calls.length < fuel) :
    Property_sequence.iterate_steps W m fuel s._begin = some calls.length := by
  obtain ⟨_, t, wf⟩ := Filled_well_formed W mem hW hend hN s calls m hfilled
  have hfilter : calls.filter (fun q => q ≠ LAST) = calls := by
    apply List.filter_eq_self.mpr
    intro q hq
    simpa [LAST] using hnz q hq
  rw [hfilter] at wf
  have hfit := wf.fits
  have hlt := wf.end_lt
  exact Property_sequence.iterate_steps_walk W m t (by omega) wf.last calls _ fuel wf.walk hf

/-- An instance of `iterate_steps_count`: the fresh 64-byte store after one `set<2>`. -/
theorem iterate_steps_count_witness :
    Filled 8 buf64 store64 [2] mem64_2 ∧
    Property_sequence.iterate_steps 8 mem64_2 4 store64._begin = some 1 :=
  have hfilled : Filled 8 buf64 store64 [2] mem64_2 :=
    Filled.set 4 2 4 0x200 (Filled.fresh scenario_mem) ⟨0x1000, by decide, by decide⟩
      (by decide)
  ⟨hfilled, iterate_steps_count 8 buf64 store64 [2] mem64_2 4 (by decide) (by decide)
    (by decide) hfilled (by decide) (by decide)⟩

/-- C9. `reset`.  For a store whose `_begin` is the start of its Region (both constructors set
it so), whatever the memory held: after `reset()` every byte of the Region is 0, the item at
`_begin` has type `LAST` and size 0, `begin()` does not compare unequal to `end()`, the loop
makes 0 steps, and `get<p>` throws "Property not found" for every tag `p`, leaving `out` as it
was.  (For a Region of at least header size the item at `_begin` lies inside the Region.) -/
theorem reset_clears (W : Nat) (s : Property_sequence) (m0 : Mem) (fuel p n : Nat)
    (out : List Nat) (outd : Data_descriptor_mod) (hb : s._begin = s._mem._data)
    (hN : hdr W ≤ s._mem._size) (hfuel : 0 < fuel) :
    (∀ x, s._mem._data ≤ x → x < s._mem._data + s._mem._size →
      Property_sequence.reset W s m0 x = 0) ∧
    s._begin + hdr W ≤ s._mem._data + s._mem._size ∧
    item.type (Property_sequence.reset W s m0) s._begin = LAST ∧
    item.size W (Property_sequence.reset W s m0) s._begin = 0 ∧
    iterator_ne_end (Property_sequence.reset W s m0) s._begin = false ∧
    Property_sequence.iterate_steps W (Property_sequence.reset W s m0) fuel s._begin = some 0 ∧
    Property_sequence.get W fuel s (Property_sequence.reset W s m0) p n out =
      (⟨if p ≠ LAST then [] else [Assertion.p_ne_LAST], .thrown .Property_not_found⟩, out) ∧
    Property_sequence.get_string W fuel s (Property_sequence.reset W s m0) p out =
      (⟨if p ≠ LAST then [] else [Assertion.p_ne_LAST], .thrown .Property_not_found⟩, out) ∧
    Property_sequence.get_descriptor W fuel s (Property_sequence.reset W s m0) p outd =
      (⟨if p ≠ LAST then [] else [Assertion.p_ne_LAST], .thrown .Property_not_found⟩, outd) := by
  have htype : item.type (Property_sequence.reset W s m0) s._begin = LAST := by
    unfold item.type
    rw [Property_sequence.reset_apply, if_pos (Or.inr (Or.inl rfl))]
    rfl
  have hne := iterator_ne_end_false _ _ htype
  obtain ⟨f, hf⟩ : ∃ f, fuel = f + 1 := ⟨fuel - 1, by omega⟩
  have hget : Property_sequence._get W fuel s (Property_sequence.reset W s m0) p =
      ⟨if p ≠ LAST then [] else [Assertion.p_ne_LAST], .thrown .Property_not_found⟩ := by
    unfold Property_sequence._get
    rw [hf, Property_sequence._get_loop, hne]
    rfl
  refine ⟨?_, by omega, htype, ?_, hne, ?_, ?_, ?_, ?_⟩
  · intro x h1 h2
    rw [Property_sequence.reset_apply, if_pos (Or.inl ⟨h1, h2⟩)]
  · unfold item.size
    apply readWord_zero
    intro x h1 h2
    rw [Property_sequence.reset_apply, if_pos (Or.inr (Or.inr ⟨h1, by unfold hdr; omega⟩))]
  · rw [hf, Property_sequence.iterate_steps, hne]
    rfl
  · unfold Property_sequence.get
    rw [hget]
  · unfold Property_sequence.get_string
    rw [hget]
  · unfold Property_sequence.get_descriptor
    rw [hget]

/-- Witness of C9: `reset()` on the 64-byte store that holds one record. -/
theorem reset_clears_witness :
    item.type mem64_1 store64._begin = 1 ∧
    item.type (Property_sequence.reset 8 store64 mem64_1) store64._begin = LAST ∧
    Property_sequence.get 8 4 store64 (Property_sequence.reset 8 store64 mem64_1) 1 4
      [7, 7, 7, 7] = (⟨[], .thrown .Property_not_found⟩, [7, 7, 7, 7]) :=
  have h := reset_clears 8 store64 mem64_1 4 1 4 [7, 7, 7, 7] ⟨0, 0⟩ (by decide) (by decide)
    (by decide)
  ⟨by decide, h.2.2.1, h.2.2.2.2.2.2.1⟩

/-- Append-only frame while no `size_t` sum wraps: what holds of C10.  On a well-formed store
with terminator at `t`, a `set<p>` whose sums `item_end` and `tail_end` are exact (`hx`;
whether the call returns or throws) changes no byte before `t`; for every
tag `q` stored earlier, `get<q>` gives the same result after the call as before it, in the
string and Region overloads and, when `n` is at most the stored length, in the fixed-size
overload reading `n` bytes. -/
theorem set_append_only (W fuel : Nat) (s : Property_sequence) (m : Mem) (tags : List Nat)
    (t p size data q : Nat) (wf : Well_formed W s m tags t) (hf : tags.length < fuel)
    (hx : t + hdr W + size + hdr W < wordMod W) (hq : q ∈ tags) :
    (∀ x, x < t → (Property_sequence._set W fuel s m p size data).mem x = m x) ∧
    (∀ out, Property_sequence.get_string W fuel s
        (Property_sequence._set W fuel s m p size data).mem q out =
      Property_sequence.get_string W fuel s m q out) ∧
    (∀ out, Property_sequence.get_descriptor W fuel s
        (Property_sequence._set W fuel s m p size data).mem q out =
      Property_sequence.get_descriptor W fuel s m q out) ∧
    (∀ n out, (∀ log i, Property_sequence._get W fuel s m q = ⟨log, .ret i⟩ →
        n ≤ item.size W m i) →
      Property_sequence.get W fuel s (Property_sequence._set W fuel s m p size data).mem q n out =
        Property_sequence.get W fuel s m q n out) := by
  have hbelow := Property_sequence._set_below W fuel s m tags t p size data wf hf hx
  exact ⟨hbelow,
    fun out => Property_sequence.get_string_frame W fuel s _ m tags t q wf hq hf hbelow out,
    fun out => Property_sequence.get_descriptor_frame W fuel s _ m tags t q wf hq hf hbelow out,
    fun n out hn => Property_sequence.get_frame W fuel s _ m tags t q n wf hq hf hbelow hn out⟩

/-- An instance of `set_append_only`: `set<2>` on the 64-byte store that holds one record of type
1, then `get<1>`. -/
theorem set_append_only_witness :
    Well_formed 8 store64 mem64_1 [1] (0x1000 + 20) ∧
    (Property_sequence._set 8 4 store64 mem64_1 2 4 0x200).outcome = .ret () ∧
    Property_sequence.get_string 8 4 store64
        (Property_sequence._set 8 4 store64 mem64_1 2 4 0x200).mem 1 [] =
      Property_sequence.get_string 8 4 store64 mem64_1 1 [] :=
  have wf : Well_formed 8 store64 mem64_1 [1] (0x1000 + 20) :=
    ⟨by decide, by decide, by decide, by decide, by decide, by decide⟩
  ⟨wf, by decide, (set_append_only 8 4 store64 mem64_1 [1] (0x1000 + 20) 2 4 0x200 1 wf
    (by decide) (by decide) (by decide)).2.1 []⟩

/-! ## Region algebra (data_descriptor.h) -/

namespace Data_descriptor_template

theorem ptr_add_exact (W a n : Nat) (h : a + n < wordMod W) : ptr_add W a n = a + n :=
  Nat.mod_eq_of_lt h

theorem size_add_exact (W a b : Nat) (h : a + b < wordMod W) : size_add W a b = a + b :=
  Nat.mod_eq_of_lt h

theorem size_sub_exact (W a b : Nat) (hb : b ≤ a) (ha : a < wordMod W) :
    size_sub W a b = a - b := by
  unfold size_sub
  rw [Nat.mod_eq_of_lt (lt_of_le_of_lt hb ha)]
  have h : a + wordMod W - b = a - b + wordMod W := by omega
  rw [h, Nat.add_mod_right]
  exact Nat.mod_eq_of_lt (by omega)

theorem in_exact (W : Nat) (A B : Data_descriptor_template) (hA : A.in_space W)
    (hB : B.in_space W) :
    A.in_ W B = true ↔
      A._data ≠ 0 ∧ B._data ≠ 0 ∧ A._data ≤ B._data ∧ B._data + B._size ≤ A._data + A._size := by
  unfold in_space at hA hB
  unfold in_ valid data size
  rw [ptr_add_exact W _ _ hA, ptr_add_exact W _ _ hB]
  simp only [Bool.and_eq_true, decide_eq_true_eq, bne_iff_ne, ne_eq]
  tauto

end Data_descriptor_template

/-- C15. Containment.  For Regions `A` and `B` whose byte ranges lie inside the address space,
`A.in( B )` is true if and only if both are valid (non-null address), `A.start ≤ B.start` and
`B.start + B.length ≤ A.start + A.length`; it is false whenever either one is
default-constructed. -/
theorem in_iff_contained (W : Nat) (A B : Data_descriptor_template) (hA : A.in_space W)
    (hB : B.in_space W) :
    (A.in_ W B = true ↔
      A.valid = true ∧ B.valid = true ∧ A._data ≤ B._data ∧
        B._data + B._size ≤ A._data + A._size) ∧
    Data_descriptor_template.null.in_ W B = false ∧
    A.in_ W Data_descriptor_template.null = false := by
  refine ⟨?_, ?_, ?_⟩
  · rw [Data_descriptor_template.in_exact W A B hA hB]
    simp [Data_descriptor_template.valid]
  · simp [Data_descriptor_template.in_, Data_descriptor_template.valid,
      Data_descriptor_template.null]
  · simp [Data_descriptor_template.in_, Data_descriptor_template.valid,
      Data_descriptor_template.null]

/-- Witness of C15: the Region of 10 bytes at offset 10 of a 100-byte Region. -/
theorem in_iff_contained_witness :
    Data_descriptor_template.in_ 8 ⟨0x1000, 100⟩ ⟨0x1000 + 10, 10⟩ = true ∧
    ((⟨0x1000, 100⟩ : Data_descriptor_template).valid = true ∧
      (⟨0x1000 + 10, 10⟩ : Data_descriptor_template).valid = true ∧
      0x1000 ≤ 0x1000 + 10 ∧ 0x1000 + 10 + 10 ≤ 0x1000 + 100) :=
  have h := (in_iff_contained 8 ⟨0x1000, 100⟩ ⟨0x1000 + 10, 10⟩ (by decide) (by decide)).1
  ⟨h.mpr ⟨by decide, by decide, by decide, by decide⟩, h.mp (by decide)⟩

/-- C16. Region reconstruction with `strip`.  For `A` and `B` inside the address space with
`A.in( B )` (so both are valid): `strip( B )` starts at the start of `A`,
`strip( B ).right_adjecent_to( B )` and `B.right_adjecent_to( tail( B ) )` are true,
`tail( B )` ends at the end of `A`, and the three sizes add up to `A.size()`. -/
theorem strip_tail_partition (W : Nat) (A B : Data_descriptor_template) (hA : A.in_space W)
    (hB : B.in_space W) (hin : A.in_ W B = true) :
    (A.strip W B)._data = A._data ∧
    (A.strip W B).right_adjecent_to W B = true ∧
    B.right_adjecent_to W (A.tail W B) = true ∧
    (A.tail W B)._data + (A.tail W B)._size = A._data + A._size ∧
    (A.strip W B).size + B.size + (A.tail W B).size = A.size := by
  obtain ⟨_, _, h1, h2⟩ := (Data_descriptor_template.in_exact W A B hA hB).mp hin
  unfold Data_descriptor_template.in_space at hA hB
  have hd : Data_descriptor_template.size_sub W B._data A._data = B._data - A._data :=
    Data_descriptor_template.size_sub_exact W _ _ h1 (by omega)
  have hs : Data_descriptor_template.size_add W (B._data - A._data) B._size =
      B._data - A._data + B._size :=
    Data_descriptor_template.size_add_exact W _ _ (by omega)
  have ht : Data_descriptor_template.size_sub W A._size (B._data - A._data + B._size) =
      A._size - (B._data - A._data + B._size) :=
    Data_descriptor_template.size_sub_exact W _ _ (by omega) (by omega)
  have hp : Data_descriptor_template.ptr_add W B._data B._size = B._data + B._size :=
    Data_descriptor_template.ptr_add_exact W _ _ hB
  have hq : Data_descriptor_template.ptr_add W A._data (B._data - A._data) = B._data := by
    rw [Data_descriptor_template.ptr_add_exact W _ _ (by omega)]
    omega
  unfold Data_descriptor_template.strip Data_descriptor_template.tail
    Data_descriptor_template.right_adjecent_to Data_descriptor_template.size
    Data_descriptor_template.data
  simp only [hd, hs, ht, hp, hq, beq_self_eq_true, true_and]
  omega

/-- Witness of C16: `B` = 10 bytes at offset 10 of the 100-byte `A`. -/
theorem strip_tail_partition_witness :
    Data_descriptor_template.in_ 8 ⟨0x1000, 100⟩ ⟨0x1000 + 10, 10⟩ = true ∧
    Data_descriptor_template.strip 8 ⟨0x1000, 100⟩ ⟨0x1000 + 10, 10⟩ = ⟨0x1000, 10⟩ ∧
    Data_descriptor_template.tail 8 ⟨0x1000, 100⟩ ⟨0x1000 + 10, 10⟩ = ⟨0x1000 + 20, 80⟩ ∧
    (Data_descriptor_template.strip 8 ⟨0x1000, 100⟩ ⟨0x1000 + 10, 10⟩).size + 10 +
      (Data_descriptor_template.tail 8 ⟨0x1000, 100⟩ ⟨0x1000 + 10, 10⟩).size = 100 :=
  ⟨by decide, by decide, by decide,
    (strip_tail_partition 8 ⟨0x1000, 100⟩ ⟨0x1000 + 10, 10⟩ (by decide) (by decide)
      (by decide)).2.2.2.2⟩

/-- C17. Region reconstruction with `truncate`.  For `A` and `B` inside the address space with
`A.in( B )`: `truncate( B )` starts at the start of `A` and ends at the end of `B`,
`truncate( B ).right_adjecent_to( tail( B ) )` is true, `tail( B )` ends at the end of `A`, and
the two sizes add up to `A.size()`. -/
theorem truncate_tail_partition (W : Nat) (A B : Data_descriptor_template) (hA : A.in_space W)
    (hB : B.in_space W) (hin : A.in_ W B = true) :
    (A.truncate W B)._data = A._data ∧
    (A.truncate W B)._data + (A.truncate W B)._size = B._data + B._size ∧
    (A.truncate W B).right_adjecent_to W (A.tail W B) = true ∧
    (A.tail W B)._data + (A.tail W B)._size = A._data + A._size ∧
    (A.truncate W B).size + (A.tail W B).size = A.size := by
  obtain ⟨_, _, h1, h2⟩ := (Data_descriptor_template.in_exact W A B hA hB).mp hin
  unfold Data_descriptor_template.in_space at hA hB
  have hd : Data_descriptor_template.size_sub W B._data A._data = B._data - A._data :=
    Data_descriptor_template.size_sub_exact W _ _ h1 (by omega)
  have hs : Data_descriptor_template.size_add W (B._data - A._data) B._size =
      B._data - A._data + B._size :=
    Data_descriptor_template.size_add_exact W _ _ (by omega)
  have ht : Data_descriptor_template.size_sub W A._size (B._data - A._data + B._size) =
      A._size - (B._data - A._data + B._size) :=
    Data_descriptor_template.size_sub_exact W _ _ (by omega) (by omega)
  have hp : Data_descriptor_template.ptr_add W B._data B._size = B._data + B._size :=
    Data_descriptor_template.ptr_add_exact W _ _ hB
  have hq : Data_descriptor_template.ptr_add W A._data (B._data - A._data + B._size) =
      B._data + B._size := by
    rw [Data_descriptor_template.ptr_add_exact W _ _ (by omega)]
    omega
  unfold Data_descriptor_template.truncate Data_descriptor_template.tail
    Data_descriptor_template.right_adjecent_to Data_descriptor_template.size
    Data_descriptor_template.data
  simp only [hd, hs, ht, hp, hq, beq_self_eq_true, true_and]
  omega

/-- Witness of C17: `B` = 10 bytes at offset 10 of the 100-byte `A`. -/
theorem truncate_tail_partition_witness :
    Data_descriptor_template.in_ 8 ⟨0x1000, 100⟩ ⟨0x1000 + 10, 10⟩ = true ∧
    Data_descriptor_template.truncate 8 ⟨0x1000, 100⟩ ⟨0x1000 + 10, 10⟩ = ⟨0x1000, 20⟩ ∧
    (Data_descriptor_template.truncate 8 ⟨0x1000, 100⟩ ⟨0x1000 + 10, 10⟩).size +
      (Data_descriptor_template.tail 8 ⟨0x1000, 100⟩ ⟨0x1000 + 10, 10⟩).size = 100 :=
  ⟨by decide, by decide,
    (truncate_tail_partition 8 ⟨0x1000, 100⟩ ⟨0x1000 + 10, 10⟩ (by decide) (by decide)
      (by decide)).2.2.2.2⟩

/-- C18. Value of `sub_range`.  For `right` inside the address space and
`left.start ≤ right.start` (in particular for `left` and `right` contained in a valid Region
`R`), `sub_range( left, right )` is the Region that starts at the start of `left` and has
length `right.end − left.start`: it ends at the end of `right`.  The result does not depend
on `R`. -/
theorem sub_range_value (W : Nat) (R left right : Data_descriptor_template)
    (hT : right.in_space W) (hle : left._data ≤ right._data) :
    R.sub_range W left right = ⟨left._data, right._data + right._size - left._data⟩ ∧
    (R.sub_range W left right)._data + (R.sub_range W left right)._size =
      right._data + right._size := by
  unfold Data_descriptor_template.in_space at hT
  have hd : Data_descriptor_template.size_sub W right._data left._data =
      right._data - left._data :=
    Data_descriptor_template.size_sub_exact W _ _ hle (by omega)
  have hs : Data_descriptor_template.size_add W (right._data - left._data) right._size =
      right._data - left._data + right._size :=
    Data_descriptor_template.size_add_exact W _ _ (by omega)
  unfold Data_descriptor_template.sub_range Data_descriptor_template.size
    Data_descriptor_template.data
  simp only [hd, hs]
  refine ⟨?_, by omega⟩
  congr 1
  omega

/-- Witness of C18, the scenario of the specification: `R = [0,100)`, `L = [10,20)`,
`T = [30,50)` as offsets into `R`, which starts at address `0x1000`; the result is
`[10,50)`. -/
theorem sub_range_value_witness :
    Data_descriptor_template.in_ 8 ⟨0x1000, 100⟩ ⟨0x1000 + 10, 10⟩ = true ∧
    Data_descriptor_template.in_ 8 ⟨0x1000, 100⟩ ⟨0x1000 + 30, 20⟩ = true ∧
    Data_descriptor_template.sub_range 8 ⟨0x1000, 100⟩ ⟨0x1000 + 10, 10⟩ ⟨0x1000 + 30, 20⟩ =
      ⟨0x1000 + 10, 0x1000 + 30 + 20 - (0x1000 + 10)⟩ ∧
    0x1000 + 30 + 20 - (0x1000 + 10) = 40 :=
  ⟨by decide, by decide,
    (sub_range_value 8 ⟨0x1000, 100⟩ ⟨0x1000 + 10, 10⟩ ⟨0x1000 + 30, 20⟩ (by decide)
      (by decide)).1, by decide⟩

/-- The value of `sub_range` when `right` lies before `left`.  `R = [0,100)` at address
`0x1000`, `left = [90,100)`, `right = [0,50)`, all three inside the address space and both
contained in `R` (`sizeof(size_t) = 8`).  `right.data() - left.data()` is `-90`, and adding
`right.size()` in `size_t` gives `2^64 - 40`: `sub_range( left, right )` is the descriptor that
starts at offset 90 of `R` and has length `2^64 - 40`.  The pointer sum in `in` wraps in the
same way, so the end address that `in` compares is the end of `right` and `R.in( .. )` of the
span is true. -/
theorem sub_range_reversed_value :
    Data_descriptor_template.in_ 8 ⟨0x1000, 100⟩ ⟨0x1000 + 90, 10⟩ = true ∧
    Data_descriptor_template.in_ 8 ⟨0x1000, 100⟩ ⟨0x1000, 50⟩ = true ∧
    Data_descriptor_template.in_space 8 ⟨0x1000, 100⟩ ∧
    Data_descriptor_template.in_space 8 ⟨0x1000 + 90, 10⟩ ∧
    Data_descriptor_template.in_space 8 ⟨0x1000, 50⟩ ∧
    Data_descriptor_template.sub_range 8 ⟨0x1000, 100⟩ ⟨0x1000 + 90, 10⟩ ⟨0x1000, 50⟩ =
      ⟨0x1000 + 90, 2 ^ 64 - 40⟩ ∧
    ¬ Data_descriptor_template.in_space 8
      (Data_descriptor_template.sub_range 8 ⟨0x1000, 100⟩ ⟨0x1000 + 90, 10⟩ ⟨0x1000, 50⟩) ∧
    0x1000 + 100 < 0x1000 + 90 + (Data_descriptor_template.sub_range 8 ⟨0x1000, 100⟩
      ⟨0x1000 + 90, 10⟩ ⟨0x1000, 50⟩)._size ∧
    Data_descriptor_template.in_ 8 ⟨0x1000, 100⟩
      (Data_descriptor_template.sub_range 8 ⟨0x1000, 100⟩ ⟨0x1000 + 90, 10⟩ ⟨0x1000, 50⟩) =
      true := by
  decide

theorem sub_range_end (W a b c : Nat) :
    Data_descriptor_template.ptr_add W a
      (Data_descriptor_template.size_add W (Data_descriptor_template.size_sub W b a) c) =
    Data_descriptor_template.ptr_add W b c := by
  unfold Data_descriptor_template.ptr_add Data_descriptor_template.size_add
    Data_descriptor_template.size_sub
  have hM : 0 < wordMod W := by unfold wordMod; positivity
  have hlt : a % wordMod W < wordMod W := Nat.mod_lt _ hM
  have ha : a % wordMod W + wordMod W * (a / wordMod W) = a := Nat.mod_add_div a _
  have hmul : wordMod W * (1 + a / wordMod W) = wordMod W + wordMod W * (a / wordMod W) := by
    rw [Nat.mul_add, Nat.mul_one]
  have e : b + wordMod W - a % wordMod W + (a + c) =
      b + c + wordMod W * (1 + a / wordMod W) := by
    rw [hmul]
    omega
  rw [Nat.add_mod_mod, ← Nat.add_assoc, Nat.add_comm a, Nat.add_assoc, Nat.mod_add_mod, e,
    Nat.add_mul_mod_self_left]

/-- C19. The span stays inside its parent.  For every size of `size_t`, every `R` and every
`left` and `right` with `R.in( left )` and `R.in( right )` true, in any relative position:
`sub_range( left, right )` is a valid descriptor and `R.in( sub_range( left, right ) )` is
true.  The span starts at the start of `left`, which is not before the start of `R`, and the
end address that `in` computes for it, `left.data() + ( ( right.data() - left.data() ) +
right.size() )` in wrapping arithmetic, is the end address of `right`, which is not after the
end of `R`. -/
theorem sub_range_in_parent (W : Nat) (R left right : Data_descriptor_template)
    (hl : R.in_ W left = true) (hr : R.in_ W right = true) :
    (R.sub_range W left right).valid = true ∧
    R.in_ W (R.sub_range W left right) = true := by
  unfold Data_descriptor_template.in_ at hl hr ⊢
  simp only [Bool.and_eq_true, decide_eq_true_eq] at hl hr ⊢
  obtain ⟨⟨⟨hRv, hlv⟩, hld⟩, _⟩ := hl
  obtain ⟨_, hre⟩ := hr
  have hv : (R.sub_range W left right).valid = true := hlv
  refine ⟨hv, ⟨⟨hRv, hv⟩, hld⟩, ?_⟩
  show Data_descriptor_template.ptr_add W left.data
      (Data_descriptor_template.size_add W
        (Data_descriptor_template.size_sub W right.data left.data) right.size) ≤ _
  rw [sub_range_end]
  exact hre

/-- Witness of C19: `R = [0,100)` at address `0x1000`, `left = [10,20)` and `right = [30,50)`;
the span is `[10,50)`. -/
theorem sub_range_in_parent_witness :
    Data_descriptor_template.in_ 8 ⟨0x1000, 100⟩ ⟨0x1000 + 10, 10⟩ = true ∧
    Data_descriptor_template.in_ 8 ⟨0x1000, 100⟩ ⟨0x1000 + 30, 20⟩ = true ∧
    Data_descriptor_template.sub_range 8 ⟨0x1000, 100⟩ ⟨0x1000 + 10, 10⟩ ⟨0x1000 + 30, 20⟩ =
      ⟨0x1000 + 10, 40⟩ ∧
    ((Data_descriptor_template.sub_range 8 ⟨0x1000, 100⟩ ⟨0x1000 + 10, 10⟩
      ⟨0x1000 + 30, 20⟩).valid = true ∧
    Data_descriptor_template.in_ 8 ⟨0x1000, 100⟩
      (Data_descriptor_template.sub_range 8 ⟨0x1000, 100⟩ ⟨0x1000 + 10, 10⟩ ⟨0x1000 + 30, 20⟩) =
      true) :=
  ⟨by decide, by decide, by decide,
    sub_range_in_parent 8 ⟨0x1000, 100⟩ ⟨0x1000 + 10, 10⟩ ⟨0x1000 + 30, 20⟩ (by decide)
      (by decide)⟩

/-- C20. Value of `sub`.  For `R` and `offset` inside the address space with
`R.in( offset )` and `offset.end + s ≤ R.end`: `sub( offset, s )` is the Region that starts at
the end address of `offset` and has length `s`, `offset.right_adjecent_to( sub( offset, s ) )`
is true and `R.in( sub( offset, s ) )` is true. -/
theorem sub_value (W : Nat) (R offset : Data_descriptor_template) (s : Nat)
    (hR : R.in_space W) (hO : offset.in_space W) (hin : R.in_ W offset = true)
    (hs : offset._data + offset._size + s ≤ R._data + R._size) :
    R.sub W offset s = ⟨offset._data + offset._size, s⟩ ∧
    offset.right_adjecent_to W (R.sub W offset s) = true ∧
    R.in_ W (R.sub W offset s) = true := by
  obtain ⟨h0, h1, h2, h3⟩ := (Data_descriptor_template.in_exact W R offset hR hO).mp hin
  have hp : Data_descriptor_template.ptr_add W offset._data offset._size =
      offset._data + offset._size :=
    Data_descriptor_template.ptr_add_exact W _ _ hO
  have hval : R.sub W offset s = ⟨offset._data + offset._size, s⟩ := by
    unfold Data_descriptor_template.sub Data_descriptor_template.size
      Data_descriptor_template.data
    rw [hp]
  refine ⟨hval, ?_, ?_⟩
  · rw [hval]
    unfold Data_descriptor_template.right_adjecent_to Data_descriptor_template.size
      Data_descriptor_template.data
    rw [hp]
    simp
  · rw [hval]
    unfold Data_descriptor_template.in_space at hR
    apply (Data_descriptor_template.in_exact W R _ hR ?_).mpr
    · exact ⟨h0, by show offset._data + offset._size ≠ 0; omega,
        by show R._data ≤ offset._data + offset._size; omega, hs⟩
    · show offset._data + offset._size + s < wordMod W
      omega

/-- Witness of C20: 30 bytes after the Region `[10,20)` of the 100-byte `R`. -/
theorem sub_value_witness :
    Data_descriptor_template.in_ 8 ⟨0x1000, 100⟩ ⟨0x1000 + 10, 10⟩ = true ∧
    Data_descriptor_template.sub 8 ⟨0x1000, 100⟩ ⟨0x1000 + 10, 10⟩ 30 =
      ⟨0x1000 + 10 + 10, 30⟩ ∧
    Data_descriptor_template.in_ 8 ⟨0x1000, 100⟩
      (Data_descriptor_template.sub 8 ⟨0x1000, 100⟩ ⟨0x1000 + 10, 10⟩ 30) = true :=
  have h := sub_value 8 ⟨0x1000, 100⟩ ⟨0x1000 + 10, 10⟩ 30 (by decide) (by decide) (by decide)
    (by decide)
  ⟨by decide, h.1, h.2.2⟩

/-! ## The scan on arbitrary and on well-formed contents -/

namespace Property_sequence

theorem _set_visits_walk (W : Nat) (m : Mem) (t : Nat) (ht : t < wordMod W)
    (hlast : item.type m t = LAST) :
    ∀ (tags : List Nat) (a fuel i : Nat), Walk W m a t tags →
      i ∈ _set_visits W m fuel a → a ≤ i ∧ i ≤ t := by
  intro tags
  induction tags with
  | nil =>
    intro a fuel i h hi
    have ha : a = t := h
    subst ha
    cases fuel with
    | zero => simp [_set_visits] at hi
    | succ f =>
      rw [_set_visits, iterator_ne_end_false m a hlast] at hi
      simp at hi
      omega
  | cons p ps ih =>
    intro a fuel i h hi
    obtain ⟨h1, h2, h3, h4⟩ := h
    cases fuel with
    | zero => simp [_set_visits] at hi
    | succ f =>
      have hne : item.type m a ≠ LAST := by rw [h1]; exact h2
      have hle := Walk_le W m t ps _ h4
      rw [_set_visits, iterator_ne_end_true m a hne, if_pos rfl,
        item_next_exact W m a (by omega)] at hi
      rcases List.mem_cons.mp hi with h5 | h5
      · omega
      · have := ih _ f i h4 h5
        omega

theorem _get_visits_walk (W : Nat) (m : Mem) (p t : Nat) (ht : t < wordMod W)
    (hlast : item.type m t = LAST) :
    ∀ (tags : List Nat) (a fuel i : Nat), Walk W m a t tags →
      i ∈ _get_visits W m p fuel a → a ≤ i ∧ i ≤ t := by
  intro tags
  induction tags with
  | nil =>
    intro a fuel i h hi
    have ha : a = t := h
    subst ha
    cases fuel with
    | zero => simp [_get_visits] at hi
    | succ f =>
      rw [_get_visits, iterator_ne_end_false m a hlast] at hi
      simp at hi
      omega
  | cons q ps ih =>
    intro a fuel i h hi
    obtain ⟨h1, h2, h3, h4⟩ := h
    cases fuel with
    | zero => simp [_get_visits] at hi
    | succ f =>
      have hne : item.type m a ≠ LAST := by rw [h1]; exact h2
      have hle := Walk_le W m t ps _ h4
      rw [_get_visits, iterator_ne_end_true m a hne, if_pos rfl] at hi
      by_cases hpq : p = item.type m a
      · rw [if_pos hpq] at hi
        simp at hi
        omega
      · rw [if_neg hpq, item_next_exact W m a (by omega)] at hi
        rcases List.mem_cons.mp hi with h5 | h5
        · omega
        · have := ih _ f i h4 h5
          omega

theorem _get_loop_cycle (W : Nat) (s : Property_sequence) (m : Mem) (p a : Nat)
    (hnext : item.next W m a = a) (hne : item.type m a ≠ LAST) (hp : p ≠ item.type m a) :
    ∀ (fuel : Nat) (log : List Assertion), (_get_loop W s m p fuel a log).outcome = .no_fuel := by
  intro fuel
  induction fuel with
  | zero => intro log; rfl
  | succ f ih =>
    intro log
    rw [_get_loop, iterator_ne_end_true m a hne, if_pos rfl]
    simp only [if_neg hp, hnext]
    exact ih _

theorem _set_loop_cycle (W : Nat) (m : Mem) (p a : Nat)
    (hnext : item.next W m a = a) (hne : item.type m a ≠ LAST) :
    ∀ (fuel : Nat) (log : List Assertion), _set_loop W m p fuel a log = none := by
  intro fuel
  induction fuel with
  | zero => intro log; rfl
  | succ f ih =>
    intro log
    rw [_set_loop, iterator_ne_end_true m a hne, if_pos rfl, hnext]
    exact ih _

theorem _set_completes (W fuel : Nat) (s : Property_sequence) (m : Mem) (tags : List Nat)
    (t p size data : Nat) (wf : Well_formed W s m tags t) (hf : tags.length < fuel) :
    (_set W fuel s m p size data).outcome ≠ .no_fuel := by
  have hfit := wf.fits
  have hend := wf.end_lt
  have hloop := _set_loop_walk W m p t (by omega) wf.last tags s._begin fuel
    (if p ≠ 0 then [] else [Assertion.p_ne_0]) wf.walk hf
  unfold _set
  rw [hloop]
  simp only
  split_ifs <;> simp

theorem _get_completes (W fuel : Nat) (s : Property_sequence) (m : Mem) (tags : List Nat)
    (t p : Nat) (wf : Well_formed W s m tags t) (hf : tags.length < fuel) :
    (_get W fuel s m p).outcome ≠ .no_fuel := by
  by_cases hmem : p ∈ tags
  · obtain ⟨i, log1, hi, _⟩ := _get_present W fuel s m tags t p wf hmem hf
    rw [hi]
    simp
  · obtain ⟨log1, hi⟩ := _get_absent W fuel s m tags t p wf hmem hf
    rw [hi]
    simp

theorem _set_visits_length (W : Nat) (m : Mem) (t : Nat) (ht : t < wordMod W)
    (hlast : item.type m t = LAST) :
    ∀ (tags : List Nat) (a fuel : Nat), Walk W m a t tags → tags.length < fuel →
      (_set_visits W m fuel a).length = tags.length + 1 := by
  intro tags
  induction tags with
  | nil =>
    intro a fuel h hf
    have ha : a = t := h
    subst ha
    cases fuel with
    | zero => omega
    | succ f =>
      rw [_set_visits, iterator_ne_end_false m a hlast]
      rfl
  | cons p ps ih =>
    intro a fuel h hf
    obtain ⟨h1, h2, h3, h4⟩ := h
    cases fuel with
    | zero => simp at hf
    | succ f =>
      have hne : item.type m a ≠ LAST := by rw [h1]; exact h2
      have hle := Walk_le W m t ps _ h4
      have hf1 : ps.length < f := by simpa using hf
      rw [_set_visits, iterator_ne_end_true m a hne, if_pos rfl,
        item_next_exact W m a (by omega), List.length_cons, ih _ f h4 hf1]
      rfl

theorem _get_visits_length (W : Nat) (m : Mem) (p t : Nat) (ht : t < wordMod W)
    (hlast : item.type m t = LAST) :
    ∀ (tags : List Nat) (a fuel : Nat), Walk W m a t tags →
      (_get_visits W m p fuel a).length ≤ tags.length + 1 := by
  intro tags
  induction tags with
  | nil =>
    intro a fuel h
    have ha : a = t := h
    subst ha
    cases fuel with
    | zero => simp [_get_visits]
    | succ f =>
      rw [_get_visits, iterator_ne_end_false m a hlast]
      simp
  | cons q ps ih =>
    intro a fuel h
    obtain ⟨h1, h2, h3, h4⟩ := h
    cases fuel with
    | zero => simp [_get_visits]
    | succ f =>
      have hne : item.type m a ≠ LAST := by rw [h1]; exact h2
      have hle := Walk_le W m t ps _ h4
      rw [_get_visits, iterator_ne_end_true m a hne, if_pos rfl]
      by_cases hpq : p = item.type m a
      · rw [if_pos hpq]
        simp
      · rw [if_neg hpq, item_next_exact W m a (by omega), List.length_cons]
        have := ih _ f h4
        simp only [List.length_cons]
        omega

end Property_sequence

/-- Counterexample to C13 as stated.  The store is attached to the 64-byte Region `buf64`,
whose first bytes hold an item of type 1 and size 100.  The scans of `get<2>` and of `set<2>`
step to the item at offset `16 + 100 = 116` and dereference it: its header starts beyond
offset 64, outside the Region.  `_get` logs its failed assertion `_mem.end() >= item_end` only
after it has read the first header, and then carries on. -/
theorem scan_reads_header_outside :
    (0x1000 + 116) ∈
      Property_sequence._get_visits 8 overlong_mem 2 4 (Property_sequence.attach buf64)._begin ∧
    (0x1000 + 116) ∈
      Property_sequence._set_visits 8 overlong_mem 4 (Property_sequence.attach buf64)._begin ∧
    buf64._data + buf64._size ≤ 0x1000 + 116 ∧
    (Property_sequence._get 8 4 (Property_sequence.attach buf64) overlong_mem 2).asserts =
      [Assertion.mem_end_ge_item_end] := by
  decide

/-- C13, amended.  For a store attached to a Region that holds a well-formed sequence (records
packed from the start of the Region, terminator header inside it), every item that the scan of
`get<p>` or of `set<p>` dereferences has its whole header inside the Region, whatever the
fuel. -/
theorem scan_reads_headers_inside (W fuel : Nat) (s : Property_sequence) (m : Mem)
    (tags : List Nat) (t p i : Nat) (wf : Well_formed W s m tags t)
    (hi : i ∈ Property_sequence._get_visits W m p fuel s._begin ∨
      i ∈ Property_sequence._set_visits W m fuel s._begin) :
    s._mem._data ≤ i ∧ i + hdr W ≤ s._mem._data + s._mem._size := by
  have hfit := wf.fits
  have hend := wf.end_lt
  have hb := wf.begin_eq
  rcases hi with h | h
  · have := Property_sequence._get_visits_walk W m p t (by omega) wf.last tags _ fuel i
      wf.walk h
    omega
  · have := Property_sequence._set_visits_walk W m t (by omega) wf.last tags _ fuel i
      wf.walk h
    omega

/-- Witness of the amended C13: the terminator of the 64-byte store that holds one record, at
offset 20, is the second item that the scan of `set` dereferences. -/
theorem scan_reads_headers_inside_witness :
    Well_formed 8 store64 mem64_1 [1] (0x1000 + 20) ∧
    (0x1000 + 20) ∈ Property_sequence._set_visits 8 mem64_1 4 store64._begin ∧
    (store64._mem._data ≤ 0x1000 + 20 ∧
      0x1000 + 20 + hdr 8 ≤ store64._mem._data + store64._mem._size) :=
  have wf : Well_formed 8 store64 mem64_1 [1] (0x1000 + 20) :=
    ⟨by decide, by decide, by decide, by decide, by decide, by decide⟩
  ⟨wf, by decide, scan_reads_headers_inside 8 4 store64 mem64_1 [1] (0x1000 + 20) 2
    (0x1000 + 20) wf (Or.inr (by decide))⟩

/-- Counterexample to C14 as stated.  The store is attached to the 64-byte Region `buf64`,
whose first bytes hold an item of type 1 and size `2^64 - 16`: `next()` of this item is the
item itself.  The scans of `get<2>` and of `set<2>` never leave it: whatever the fuel, neither
call returns or throws. -/
theorem scan_cycles :
    item.next 8 cycle_mem 0x1000 = 0x1000 ∧
    (∀ fuel, (Property_sequence._get 8 fuel (Property_sequence.attach buf64) cycle_mem
      2).outcome = .no_fuel) ∧
    (∀ fuel, (Property_sequence._set 8 fuel (Property_sequence.attach buf64) cycle_mem
      2 4 0x200).outcome = .no_fuel) := by
  have hnext : item.next 8 cycle_mem 0x1000 = 0x1000 := by decide
  have hne : item.type cycle_mem 0x1000 ≠ LAST := by decide
  refine ⟨hnext, ?_, ?_⟩
  · intro fuel
    exact Property_sequence._get_loop_cycle 8 _ cycle_mem 2 0x1000 hnext hne (by decide) fuel _
  · intro fuel
    unfold Property_sequence._set
    rw [show (Property_sequence.attach buf64)._begin = 0x1000 from rfl,
      Property_sequence._set_loop_cycle 8 cycle_mem 2 0x1000 hnext hne fuel _]

/-- C14, amended.  For a store attached to a Region that holds a well-formed sequence of `k`
records, `get<p>` and `set<p>` complete (return or throw) as soon as the fuel allows `k + 1`
evaluations of `i != end()`: the scan makes at most `k` steps. -/
theorem scan_bounded (W fuel : Nat) (s : Property_sequence) (m : Mem) (tags : List Nat)
    (t p size data : Nat) (wf : Well_formed W s m tags t) (hf : tags.length < fuel) :
    (Property_sequence._get W fuel s m p).outcome ≠ .no_fuel ∧
    (Property_sequence._set W fuel s m p size data).outcome ≠ .no_fuel ∧
    (Property_sequence._get_visits W m p fuel s._begin).length ≤ tags.length + 1 ∧
    (Property_sequence._set_visits W m fuel s._begin).length = tags.length + 1 := by
  have hfit := wf.fits
  have hend := wf.end_lt
  exact ⟨Property_sequence._get_completes W fuel s m tags t p wf hf,
    Property_sequence._set_completes W fuel s m tags t p size data wf hf,
    Property_sequence._get_visits_length W m p t (by omega) wf.last tags _ fuel wf.walk,
    Property_sequence._set_visits_length W m t (by omega) wf.last tags _ fuel wf.walk hf⟩

/-- Witness of the amended C14: `get<2>` and `set<2>` on the 64-byte store that holds one
record, with fuel for two evaluations of `i != end()`. -/
theorem scan_bounded_witness :
    Well_formed 8 store64 mem64_1 [1] (0x1000 + 20) ∧
    (Property_sequence._get 8 2 store64 mem64_1 2).outcome ≠ .no_fuel ∧
    (Property_sequence._set 8 2 store64 mem64_1 2 4 0x200).outcome ≠ .no_fuel :=
  have wf : Well_formed 8 store64 mem64_1 [1] (0x1000 + 20) :=
    ⟨by decide, by decide, by decide, by decide, by decide, by decide⟩
  have h := scan_bounded 8 2 store64 mem64_1 [1] (0x1000 + 20) 2 4 0x200 wf (by decide)
  ⟨wf, h.1, h.2.1⟩

/-! ## A copy of the Region at another address -/

theorem readWord_shift (n : Nat) : ∀ (m2 m : Mem) (x2 x : Nat),
    (∀ j, j < n → m2 (x2 + j) = m (x + j)) → readWord m2 x2 n = readWord m x n := by
  induction n with
  | zero => intro m2 m x2 x _; rfl
  | succ n ih =>
    intro m2 m x2 x h
    have h0 := h 0 (by omega)
    rw [Nat.add_zero, Nat.add_zero] at h0
    rw [readWord, readWord, h0, ih m2 m (x2 + 1) (x + 1)]
    intro j hj
    have := h (j + 1) (by omega)
    rw [show x2 + (j + 1) = x2 + 1 + j by omega, show x + (j + 1) = x + 1 + j by omega] at this
    exact this

theorem item_size_shift (W : Nat) (m2 m : Mem) (a2 a L o : Nat)
    (hcopy : ∀ k, k < L → m2 (a2 + k) = m (a + k)) (ho : o + hdr W ≤ L) :
    item.size W m2 (a2 + o) = item.size W m (a + o) := by
  unfold item.size
  apply readWord_shift
  intro j hj
  have := hcopy (o + W + j) (by unfold hdr at ho; omega)
  rw [show a2 + (o + W + j) = a2 + o + W + j by omega,
    show a + (o + W + j) = a + o + W + j by omega] at this
  exact this

theorem Walk_shift (W : Nat) (hW : 0 < W) (m2 m : Mem) (a2 a L u : Nat)
    (hcopy : ∀ k, k < L → m2 (a2 + k) = m (a + k)) (hu : u ≤ L) :
    ∀ (tags : List Nat) (o : Nat), Walk W m (a + o) (a + u) tags →
      Walk W m2 (a2 + o) (a2 + u) tags := by
  intro tags
  induction tags with
  | nil =>
    intro o h
    have : a + o = a + u := h
    show a2 + o = a2 + u
    omega
  | cons p ps ih =>
    intro o h
    obtain ⟨h1, h2, h3, h4⟩ := h
    have hH : 0 < hdr W := by unfold hdr; omega
    have hs := item_size_shift W m2 m a2 a L o hcopy (by omega)
    have ht : item.type m2 (a2 + o) = item.type m (a + o) := hcopy o (by omega)
    refine ⟨ht.trans h1, h2, by rw [hs]; omega, ?_⟩
    rw [hs, show a2 + o + hdr W + item.size W m (a + o) =
      a2 + (o + hdr W + item.size W m (a + o)) by omega]
    apply ih
    rw [show a + (o + hdr W + item.size W m (a + o)) =
      a + o + hdr W + item.size W m (a + o) by omega]
    exact h4

namespace Property_sequence

theorem _get_loop_shift (W : Nat) (hW : 0 < W) (s s2 : Property_sequence) (m2 m : Mem)
    (a2 a L u q : Nat) (hcopy : ∀ k, k < L → m2 (a2 + k) = m (a + k)) (hu : u ≤ L)
    (ha : a + u < wordMod W) (ha2 : a2 + u < wordMod W) :
    ∀ (tags : List Nat) (o fuel : Nat) (log log2 : List Assertion),
      Walk W m (a + o) (a + u) tags → q ∈ tags → tags.length < fuel →
      ∃ j l1 l2, _get_loop W s m q fuel (a + o) log = ⟨l1, .ret (a + j)⟩ ∧
        _get_loop W s2 m2 q fuel (a2 + o) log2 = ⟨l2, .ret (a2 + j)⟩ ∧
        j + hdr W + item.size W m (a + j) ≤ u := by
  intro tags
  induction tags with
  | nil => intro o fuel log log2 _ hq; simp at hq
  | cons p ps ih =>
    intro o fuel log log2 h hq hf
    obtain ⟨h1, h2, h3, h4⟩ := h
    have hH : 0 < hdr W := by unfold hdr; omega
    cases fuel with
    | zero => simp at hf
    | succ f =>
      have hf1 : ps.length < f := by simpa using hf
      have hs := item_size_shift W m2 m a2 a L o hcopy (by omega)
      have ht : item.type m2 (a2 + o) = item.type m (a + o) := hcopy o (by omega)
      have hne : item.type m (a + o) ≠ LAST := by rw [h1]; exact h2
      have hne2 : item.type m2 (a2 + o) ≠ LAST := by rw [ht]; exact hne
      rw [_get_loop, _get_loop, iterator_ne_end_true m _ hne, iterator_ne_end_true m2 _ hne2,
        if_pos rfl, if_pos rfl]
      simp only [ht, hs]
      by_cases hpq : q = item.type m (a + o)
      · simp only [if_pos hpq]
        exact ⟨o, _, _, rfl, rfl, by omega⟩
      · have hps : q ∈ ps := by
          rcases List.mem_cons.mp hq with h | h
          · exact absurd (h.trans h1.symm) hpq
          · exact h
        simp only [if_neg hpq]
        rw [item_next_exact W m (a + o) (by omega),
          item_next_exact W m2 (a2 + o) (by rw [hs]; omega), hs,
          show a2 + o + hdr W + item.size W m (a + o) =
            a2 + (o + hdr W + item.size W m (a + o)) by omega,
          show a + o + hdr W + item.size W m (a + o) =
            a + (o + hdr W + item.size W m (a + o)) by omega]
        apply ih _ f _ _ ?_ hps hf1
        rw [show a + (o + hdr W + item.size W m (a + o)) =
          a + o + hdr W + item.size W m (a + o) by omega]
        exact h4

end Property_sequence

namespace Property_sequence

theorem get_of_ret (W fuel : Nat) (s : Property_sequence) (m : Mem) (q n i : Nat)
    (l : List Assertion) (out : List Nat) (h : _get W fuel s m q = ⟨l, .ret i⟩) :
    get W fuel s m q n out = (⟨l, .ret ()⟩, readBytes m (item.data W i) n) := by
  unfold get
  rw [h]

theorem get_string_of_ret (W fuel : Nat) (s : Property_sequence) (m : Mem) (q i : Nat)
    (l : List Assertion) (out : List Nat) (h : _get W fuel s m q = ⟨l, .ret i⟩) :
    get_string W fuel s m q out =
      (⟨l, .ret ()⟩, readBytes m (item.data W i) (item.size W m i)) := by
  unfold get_string
  rw [h]

theorem get_descriptor_of_ret (W fuel : Nat) (s : Property_sequence) (m : Mem) (q i : Nat)
    (l : List Assertion) (out : Data_descriptor_mod) (h : _get W fuel s m q = ⟨l, .ret i⟩) :
    get_descriptor W fuel s m q out = (⟨l, .ret ()⟩, ⟨item.data W i, item.size W m i⟩) := by
  unfold get_descriptor
  rw [h]

theorem get_of_thrown (W fuel : Nat) (s : Property_sequence) (m : Mem) (q n : Nat)
    (l : List Assertion) (e : Exception) (out : List Nat)
    (h : _get W fuel s m q = ⟨l, .thrown e⟩) :
    get W fuel s m q n out = (⟨l, .thrown e⟩, out) := by
  unfold get
  rw [h]

theorem get_string_of_thrown (W fuel : Nat) (s : Property_sequence) (m : Mem) (q : Nat)
    (l : List Assertion) (e : Exception) (out : List Nat)
    (h : _get W fuel s m q = ⟨l, .thrown e⟩) :
    get_string W fuel s m q out = (⟨l, .thrown e⟩, out) := by
  unfold get_string
  rw [h]

theorem get_descriptor_of_thrown (W fuel : Nat) (s : Property_sequence) (m : Mem) (q : Nat)
    (l : List Assertion) (e : Exception) (out : Data_descriptor_mod)
    (h : _get W fuel s m q = ⟨l, .thrown e⟩) :
    get_descriptor W fuel s m q out = (⟨l, .thrown e⟩, out) := by
  unfold get_descriptor
  rw [h]

theorem Well_formed_copy (W : Nat) (s s2 : Property_sequence) (m m2 : Mem) (tags : List Nat)
    (u : Nat) (wf : Well_formed W s m tags (s._mem._data + u))
    (hb2 : s2._begin = s2._mem._data) (hsize : s2._mem._size = s._mem._size)
    (hend2 : s2._mem._data + s2._mem._size < wordMod W)
    (hcopy : ∀ k, k < s._mem._size → m2 (s2._mem._data + k) = m (s._mem._data + k)) :
    Well_formed W s2 m2 tags (s2._mem._data + u) := by
  have hW := wf.word
  have hH : 0 < hdr W := by unfold hdr; omega
  have hfit := wf.fits
  have hwalk := wf.walk
  rw [wf.begin_eq] at hwalk
  refine ⟨hW, hb2, hend2, ?_, ?_, by omega⟩
  · rw [hb2]
    have := Walk_shift W hW m2 m s2._mem._data s._mem._data s._mem._size u hcopy (by omega)
      tags 0 (by rw [Nat.add_zero]; exact hwalk)
    rw [Nat.add_zero] at this
    exact this
  · have := hcopy u (by omega)
    unfold item.type
    rw [this]
    exact wf.last

end Property_sequence

/-- Exchange through shared memory while no `size_t` sum wraps: what holds of C12.  A store is
made in fresh mode over the Region `mem` and filled by `set` calls that returned normally and
whose sums `item_end` and `tail_end` were exact (`Filled`), leaving the memory `m`.  The bytes of
the Region are copied to a Region `mem2` of the same size at any other address inside the address
space (memory `m2`), and a store is attached to the copy; the attach constructor takes no memory
and writes none.  Then for every tag `q` the store over the copy gives the same `get` result as
the original: the same outcome (returned, or "Property not found"), the same bytes for the string
overload, a Region of the same length at the same offset with the same bytes for the Region
overload, and the same `n` bytes for the fixed-size overload when `n` is at most the stored
length. -/
theorem attach_copy_same_get (W : Nat) (mem mem2 : Data_descriptor_mod)
    (s : Property_sequence) (calls : List Nat) (m m2 : Mem) (fuel q n : Nat) (out : List Nat)
    (outd : Data_descriptor_mod) (hW : 0 < W) (hend : mem._data + mem._size < wordMod W)
    (hN : hdr W ≤ mem._size) (hfilled : Filled W mem s calls m)
    (hsize : mem2._size = mem._size) (hend2 : mem2._data + mem2._size < wordMod W)
    (hcopy : ∀ k, k < mem._size → m2 (mem2._data + k) = m (mem._data + k))
    (hf : calls.length < fuel) :
    (Property_sequence.get_string W fuel (Property_sequence.attach mem2) m2 q out).1.outcome =
      (Property_sequence.get_string W fuel s m q out).1.outcome ∧
    (Property_sequence.get_string W fuel (Property_sequence.attach mem2) m2 q out).2 =
      (Property_sequence.get_string W fuel s m q out).2 ∧
    (Property_sequence.get_descriptor W fuel (Property_sequence.attach mem2) m2 q
        outd).1.outcome =
      (Property_sequence.get_descriptor W fuel s m q outd).1.outcome ∧
    ((Property_sequence.get_descriptor W fuel s m q outd).1.outcome = .ret () →
      (Property_sequence.get_descriptor W fuel (Property_sequence.attach mem2) m2 q
          outd).2._size =
        (Property_sequence.get_descriptor W fuel s m q outd).2._size ∧
      (Property_sequence.get_descriptor W fuel (Property_sequence.attach mem2) m2 q
          outd).2._data + mem._data =
        (Property_sequence.get_descriptor W fuel s m q outd).2._data + mem2._data ∧
      readBytes m2
          (Property_sequence.get_descriptor W fuel (Property_sequence.attach mem2) m2 q
            outd).2._data
          (Property_sequence.get_descriptor W fuel (Property_sequence.attach mem2) m2 q
            outd).2._size =
        readBytes m (Property_sequence.get_descriptor W fuel s m q outd).2._data
          (Property_sequence.get_descriptor W fuel s m q outd).2._size) ∧
    ((∀ log i, Property_sequence._get W fuel s m q = ⟨log, .ret i⟩ → n ≤ item.size W m i) →
      (Property_sequence.get W fuel (Property_sequence.attach mem2) m2 q n out).1.outcome =
        (Property_sequence.get W fuel s m q n out).1.outcome ∧
      (Property_sequence.get W fuel (Property_sequence.attach mem2) m2 q n out).2 =
        (Property_sequence.get W fuel s m q n out).2) := by
  obtain ⟨hs, t, wf⟩ := Filled_well_formed W mem hW hend hN s calls m hfilled
  subst hs
  have hle : mem._data ≤ t := Walk_le W m t _ _ wf.walk
  obtain ⟨u, hu⟩ : ∃ u, t = mem._data + u := ⟨t - mem._data, by omega⟩
  subst hu
  have hfit : mem._data + u + hdr W ≤ mem._data + mem._size := wf.fits
  have hlen : (calls.filter (fun q => q ≠ LAST)).length < fuel :=
    lt_of_le_of_lt (List.length_filter_le _ _) hf
  have wf2 : Well_formed W (Property_sequence.attach mem2) m2
      (calls.filter (fun q => q ≠ LAST)) (mem2._data + u) :=
    Property_sequence.Well_formed_copy W ⟨mem, mem._data⟩ (Property_sequence.attach mem2) m m2
      _ u wf rfl hsize hend2 hcopy
  by_cases hq : q ∈ calls.filter (fun q => q ≠ LAST)
  · obtain ⟨j, l1, l2, h1, h2, hj⟩ := Property_sequence._get_loop_shift W hW ⟨mem, mem._data⟩
      (Property_sequence.attach mem2) m2 m mem2._data mem._data mem._size u q hcopy (by omega)
      (by omega) (by omega) _ 0 fuel (if q ≠ LAST then [] else [Assertion.p_ne_LAST])
      (if q ≠ LAST then [] else [Assertion.p_ne_LAST]) wf.walk hq hlen
    have hg1 : Property_sequence._get W fuel ⟨mem, mem._data⟩ m q =
        ⟨l1, .ret (mem._data + j)⟩ := h1
    have hg2 : Property_sequence._get W fuel (Property_sequence.attach mem2) m2 q =
        ⟨l2, .ret (mem2._data + j)⟩ := h2
    have hsz : item.size W m2 (mem2._data + j) = item.size W m (mem._data + j) :=
      item_size_shift W m2 m mem2._data mem._data mem._size j hcopy (by omega)
    have hbytes : ∀ k, k ≤ item.size W m (mem._data + j) →
        readBytes m2 (item.data W (mem2._data + j)) k =
          readBytes m (item.data W (mem._data + j)) k := by
      intro k hk
      apply readBytes_congr
      intro i hi
      have := hcopy (j + hdr W + i) (by omega)
      unfold item.data
      rw [show mem2._data + j + hdr W + i = mem2._data + (j + hdr W + i) by omega,
        show mem._data + j + hdr W + i = mem._data + (j + hdr W + i) by omega]
      exact this
    rw [Property_sequence.get_string_of_ret W fuel _ m q _ l1 out hg1,
      Property_sequence.get_string_of_ret W fuel _ m2 q _ l2 out hg2,
      Property_sequence.get_descriptor_of_ret W fuel _ m q _ l1 outd hg1,
      Property_sequence.get_descriptor_of_ret W fuel _ m2 q _ l2 outd hg2,
      Property_sequence.get_of_ret W fuel _ m q n _ l1 out hg1,
      Property_sequence.get_of_ret W fuel _ m2 q n _ l2 out hg2]
    refine ⟨rfl, ?_, rfl, ?_, ?_⟩
    · show readBytes m2 _ (item.size W m2 (mem2._data + j)) = _
      rw [hsz]
      exact hbytes _ (le_refl _)
    · intro _
      refine ⟨hsz, ?_, ?_⟩
      · show item.data W (mem2._data + j) + mem._data = item.data W (mem._data + j) + mem2._data
        unfold item.data
        omega
      · show readBytes m2 _ (item.size W m2 (mem2._data + j)) = _
        rw [hsz]
        exact hbytes _ (le_refl _)
    · intro hn
      exact ⟨rfl, hbytes n (hn l1 _ hg1)⟩
  · obtain ⟨l1, hg1⟩ := Property_sequence._get_absent W fuel _ m _ _ q wf hq hlen
    obtain ⟨l2, hg2⟩ := Property_sequence._get_absent W fuel _ m2 _ _ q wf2 hq hlen
    rw [Property_sequence.get_string_of_thrown W fuel _ m q l1 _ out hg1,
      Property_sequence.get_string_of_thrown W fuel _ m2 q l2 _ out hg2,
      Property_sequence.get_descriptor_of_thrown W fuel _ m q l1 _ outd hg1,
      Property_sequence.get_descriptor_of_thrown W fuel _ m2 q l2 _ outd hg2,
      Property_sequence.get_of_thrown W fuel _ m q n l1 _ out hg1,
      Property_sequence.get_of_thrown W fuel _ m2 q n l2 _ out hg2]
    refine ⟨rfl, rfl, rfl, ?_, ?_⟩
    · intro h
      cases h
    · intro _
      exact ⟨rfl, rfl⟩

/-- An instance of `attach_copy_same_get`: the 64-byte store that holds one record of type 2,
copied to address `0x2000`. -/
theorem attach_copy_same_get_witness :
    Filled 8 buf64 store64 [2] mem64_2 ∧
    (Property_sequence.get_string 8 4 (Property_sequence.attach buf_copy) mem_copy 2 []).2 =
      (Property_sequence.get_string 8 4 store64 mem64_2 2 []).2 ∧
    (Property_sequence.get_string 8 4 store64 mem64_2 2 []).2 = [10, 11, 12, 13] ∧
    (Property_sequence.get_string 8 4 (Property_sequence.attach buf_copy) mem_copy 1
        []).1.outcome =
      (Property_sequence.get_string 8 4 store64 mem64_2 1 []).1.outcome :=
  have hfilled : Filled 8 buf64 store64 [2] mem64_2 :=
    Filled.set 4 2 4 0x200 (Filled.fresh scenario_mem) ⟨0x1000, by decide, by decide⟩
      (by decide)
  have hcopy : ∀ k, k < buf64._size → mem_copy (buf_copy._data + k) = mem64_2 (buf64._data + k) :=
    fun k hk => by
      show memcpy mem64_2 0x2000 0x1000 64 (0x2000 + k) = mem64_2 (0x1000 + k)
      have hk1 : k < 64 := hk
      have e : 0x1000 + (0x2000 + k - 0x2000) = 0x1000 + k := by omega
      rw [memcpy_apply, if_pos ⟨by omega, by omega⟩, e]
  ⟨hfilled,
    (attach_copy_same_get 8 buf64 buf_copy store64 [2] mem64_2 mem_copy 4 2 4 [] ⟨0, 0⟩
      (by decide) (by decide) (by decide) hfilled rfl (by decide) hcopy (by decide)).2.1,
    by decide,
    (attach_copy_same_get 8 buf64 buf_copy store64 [2] mem64_2 mem_copy 4 1 4 [] ⟨0, 0⟩
      (by decide) (by decide) (by decide) hfilled rfl (by decide) hcopy (by decide)).1⟩

/-! ## The wire layout -/

theorem record_offset_zero (W : Nat) (recs : List (Nat × List Nat)) :
    record_offset W recs 0 = 0 := by
  simp [record_offset]

theorem record_offset_cons (W : Nat) (r : Nat × List Nat) (rs : List (Nat × List Nat))
    (k : Nat) :
    record_offset W (r :: rs) (k + 1) = hdr W + r.2.length + record_offset W rs k := by
  simp [record_offset]

theorem record_offset_append_left (W : Nat) (recs rs2 : List (Nat × List Nat)) (i : Nat)
    (hi : i ≤ recs.length) : record_offset W (recs ++ rs2) i = record_offset W recs i := by
  unfold record_offset
  rw [List.take_append_of_le_length hi]

theorem record_offset_snoc (W : Nat) (recs : List (Nat × List Nat)) (r : Nat × List Nat) :
    record_offset W (recs ++ [r]) (recs ++ [r]).length =
      record_offset W recs recs.length + (hdr W + r.2.length) := by
  unfold record_offset
  rw [List.take_length, List.take_length, List.map_append, List.sum_append]
  simp

theorem record_offset_succ (W : Nat) : ∀ (recs : List (Nat × List Nat)) (i p : Nat)
    (v : List Nat), recs[i]? = some (p, v) →
      record_offset W recs (i + 1) = record_offset W recs i + hdr W + v.length := by
  intro recs
  induction recs with
  | nil => intro i p v h; simp at h
  | cons r rs ih =>
    intro i p v h
    cases i with
    | zero =>
      simp at h
      rw [record_offset_cons, record_offset_zero, record_offset_zero, h]
      show hdr W + v.length + 0 = 0 + hdr W + v.length
      omega
    | succ k =>
      simp at h
      rw [record_offset_cons, record_offset_cons, ih k p v h]
      omega

theorem record_offset_le (W : Nat) : ∀ (recs : List (Nat × List Nat)) (i : Nat),
    i ≤ recs.length → record_offset W recs i ≤ record_offset W recs recs.length := by
  intro recs
  induction recs with
  | nil => intro i _; simp [record_offset]
  | cons r rs ih =>
    intro i hi
    cases i with
    | zero => rw [record_offset_zero]; omega
    | succ k =>
      rw [List.length_cons, record_offset_cons, record_offset_cons]
      have := ih k (by simpa using hi)
      omega

theorem record_end_le (W : Nat) (recs : List (Nat × List Nat)) (i p : Nat) (v : List Nat)
    (h : recs[i]? = some (p, v)) :
    record_offset W recs i + hdr W + v.length ≤ record_offset W recs recs.length := by
  have hlt : i < recs.length := by
    by_contra hc
    rw [List.getElem?_eq_none (by omega)] at h
    cases h
  rw [← record_offset_succ W recs i p v h]
  exact record_offset_le W recs (i + 1) hlt

theorem wordMod_pos (W : Nat) : 0 < wordMod W := by
  unfold wordMod
  exact Nat.pow_pos (by omega)

theorem set_done_tail_size (W : Nat) (m : Mem) (t p size data : Nat) :
    item.size W (set_done W m t p size data) (t + hdr W + size) = 0 := by
  unfold set_done set_tail
  exact item_size_set_size W _ _ 0 (wordMod_pos W)

namespace Property_sequence

theorem reset_size (W : Nat) (s : Property_sequence) (m0 : Mem) :
    item.size W (reset W s m0) s._begin = 0 := by
  unfold item.size
  apply readWord_zero
  intro x h1 h2
  rw [reset_apply, if_pos (Or.inr (Or.inr ⟨h1, by unfold hdr; omega⟩))]

theorem _set_ret_fits (W fuel : Nat) (s : Property_sequence) (m : Mem) (tags : List Nat)
    (t p size data : Nat) (wf : Well_formed W s m tags t) (hf : tags.length < fuel)
    (hx : t + hdr W + size + hdr W < wordMod W)
    (hret : (_set W fuel s m p size data).outcome = .ret ()) :
    t + hdr W + size + hdr W ≤ s._mem._data + s._mem._size := by
  rw [_set_eq W fuel s m tags t p size data wf hf hx] at hret
  split_ifs at hret with h1 h2
  omega

end Property_sequence

theorem Stored_layout (W : Nat) (mem : Data_descriptor_mod) (hW : 0 < W)
    (hend : mem._data + mem._size < wordMod W) (hN : hdr W ≤ mem._size)
    (s : Property_sequence) (recs : List (Nat × List Nat)) (m : Mem)
    (h : Stored W mem s recs m) :
    s = ⟨mem, mem._data⟩ ∧
    Well_formed W s m (recs.map Prod.fst) (mem._data + record_offset W recs recs.length) ∧
    item.size W m (mem._data + record_offset W recs recs.length) = 0 ∧
    ∀ i p v, recs[i]? = some (p, v) →
      item.type m (mem._data + record_offset W recs i) = p ∧
      item.size W m (mem._data + record_offset W recs i) = v.length ∧
      readBytes m (item.data W (mem._data + record_offset W recs i)) v.length = v := by
  have hH : 0 < hdr W := by unfold hdr; omega
  induction h with
  | fresh m0 =>
    refine ⟨rfl, ?_, ?_, ?_⟩
    · have := Property_sequence.fresh_well_formed W mem m0 hW hend hN
      simpa [record_offset] using this
    · have := Property_sequence.reset_size W ⟨mem, mem.data⟩ m0
      simpa [record_offset, Property_sequence.fresh, Data_descriptor_template.data] using this
    · intro i p v hi
      simp at hi
  | @set s recs m fuel p size data last _ hlast hx hsep hp hret ih =>
    obtain ⟨hs, wf, hsz, hrec⟩ := ih
    obtain ⟨hf, hlt⟩ := Property_sequence.Well_formed_unique W s m _ _ fuel last wf hlast
    subst hlt
    have hfit := Property_sequence._set_ret_fits W fuel s m _ _ p size data wf hf hx hret
    have hmem : (Property_sequence._set W fuel s m p size data).mem =
        set_done W m (mem._data + record_offset W recs recs.length) p size data := by
      rw [Property_sequence._set_ret W fuel s m _ _ p size data wf hf hfit]
    have hlen : (readBytes m data size).length = size := readBytes_length m data size
    have hoff : record_offset W (recs ++ [(p, readBytes m data size)])
        (recs ++ [(p, readBytes m data size)]).length =
        record_offset W recs recs.length + (hdr W + size) := by
      rw [record_offset_snoc]
      show _ + (hdr W + (readBytes m data size).length) = _
      rw [hlen]
    have hwf2 := Property_sequence._set_well_formed W fuel s m _ _ p size data wf hf hx hret
    rw [if_neg hp, if_neg hp] at hwf2
    refine ⟨hs, ?_, ?_, ?_⟩
    · rw [List.map_append, hoff]
      have e : mem._data + (record_offset W recs recs.length + (hdr W + size)) =
          mem._data + record_offset W recs recs.length + hdr W + size := by omega
      rw [e]
      exact hwf2
    · rw [hoff, hmem]
      have e : mem._data + (record_offset W recs recs.length + (hdr W + size)) =
          mem._data + record_offset W recs recs.length + hdr W + size := by omega
      rw [e]
      exact set_done_tail_size W m _ p size data
    · intro i q v hi
      rw [hmem]
      rcases Nat.lt_trichotomy i recs.length with hlt | heq | hgt
      · rw [List.getElem?_append_left hlt] at hi
        obtain ⟨h1, h2, h3⟩ := hrec i q v hi
        have hle := record_end_le W recs i q v hi
        rw [record_offset_append_left W recs _ i (le_of_lt hlt)]
        refine ⟨?_, ?_, ?_⟩
        · unfold item.type
          rw [set_done_below W hW m _ p size data _ (by omega)]
          exact h1
        · rw [item_size_congr W _ m _
            (fun x _ hx2 => set_done_below W hW m _ p size data x (by omega))]
          exact h2
        · rw [readBytes_congr _ m _ _ _
            (fun k hk => set_done_below W hW m _ p size data _ (by unfold item.data; omega))]
          exact h3
      · subst heq
        rw [List.getElem?_append_right (le_refl _)] at hi
        simp at hi
        obtain ⟨hq, hv⟩ := hi
        subst hq
        subst hv
        rw [record_offset_append_left W recs _ _ (le_refl _), hlen]
        refine ⟨set_done_type W hW m _ p size data,
          set_done_size W hW m _ p size data (by omega), ?_⟩
        apply readBytes_congr
        intro k hk
        exact set_done_payload W hW m _ p size data k hk hsep
      · rw [List.getElem?_eq_none (by simp; omega)] at hi
        cases hi
  | @frame s recs m m1 _ hm ih =>
    obtain ⟨hs, wf, hsz, hrec⟩ := ih
    have hfit := wf.fits
    subst hs
    have hfit1 : mem._data + record_offset W recs recs.length + hdr W ≤
        mem._data + mem._size := hfit
    refine ⟨rfl, ?_, ?_, ?_⟩
    · apply Property_sequence.Well_formed_congr W _ m1 m _ _ wf
      intro x h1 h2
      exact hm x h1 (by omega)
    · rw [item_size_congr W m1 m _ (fun x hx1 hx2 => hm x (by omega) (by omega))]
      exact hsz
    · intro i q v hi
      obtain ⟨h1, h2, h3⟩ := hrec i q v hi
      have hle := record_end_le W recs i q v hi
      refine ⟨?_, ?_, ?_⟩
      · unfold item.type
        rw [hm _ (by omega) (by omega)]
        exact h1
      · rw [item_size_congr W m1 m _ (fun x hx1 hx2 => hm x (by omega) (by omega))]
        exact h2
      · rw [readBytes_congr m1 m _ _ _
          (fun k hk => hm _ (by unfold item.data; omega) (by unfold item.data; omega))]
        exact h3

/-- Wire layout while no `size_t` sum wraps: what holds of C11.  A store is made in fresh mode
over the Region `mem` (inside the address space, with room for a header) and filled by `set`
calls with non-zero tags `t_1..t_k` and payloads `v_1..v_k` that returned normally, whose sums
`item_end` and `tail_end` were exact and whose source bytes lay outside the record written
(`Stored`; `recs` lists the pairs).  Then record `i`
starts at offset `record_offset W recs i`, the sum of `header + |v_j|` over the records before
it, and holds type `t_i`, size `|v_i|` and the bytes `v_i` right after its header; the next
record starts right after the payload, without padding.  The item at offset
`record_offset W recs k` is the terminator, type `LAST` and size 0, and its header lies inside
the Region. -/
theorem wire_layout (W : Nat) (mem : Data_descriptor_mod) (s : Property_sequence)
    (recs : List (Nat × List Nat)) (m : Mem) (hW : 0 < W)
    (hend : mem._data + mem._size < wordMod W) (hN : hdr W ≤ mem._size)
    (h : Stored W mem s recs m) :
    (∀ i p v, recs[i]? = some (p, v) →
      item.type m (mem._data + record_offset W recs i) = p ∧
      item.size W m (mem._data + record_offset W recs i) = v.length ∧
      readBytes m (item.data W (mem._data + record_offset W recs i)) v.length = v ∧
      record_offset W recs (i + 1) = record_offset W recs i + hdr W + v.length) ∧
    item.type m (mem._data + record_offset W recs recs.length) = LAST ∧
    item.size W m (mem._data + record_offset W recs recs.length) = 0 ∧
    record_offset W recs recs.length + hdr W ≤ mem._size := by
  obtain ⟨_, wf, hsz, hrec⟩ := Stored_layout W mem hW hend hN s recs m h
  refine ⟨?_, wf.last, hsz, ?_⟩
  · intro i p v hi
    obtain ⟨h1, h2, h3⟩ := hrec i p v hi
    exact ⟨h1, h2, h3, record_offset_succ W recs i p v hi⟩
  · have hfit := wf.fits
    have hs : s._mem._data + s._mem._size = mem._data + mem._size := by
      have := (Stored_layout W mem hW hend hN s recs m h).1
      rw [this]
    omega

/-- An instance of `wire_layout`: the fresh 64-byte store after `set<2>` of the 4 bytes at
`0x200`: the record is at offset 0 and the terminator at offset `16 + 4 = 20`. -/
theorem wire_layout_witness :
    Stored 8 buf64 store64 [(2, [10, 11, 12, 13])] mem64_2 ∧
    item.type mem64_2 (buf64._data + record_offset 8 [(2, [10, 11, 12, 13])] 0) = 2 ∧
    record_offset 8 [(2, [10, 11, 12, 13])] 1 = 20 ∧
    item.type mem64_2 (buf64._data + record_offset 8 [(2, [10, 11, 12, 13])] 1) = LAST :=
  have hstored : Stored 8 buf64 store64 [(2, [10, 11, 12, 13])] mem64_2 :=
    Stored.set 4 2 4 0x200 0x1000 (Stored.fresh scenario_mem) (by decide) (by decide)
      (by decide) (by decide) (by decide)
  have h := wire_layout 8 buf64 store64 [(2, [10, 11, 12, 13])] mem64_2 (by decide)
    (by decide) (by decide) hstored
  ⟨hstored, (h.1 0 2 [10, 11, 12, 13] rfl).1, by decide, h.2.1⟩

/-! ## Region algebra: `advance`, `subtract`, `reduce` -/

namespace Data_descriptor_template

theorem size_sub_wrapped (W a b : Nat) (hab : a < b) (hb : b < wordMod W) :
    size_sub W a b = a + wordMod W - b := by
  unfold size_sub
  rw [Nat.mod_eq_of_lt hb]
  exact Nat.mod_eq_of_lt (by omega)

end Data_descriptor_template

/-- C21. Splitting at `n`.  For a Region `R` inside the address space and `n ≤ R.size()`:
`reduce( n )` is `( R.start, n )`, `advance( n )` is `( R.start + n, R.size() − n )`,
`reduce( n ).right_adjecent_to( advance( n ) )` is true and the two lengths add up to
`R.size()`. -/
theorem split_at (W : Nat) (R : Data_descriptor_template) (n : Nat) (hR : R.in_space W)
    (hn : n ≤ R._size) :
    R.reduce n = ⟨R._data, n⟩ ∧
    R.advance W n = ⟨R._data + n, R._size - n⟩ ∧
    (R.reduce n).right_adjecent_to W (R.advance W n) = true ∧
    (R.reduce n).size + (R.advance W n).size = R.size := by
  unfold Data_descriptor_template.in_space at hR
  have hp : Data_descriptor_template.ptr_add W R._data n = R._data + n :=
    Data_descriptor_template.ptr_add_exact W _ _ (by omega)
  have hs : Data_descriptor_template.size_sub W R._size n = R._size - n :=
    Data_descriptor_template.size_sub_exact W _ _ hn (by omega)
  unfold Data_descriptor_template.reduce Data_descriptor_template.advance
    Data_descriptor_template.right_adjecent_to Data_descriptor_template.size
    Data_descriptor_template.data
  simp only [hp, hs, beq_self_eq_true, true_and]
  omega

/-- Witness of C21: the 100-byte Region at `0x1000` split at 30. -/
theorem split_at_witness :
    Data_descriptor_template.reduce ⟨0x1000, 100⟩ 30 = ⟨0x1000, 30⟩ ∧
    Data_descriptor_template.advance 8 ⟨0x1000, 100⟩ 30 = ⟨0x1000 + 30, 100 - 30⟩ :=
  have h := split_at 8 ⟨0x1000, 100⟩ 30 (by decide) (by decide)
  ⟨h.1, h.2.1⟩

/-- C22. `subtract` shrinks from the tail.  For a Region `R` inside the address space and
`n ≤ R.size()`: `subtract( n )` is the Region with the start of `R` and length
`R.size() − n`, and it equals `reduce( R.size() − n )`. -/
theorem subtract_value (W : Nat) (R : Data_descriptor_template) (n : Nat) (hR : R.in_space W)
    (hn : n ≤ R._size) :
    R.subtract W n = ⟨R._data, R._size - n⟩ ∧
    R.subtract W n = R.reduce (R.size - n) := by
  unfold Data_descriptor_template.in_space at hR
  have hs : Data_descriptor_template.size_sub W R._size n = R._size - n :=
    Data_descriptor_template.size_sub_exact W _ _ hn (by omega)
  unfold Data_descriptor_template.subtract Data_descriptor_template.reduce
    Data_descriptor_template.size
  rw [hs]
  exact ⟨rfl, rfl⟩

/-- Witness of C22: 30 bytes taken off the tail of the 100-byte Region at `0x1000`. -/
theorem subtract_value_witness :
    Data_descriptor_template.subtract 8 ⟨0x1000, 100⟩ 30 = ⟨0x1000, 100 - 30⟩ ∧
    Data_descriptor_template.subtract 8 ⟨0x1000, 100⟩ 30 =
      Data_descriptor_template.reduce ⟨0x1000, 100⟩
        ((⟨0x1000, 100⟩ : Data_descriptor_template).size - 30) :=
  subtract_value 8 ⟨0x1000, 100⟩ 30 (by decide) (by decide)

/-- C23. Derivations never leave the parent.  For a Region `R` inside the address space and a
Region `B` inside the address space with `R.in( B )` (so that `R` is valid):
`advance( n )`, `subtract( n )` and `reduce( n )` with `n ≤ R.size()`, and `truncate( B )`,
`strip( B )` and `tail( B )`, each return a valid Region `X` with `R.in( X )`; `tail( B )` logs
no assertion, so its postcondition `in( result )` does not fail. -/
theorem derived_in_parent (W : Nat) (R B : Data_descriptor_template) (n : Nat)
    (hR : R.in_space W) (hn : n ≤ R._size) (hB : B.in_space W) (hin : R.in_ W B = true) :
    ((R.advance W n).valid = true ∧ R.in_ W (R.advance W n) = true) ∧
    ((R.subtract W n).valid = true ∧ R.in_ W (R.subtract W n) = true) ∧
    ((R.reduce n).valid = true ∧ R.in_ W (R.reduce n) = true) ∧
    ((R.truncate W B).valid = true ∧ R.in_ W (R.truncate W B) = true) ∧
    ((R.strip W B).valid = true ∧ R.in_ W (R.strip W B) = true) ∧
    ((R.tail W B).valid = true ∧ R.in_ W (R.tail W B) = true) ∧
    R.tail_asserts W B = [] := by
  obtain ⟨h0, hb0, h1, h2⟩ := (Data_descriptor_template.in_exact W R B hR hB).mp hin
  have hR1 : R._data + R._size < wordMod W := hR
  have hB1 : B._data + B._size < wordMod W := hB
  have key : ∀ X : Data_descriptor_template, X._data ≠ 0 → R._data ≤ X._data →
      X._data + X._size ≤ R._data + R._size → X.valid = true ∧ R.in_ W X = true := by
    intro X hx0 hx1 hx2
    have hX : X.in_space W := by
      show X._data + X._size < wordMod W
      omega
    refine ⟨by simpa [Data_descriptor_template.valid] using hx0, ?_⟩
    exact (Data_descriptor_template.in_exact W R X hR hX).mpr ⟨h0, hx0, hx1, hx2⟩
  have hadv : R.advance W n = ⟨R._data + n, R._size - n⟩ := by
    unfold Data_descriptor_template.advance
    rw [Data_descriptor_template.ptr_add_exact W _ _ (by omega),
      Data_descriptor_template.size_sub_exact W _ _ hn (by omega)]
  have hsub : R.subtract W n = ⟨R._data, R._size - n⟩ := by
    unfold Data_descriptor_template.subtract
    rw [Data_descriptor_template.size_sub_exact W _ _ hn (by omega)]
  have hd : Data_descriptor_template.size_sub W B._data R._data = B._data - R._data :=
    Data_descriptor_template.size_sub_exact W _ _ h1 (by omega)
  have hs : Data_descriptor_template.size_add W (B._data - R._data) B._size =
      B._data - R._data + B._size :=
    Data_descriptor_template.size_add_exact W _ _ (by omega)
  have ht : Data_descriptor_template.size_sub W R._size (B._data - R._data + B._size) =
      R._size - (B._data - R._data + B._size) :=
    Data_descriptor_template.size_sub_exact W _ _ (by omega) (by omega)
  have hp : Data_descriptor_template.ptr_add W B._data B._size = B._data + B._size :=
    Data_descriptor_template.ptr_add_exact W _ _ hB
  have htrunc : R.truncate W B = ⟨R._data, B._data - R._data + B._size⟩ := by
    unfold Data_descriptor_template.truncate Data_descriptor_template.data
      Data_descriptor_template.size
    rw [hd, hs]
  have hstrip : R.strip W B = ⟨R._data, B._data - R._data⟩ := by
    unfold Data_descriptor_template.strip Data_descriptor_template.data
    rw [hd]
  have htail : R.tail W B =
      ⟨B._data + B._size, R._size - (B._data - R._data + B._size)⟩ := by
    unfold Data_descriptor_template.tail Data_descriptor_template.data
      Data_descriptor_template.size
    rw [hd, hs, ht, hp]
  have rtail := key (R.tail W B) (by rw [htail]; show B._data + B._size ≠ 0; omega)
    (by rw [htail]; show R._data ≤ B._data + B._size; omega)
    (by rw [htail]; show B._data + B._size + (R._size - (B._data - R._data + B._size)) ≤ _
        omega)
  refine ⟨?_, ?_, ?_, ?_, ?_, rtail, ?_⟩
  · rw [hadv]
    exact key _ (by show R._data + n ≠ 0; omega) (by show R._data ≤ R._data + n; omega)
      (by show R._data + n + (R._size - n) ≤ _; omega)
  · rw [hsub]
    exact key _ h0 (le_refl _) (by show R._data + (R._size - n) ≤ _; omega)
  · exact key _ h0 (le_refl _) (by show R._data + n ≤ _; omega)
  · rw [htrunc]
    exact key _ h0 (le_refl _) (by show R._data + (B._data - R._data + B._size) ≤ _; omega)
  · rw [hstrip]
    exact key _ h0 (le_refl _) (by show R._data + (B._data - R._data) ≤ _; omega)
  · unfold Data_descriptor_template.tail_asserts
    rw [hin, rtail.1, rtail.2]
    rfl

/-- Witness of C23: the 100-byte Region at `0x1000`, `n = 30` and `B` = 10 bytes at
offset 10. -/
theorem derived_in_parent_witness :
    Data_descriptor_template.in_ 8 ⟨0x1000, 100⟩ ⟨0x1000 + 10, 10⟩ = true ∧
    Data_descriptor_template.in_ 8 ⟨0x1000, 100⟩
      (Data_descriptor_template.tail 8 ⟨0x1000, 100⟩ ⟨0x1000 + 10, 10⟩) = true ∧
    Data_descriptor_template.tail_asserts 8 ⟨0x1000, 100⟩ ⟨0x1000 + 10, 10⟩ = [] :=
  have h := derived_in_parent 8 ⟨0x1000, 100⟩ ⟨0x1000 + 10, 10⟩ 30 (by decide) (by decide)
    (by decide) (by decide)
  ⟨by decide, h.2.2.2.2.2.1.2, h.2.2.2.2.2.2⟩

/-- Counterexample to C24 as stated.  The 100-byte Region at `0x1000` and `n = 101`
(`sizeof(size_t) = 8`): each of `reduce`, `subtract` and `advance` logs the failed assertion
`s <= _size` and returns a descriptor all the same: `reduce( 101 )` has length 101, more than
the parent; `subtract( 101 )` and `advance( 101 )` have length `100 − 101` wrapped around,
`2^64 − 1`. -/
theorem oversized_argument_returns_region :
    Data_descriptor_template.reduce_asserts ⟨0x1000, 100⟩ 101 = [Region_assertion.s_le_size] ∧
    Data_descriptor_template.reduce ⟨0x1000, 100⟩ 101 = ⟨0x1000, 101⟩ ∧
    Data_descriptor_template.subtract_asserts 8 ⟨0x1000, 100⟩ 101 =
      [Region_assertion.s_le_size] ∧
    Data_descriptor_template.subtract 8 ⟨0x1000, 100⟩ 101 = ⟨0x1000, 2 ^ 64 - 1⟩ ∧
    Data_descriptor_template.advance_asserts 8 ⟨0x1000, 100⟩ 101 =
      [Region_assertion.s_le_size] ∧
    Data_descriptor_template.advance 8 ⟨0x1000, 100⟩ 101 = ⟨0x1000 + 101, 2 ^ 64 - 1⟩ := by
  decide

/-- C24, amended.  For a Region of length `L` and every `n > L` (a `size_t` value):
`advance( n )`, `subtract( n )` and `reduce( n )` log the failed assertion `s <= _size`, which
is the only signal of the violated precondition, and still return a descriptor:
`reduce( n )` is `( start, n )`, longer than the parent, and `subtract( n )` and
`advance( n )` have the length `L − n` wrapped around, `L + 2^(8W) − n`. -/
theorem oversized_argument_logged (W : Nat) (R : Data_descriptor_template) (n : Nat)
    (hn : R._size < n) (hw : n < wordMod W) :
    Region_assertion.s_le_size ∈ R.reduce_asserts n ∧
    Region_assertion.s_le_size ∈ R.subtract_asserts W n ∧
    Region_assertion.s_le_size ∈ R.advance_asserts W n ∧
    R.reduce n = ⟨R._data, n⟩ ∧
    R.subtract W n = ⟨R._data, R._size + wordMod W - n⟩ ∧
    (R.advance W n)._size = R._size + wordMod W - n ∧
    R._size < (R.reduce n)._size ∧
    R._size < (R.subtract W n)._size ∧
    R._size < (R.advance W n)._size := by
  have hns : ¬ n ≤ R._size := by omega
  have hs := Data_descriptor_template.size_sub_wrapped W R._size n hn hw
  unfold Data_descriptor_template.reduce_asserts Data_descriptor_template.subtract_asserts
    Data_descriptor_template.advance_asserts
  unfold Data_descriptor_template.reduce Data_descriptor_template.subtract
    Data_descriptor_template.advance
  simp only [if_neg hns, hs, List.mem_append, List.mem_singleton, true_or, or_true, true_and]
  omega

/-- Witness of the amended C24: the 100-byte Region at `0x1000` and `n = 101`. -/
theorem oversized_argument_logged_witness :
    (100 : Nat) < 101 ∧
    Region_assertion.s_le_size ∈
      Data_descriptor_template.reduce_asserts ⟨0x1000, 100⟩ 101 ∧
    Data_descriptor_template.subtract 8 ⟨0x1000, 100⟩ 101 = ⟨0x1000, 100 + wordMod 8 - 101⟩ :=
  have h := oversized_argument_logged 8 ⟨0x1000, 100⟩ 101 (by decide) (by decide)
  ⟨by decide, h.1, h.2.2.2.2.1⟩

/-! ## Bulk operations: `Csl::memcpy`, `nullify`, `Csl::memcmp` -/

theorem readBytes_succ (m : Mem) (a n : Nat) :
    readBytes m a (n + 1) = m a :: readBytes m (a + 1) n := by
  unfold readBytes
  rw [List.range_succ_eq_map, List.map_cons, List.map_map]
  refine congrArg₂ _ rfl ?_
  apply List.map_congr_left
  intro k _
  show m (a + (k + 1)) = m (a + 1 + k)
  rw [show a + (k + 1) = a + 1 + k by omega]

theorem memcmp_spec (m : Mem) : ∀ (n p0 p1 : Nat),
    (memcmp m p0 p1 n = 0 ↔ readBytes m p0 n = readBytes m p1 n) ∧
    (memcmp m p0 p1 n < 0 ↔ lex_lt (readBytes m p0 n) (readBytes m p1 n)) ∧
    (0 < memcmp m p0 p1 n ↔ lex_lt (readBytes m p1 n) (readBytes m p0 n)) := by
  intro n
  induction n with
  | zero =>
    intro p0 p1
    simp [memcmp, readBytes, lex_lt]
  | succ n ih =>
    intro p0 p1
    obtain ⟨ih1, ih2, ih3⟩ := ih (p0 + 1) (p1 + 1)
    rw [readBytes_succ, readBytes_succ]
    unfold memcmp
    by_cases h : m p0 = m p1
    · simp only [h, ne_eq, not_true_eq_false, if_false, lex_lt, lt_irrefl, false_or, true_and,
        List.cons.injEq]
      exact ⟨ih1, ih2, ih3⟩
    · simp only [ne_eq, h, not_false_eq_true, if_true, lex_lt, false_and, or_false,
        List.cons.injEq]
      have h' : ¬ m p1 = m p0 := fun e => h e.symm
      simp only [h', false_and, or_false]
      exact ⟨⟨fun e => h (by omega), False.elim⟩, ⟨fun _ => by omega, fun _ => by omega⟩,
        ⟨fun _ => by omega, fun _ => by omega⟩⟩

/-- C25. Bulk copy.  For a target and a source whose byte ranges do not overlap, with
`target.size() ≥ source.size()`: after `Csl::memcpy( target, source )` the first
`source.size()` bytes of the target are the bytes of the source, the other bytes of the target
and every byte outside the target are unchanged, and the source is unchanged; when both are
valid no assertion is logged. -/
theorem memcpy_copies (m : Mem) (target : Data_descriptor_mod) (source : Data_descriptor)
    (hsize : source._size ≤ target._size)
    (hdisj : target._data + target._size ≤ source._data ∨
      source._data + source._size ≤ target._data) :
    readBytes (descriptor_memcpy m target source).1 target._data source._size =
      readBytes m source._data source._size ∧
    (∀ k, source._size ≤ k → k < target._size →
      (descriptor_memcpy m target source).1 (target._data + k) = m (target._data + k)) ∧
    (∀ x, x < target._data ∨ target._data + target._size ≤ x →
      (descriptor_memcpy m target source).1 x = m x) ∧
    readBytes (descriptor_memcpy m target source).1 source._data source._size =
      readBytes m source._data source._size ∧
    (target.valid = true → source.valid = true →
      (descriptor_memcpy m target source).2 = []) := by
  unfold descriptor_memcpy Data_descriptor_template.data Data_descriptor_template.size
  refine ⟨?_, ?_, ?_, ?_, ?_⟩
  · apply readBytes_congr
    intro k hk
    show memcpy m target._data source._data source._size (target._data + k) = _
    rw [memcpy_apply, if_pos ⟨by omega, by omega⟩]
    congr 1
    omega
  · intro k h1 h2
    show memcpy m target._data source._data source._size (target._data + k) = _
    rw [memcpy_apply, if_neg (by omega)]
  · intro x hx
    show memcpy m target._data source._data source._size x = _
    rw [memcpy_apply, if_neg (by omega)]
  · apply readBytes_congr
    intro k hk
    show memcpy m target._data source._data source._size (source._data + k) = _
    rw [memcpy_apply, if_neg (by omega)]
  · intro hv1 hv2
    simp [hv1, hv2, hsize]

/-- Witness of C25: the 4 bytes at `0x100` copied into the 64-byte Region at `0x2000`. -/
theorem memcpy_copies_witness :
    readBytes (descriptor_memcpy scenario_mem ⟨0x2000, 64⟩ ⟨0x100, 4⟩).1 0x2000 4 =
      readBytes scenario_mem 0x100 4 ∧
    readBytes scenario_mem 0x100 4 = [0xEF, 0xBE, 0xAD, 0xDE] ∧
    (descriptor_memcpy scenario_mem ⟨0x2000, 64⟩ ⟨0x100, 4⟩).2 = [] :=
  have h := memcpy_copies scenario_mem ⟨0x2000, 64⟩ ⟨0x100, 4⟩ (by decide) (by decide)
  ⟨h.1, by decide, h.2.2.2.2 (by decide) (by decide)⟩

/-- C26. Zero fill.  After `R.nullify()` every byte in `[R.start, R.start + R.size())` is 0,
every byte outside that range is unchanged and the Region returned is `R`; for a valid `R` no
assertion is logged. -/
theorem nullify_zero_fills (R : Data_descriptor_template) (m : Mem) :
    (∀ x, R._data ≤ x → x < R._data + R._size → (R.nullify m).1 x = 0) ∧
    (∀ x, x < R._data ∨ R._data + R._size ≤ x → (R.nullify m).1 x = m x) ∧
    (R.nullify m).2.2 = R ∧
    (R.valid = true → (R.nullify m).2.1 = []) := by
  unfold Data_descriptor_template.nullify
  refine ⟨?_, ?_, rfl, ?_⟩
  · intro x h1 h2
    show memset m R._data 0 R._size x = 0
    rw [memset_apply, if_pos ⟨h1, h2⟩]
  · intro x hx
    show memset m R._data 0 R._size x = m x
    rw [memset_apply, if_neg (by omega)]
  · intro hv
    simp [hv]

/-- C27. Prefix compare.  `Csl::memcmp( a, b )` compares the first `b.size()` bytes at the
start of `a` with the bytes of `b` (for `a.size() ≥ b.size()` these are bytes of `a`): it
returns 0 if and only if the two byte strings are equal, a negative value if and only if the
one of `a` is lexicographically smaller, and a positive value if and only if the one of `b`
is lexicographically smaller. -/
theorem memcmp_prefix_compare (m : Mem) (a b : Data_descriptor) :
    ((descriptor_memcmp m a b).1 = 0 ↔
      readBytes m a._data b._size = readBytes m b._data b._size) ∧
    ((descriptor_memcmp m a b).1 < 0 ↔
      lex_lt (readBytes m a._data b._size) (readBytes m b._data b._size)) ∧
    (0 < (descriptor_memcmp m a b).1 ↔
      lex_lt (readBytes m b._data b._size) (readBytes m a._data b._size)) :=
  memcmp_spec m b._size a._data b._data

/-- C28, the code at the failing input.  In `scenario_mem` the Region `a = ( 0x200, 3 )` holds
the bytes 10, 11, 12 and the Region `b = ( 0x2FB, 2 )` holds the bytes 10, 11; both are valid
and they do not overlap.  `Csl::memcmp( a, b )` compares only `b.size() = 2` bytes and returns
0, although the two Regions differ in length and so in the data they describe. -/
theorem memcmp_zero_for_different_lengths :
    (descriptor_memcmp scenario_mem ⟨0x200, 3⟩ ⟨0x2FB, 2⟩).1 = 0 ∧
    (descriptor_memcmp scenario_mem ⟨0x200, 3⟩ ⟨0x2FB, 2⟩).2 = [] ∧
    readBytes scenario_mem 0x200 3 = [10, 11, 12] ∧
    readBytes scenario_mem 0x2FB 2 = [10, 11] ∧
    readBytes scenario_mem 0x200 3 ≠ readBytes scenario_mem 0x2FB 2 := by
  decide

/-! ## Shared settings: clone, mutate, commit -/

/-- C29. Clone, mutate, commit.  For an accessor that ends (it returns or it throws) on the
attach-mode store over the clone: the clone holds the previous bytes of the shared Region;
`safe_operation` returns normally, also when the accessor threw; afterwards the shared Region
holds exactly the bytes that the accessor left in the clone, and every byte outside the shared
Region is as the accessor left it; when the accessor left the bytes of the clone as they were,
the shared Region holds its previous bytes; on a valid object no assertion is logged. -/
theorem safe_operation_commits (ss : Shared_settings) (buffer : Nat)
    (accessor : Property_sequence → Mem → Mem × Outcome Unit) (m : Mem)
    (hend : (accessor (Property_sequence.attach ⟨buffer, ss._mem._size⟩)
      (memcpy m buffer ss._mem._data ss._mem._size)).2 ≠ Outcome.no_fuel) :
    readBytes (memcpy m buffer ss._mem._data ss._mem._size) buffer ss._mem._size =
      readBytes m ss._mem._data ss._mem._size ∧
    (ss.safe_operation buffer accessor m).outcome = Outcome.ret () ∧
    readBytes (ss.safe_operation buffer accessor m).mem ss._mem._data ss._mem._size =
      readBytes (accessor (Property_sequence.attach ⟨buffer, ss._mem._size⟩)
        (memcpy m buffer ss._mem._data ss._mem._size)).1 buffer ss._mem._size ∧
    (∀ x, x < ss._mem._data ∨ ss._mem._data + ss._mem._size ≤ x →
      (ss.safe_operation buffer accessor m).mem x =
        (accessor (Property_sequence.attach ⟨buffer, ss._mem._size⟩)
          (memcpy m buffer ss._mem._data ss._mem._size)).1 x) ∧
    (readBytes (accessor (Property_sequence.attach ⟨buffer, ss._mem._size⟩)
        (memcpy m buffer ss._mem._data ss._mem._size)).1 buffer ss._mem._size =
      readBytes (memcpy m buffer ss._mem._data ss._mem._size) buffer ss._mem._size →
      readBytes (ss.safe_operation buffer accessor m).mem ss._mem._data ss._mem._size =
        readBytes m ss._mem._data ss._mem._size) ∧
    (ss._valid = true → (ss.safe_operation buffer accessor m).asserts = []) := by
  have hclone : readBytes (memcpy m buffer ss._mem._data ss._mem._size) buffer ss._mem._size =
      readBytes m ss._mem._data ss._mem._size := by
    apply readBytes_congr
    intro k hk
    have e : ss._mem._data + (buffer + k - buffer) = ss._mem._data + k := by omega
    rw [memcpy_apply, if_pos ⟨by omega, by omega⟩, e]
  have key : (ss.safe_operation buffer accessor m).outcome = Outcome.ret () ∧
      (ss.safe_operation buffer accessor m).mem =
        memcpy (accessor (Property_sequence.attach ⟨buffer, ss._mem._size⟩)
          (memcpy m buffer ss._mem._data ss._mem._size)).1 ss._mem._data buffer ss._mem._size ∧
      (ss.safe_operation buffer accessor m).asserts =
        (if ss._valid then [] else [Region_assertion.valid]) := by
    simp only [Shared_settings.safe_operation, Shared_settings.mem,
      Data_descriptor_template.data, Data_descriptor_template.size]
    revert hend
    generalize accessor (Property_sequence.attach ⟨buffer, ss._mem._size⟩)
      (memcpy m buffer ss._mem._data ss._mem._size) = run
    intro hend
    obtain ⟨m2, o⟩ := run
    cases o with
    | ret a => simp
    | thrown e => simp
    | no_fuel => exact absurd rfl hend
  have hcommit : readBytes (ss.safe_operation buffer accessor m).mem ss._mem._data
      ss._mem._size =
      readBytes (accessor (Property_sequence.attach ⟨buffer, ss._mem._size⟩)
        (memcpy m buffer ss._mem._data ss._mem._size)).1 buffer ss._mem._size := by
    rw [key.2.1]
    apply readBytes_congr
    intro k hk
    have e : buffer + (ss._mem._data + k - ss._mem._data) = buffer + k := by omega
    rw [memcpy_apply, if_pos ⟨by omega, by omega⟩, e]
  refine ⟨hclone, key.1, hcommit, ?_, ?_, ?_⟩
  · intro x hx
    rw [key.2.1, memcpy_apply, if_neg (by omega)]
  · intro hsame
    rw [hcommit, hsame, hclone]
  · intro hv
    rw [key.2.2, if_pos hv]

/-- Witness of C29: on the store `mem64_1` of `buf64`, with the clone at `0x3000`.  The accessor
`set<2>` returns, and the shared Region then holds what the same `set<2>` on an attach-mode
store over the Region itself would have left; the accessor `set<3>` of 24 bytes throws "Not
enough space for tail" after it wrote its record, and the record is committed. -/
theorem safe_operation_commits_witness :
    (set2_accessor (Property_sequence.attach ⟨0x3000, 64⟩)
      (memcpy mem64_1 0x3000 0x1000 64)).2 = Outcome.ret () ∧
    (settings64.safe_operation 0x3000 set2_accessor mem64_1).outcome = Outcome.ret () ∧
    readBytes (settings64.safe_operation 0x3000 set2_accessor mem64_1).mem 0x1000 64 =
      readBytes (set2_accessor (Property_sequence.attach ⟨0x3000, 64⟩)
        (memcpy mem64_1 0x3000 0x1000 64)).1 0x3000 64 ∧
    readBytes (settings64.safe_operation 0x3000 set2_accessor mem64_1).mem 0x1000 64 =
      readBytes (set2_accessor (Property_sequence.attach ⟨0x1000, 64⟩) mem64_1).1 0x1000 64 ∧
    (set3_accessor (Property_sequence.attach ⟨0x3000, 64⟩)
      (memcpy mem64_1 0x3000 0x1000 64)).2 = Outcome.thrown Exception.Not_enough_space_for_tail ∧
    (settings64.safe_operation 0x3000 set3_accessor mem64_1).outcome = Outcome.ret () ∧
    item.type (settings64.safe_operation 0x3000 set3_accessor mem64_1).mem (0x1000 + 20) = 3 ∧
    readBytes (settings64.safe_operation 0x3000 get1_accessor mem64_1).mem 0x1000 64 =
      readBytes mem64_1 0x1000 64 :=
  have h2 := safe_operation_commits settings64 0x3000 set2_accessor mem64_1 (by decide)
  have h3 := safe_operation_commits settings64 0x3000 set3_accessor mem64_1 (by decide)
  have h1 := safe_operation_commits settings64 0x3000 get1_accessor mem64_1 (by decide)
  ⟨by decide, h2.2.1, h2.2.2.1, by decide, by decide, h3.2.1, by decide, h1.2.2.2.2.1 rfl⟩

/-! ## XML path unescape -/

theorem Char_sub_ne_zero (a b : Char) (h : a ≠ b) : (a.toNat : Int) - (b.toNat : Int) ≠ 0 := by
  intro e
  apply h
  apply Char.ext
  apply UInt32.ext
  have : a.toNat = b.toNat := by omega
  exact this

theorem strcmp_eq_zero_iff : ∀ (pattern str : List Char), pattern.length ≤ str.length →
    (strcmp str pattern pattern.length = 0 ↔ pattern <+: str) := by
  intro pattern
  induction pattern with
  | nil => intro str _; simp [strcmp]
  | cons a p ih =>
    intro str hlen
    cases str with
    | nil => simp at hlen
    | cons b r =>
      simp only [List.length_cons, strcmp, List.headD_cons, List.tail_cons, List.cons_prefix_cons]
      by_cases hab : b = a
      · subst hab
        simp only [ne_eq, not_true_eq_false, if_false, true_and]
        exact ih r (by simpa using hlen)
      · rw [if_pos hab]
        constructor
        · intro e; exact absurd e (Char_sub_ne_zero b a hab)
        · intro e; exact absurd e.1.symm hab

theorem contains_at_iff (W : Nat) (s stale pattern rest : List Char) (i : Nat)
    (hi : i < s.length) (h : s.drop (i + 1) = rest) :
    Basic_string.contains_at W s stale pattern (i + 1) = true ↔ pattern <+: rest := by
  have hl : rest.length = s.length - (i + 1) := by rw [← h, List.length_drop]
  have hd : (s ++ stale).drop (i + 1) = rest ++ stale := by
    rw [List.drop_append_of_le_length (by omega), h]
  unfold Basic_string.contains_at Basic_string.size
  rw [if_pos (show i + 1 ≤ s.length by omega), hd, ← hl]
  by_cases hp : pattern.length > rest.length
  · rw [if_pos hp]
    constructor
    · intro e; exact absurd e (by simp)
    · intro e; exact absurd e.length_le (by omega)
  · rw [if_neg hp, beq_iff_eq,
      strcmp_eq_zero_iff pattern (rest ++ stale) (by rw [List.length_append]; omega)]
    constructor
    · intro e
      exact List.prefix_of_prefix_length_le e (List.prefix_append _ _) (by omega)
    · intro e
      exact e.trans (List.prefix_append _ _)

theorem drop_succ_of_drop {s rest : List Char} {i : Nat} {c : Char}
    (h : s.drop i = c :: rest) : s.drop (i + 1) = rest := by
  have := congrArg (List.drop 1) h
  simpa [List.drop_drop] using this

theorem drop_add_of_drop {s rest : List Char} {i : Nat} (mid : List Char)
    (h : s.drop i = mid ++ rest) : s.drop (i + mid.length) = rest := by
  have := congrArg (List.drop mid.length) h
  simpa [List.drop_drop] using this

theorem at_of_drop {s rest : List Char} {i : Nat} {c : Char} (h : s.drop i = c :: rest) :
    i < s.length ∧ Basic_string.at_ s i = .ok c := by
  have hi : i < s.length := by
    by_contra hn
    have : s.drop i = [] := List.drop_eq_nil_iff.mpr (by omega)
    rw [this] at h
    exact absurd h (by simp)
  refine ⟨hi, ?_⟩
  have hget : s[i]? = some c := by
    have := congrArg List.head? h
    simpa [List.head?_drop] using this
  unfold Basic_string.at_ Basic_string.size
  rw [if_neg (by omega), List.getD_eq_getElem?_getD, hget]
  rfl

namespace Xml_path

theorem unescape_inner_eq (W : Nat) (s stale rest : List Char) (i : Nat) (hi : i < s.length)
    (h : s.drop (i + 1) = rest) :
    unescape_inner W s stale i special_char_list =
      if ['s', 'l', 'a', 's', 'h'] <+: rest then .ok (some ('/', i + 5))
      else if ['c', 'o', 'l', 'o', 'n'] <+: rest then .ok (some (':', i + 5))
      else if ['e', 'q', 'u', 'a', 'l', 's'] <+: rest then .ok (some ('=', i + 6))
      else if ['a', 'm', 'p'] <+: rest then .ok (some ('&', i + 3))
      else .error Xml_exception.Invalid_syntax := by
  have c1 : ¬ NODE_SEPARATOR.c = NUL := by decide
  have c2 : ¬ ATTR_SEPARATOR.c = NUL := by decide
  have c3 : ¬ VALUE_SEPARATOR.c = NUL := by decide
  have c4 : ¬ ESCAPE.c = NUL := by decide
  have c5 : INVALID.c = NUL := rfl
  have n1 : Basic_string.of_c_str NODE_SEPARATOR.escape_sequence = ['s', 'l', 'a', 's', 'h'] := by
    decide
  have n2 : Basic_string.of_c_str ATTR_SEPARATOR.escape_sequence = ['c', 'o', 'l', 'o', 'n'] := by
    decide
  have n3 : Basic_string.of_c_str VALUE_SEPARATOR.escape_sequence =
      ['e', 'q', 'u', 'a', 'l', 's'] := by decide
  have n4 : Basic_string.of_c_str ESCAPE.escape_sequence = ['a', 'm', 'p'] := by decide
  have l1 : strlen NODE_SEPARATOR.escape_sequence = 5 := by decide
  have l2 : strlen ATTR_SEPARATOR.escape_sequence = 5 := by decide
  have l3 : strlen VALUE_SEPARATOR.escape_sequence = 6 := by decide
  have l4 : strlen ESCAPE.escape_sequence = 3 := by decide
  simp only [special_char_list, unescape_inner, if_neg c1, if_neg c2, if_neg c3, if_neg c4,
    if_pos c5, n1, n2, n3, n4, l1, l2, l3, l4, contains_at_iff W s stale _ rest i hi h]
  rfl

theorem unescape_loop_end (W : Nat) (s stale : List Char) (fuel i : Nat) (result : List Char)
    (h : s.length ≤ i) : unescape_loop W s stale (fuel + 1) i result = some (.ok result) := by
  unfold unescape_loop Basic_string.size
  rw [if_neg (by omega)]

theorem unescape_loop_copy (W : Nat) (s stale rest : List Char) (fuel i : Nat)
    (result : List Char) (c : Char) (h : s.drop i = c :: rest) (hc : c ≠ '&') :
    unescape_loop W s stale (fuel + 1) i result =
      unescape_loop W s stale fuel (i + 1) (result ++ [c]) := by
  obtain ⟨hi, hat⟩ := at_of_drop h
  have hne : ¬ c = ESCAPE.c := hc
  rw [unescape_loop]
  simp only [Basic_string.size, if_pos hi, hat, if_neg hne, Basic_string.push_back]

theorem unescape_loop_escape (W : Nat) (s stale rest : List Char) (fuel i : Nat)
    (result : List Char) (h : s.drop i = '&' :: rest) :
    unescape_loop W s stale (fuel + 1) i result =
      if ['s', 'l', 'a', 's', 'h'] <+: rest then
        unescape_loop W s stale fuel (i + 5 + 1) (result ++ ['/'])
      else if ['c', 'o', 'l', 'o', 'n'] <+: rest then
        unescape_loop W s stale fuel (i + 5 + 1) (result ++ [':'])
      else if ['e', 'q', 'u', 'a', 'l', 's'] <+: rest then
        unescape_loop W s stale fuel (i + 6 + 1) (result ++ ['='])
      else if ['a', 'm', 'p'] <+: rest then
        unescape_loop W s stale fuel (i + 3 + 1) (result ++ ['&'])
      else some (.error Xml_exception.Invalid_syntax) := by
  obtain ⟨hi, hat⟩ := at_of_drop h
  have he : '&' = ESCAPE.c := rfl
  rw [unescape_loop]
  simp only [Basic_string.size, if_pos hi, hat, if_pos he,
    unescape_inner_eq W s stale rest i hi (drop_succ_of_drop h), Basic_string.push_back]
  split_ifs <;> rfl

theorem unescape_loop_run (W : Nat) (stale : List Char) {mid r : List Char}
    (hu : Unescapes mid r) :
    ∀ (s post : List Char) (i : Nat) (result : List Char) (fuel n : Nat),
      s.drop i = mid ++ post → mid.length + n ≤ fuel →
      ∃ fuel1, n ≤ fuel1 ∧ unescape_loop W s stale fuel i result =
        unescape_loop W s stale fuel1 (i + mid.length) (result ++ r) := by
  induction hu with
  | done =>
    intro s post i result fuel n _ hf
    exact ⟨fuel, by simpa using hf, by simp⟩
  | @copy c t r hc _ ih =>
    intro s post i result fuel n h hf
    obtain ⟨f, rfl⟩ : ∃ f, fuel = f + 1 := ⟨fuel - 1, by simp at hf; omega⟩
    have h1 : s.drop i = c :: (t ++ post) := by simpa using h
    obtain ⟨fuel1, hn, e⟩ := ih s post (i + 1) (result ++ [c]) f n (drop_succ_of_drop h1)
      (by simp at hf; omega)
    refine ⟨fuel1, hn, ?_⟩
    rw [unescape_loop_copy W s stale _ f i result c h1 hc, e]
    simp [Nat.add_assoc, Nat.add_comm 1]
  | @slash t r _ ih =>
    intro s post i result fuel n h hf
    obtain ⟨f, rfl⟩ : ∃ f, fuel = f + 1 := ⟨fuel - 1, by simp at hf; omega⟩
    have h1 : s.drop i = '&' :: (['s', 'l', 'a', 's', 'h'] ++ (t ++ post)) := by simpa using h
    have h2 : s.drop (i + 5 + 1) = t ++ post :=
      drop_add_of_drop ['&', 's', 'l', 'a', 's', 'h'] (by simpa using h)
    obtain ⟨fuel1, hn, e⟩ := ih s post (i + 5 + 1) (result ++ ['/']) f n h2
      (by simp at hf; omega)
    refine ⟨fuel1, hn, ?_⟩
    rw [unescape_loop_escape W s stale _ f i result h1, if_pos (List.prefix_append _ _), e]
    have ei : i + 5 + 1 + t.length = i + ('&' :: (['s', 'l', 'a', 's', 'h'] ++ t)).length := by
      simp only [List.length_cons, List.length_append, List.length_nil]
      omega
    rw [ei]
    simp
  | @colon t r _ ih =>
    intro s post i result fuel n h hf
    obtain ⟨f, rfl⟩ : ∃ f, fuel = f + 1 := ⟨fuel - 1, by simp at hf; omega⟩
    have h1 : s.drop i = '&' :: (['c', 'o', 'l', 'o', 'n'] ++ (t ++ post)) := by simpa using h
    have h2 : s.drop (i + 5 + 1) = t ++ post :=
      drop_add_of_drop ['&', 'c', 'o', 'l', 'o', 'n'] (by simpa using h)
    obtain ⟨fuel1, hn, e⟩ := ih s post (i + 5 + 1) (result ++ [':']) f n h2
      (by simp at hf; omega)
    refine ⟨fuel1, hn, ?_⟩
    rw [unescape_loop_escape W s stale _ f i result h1, if_neg (by simp),
      if_pos (List.prefix_append _ _), e]
    have ei : i + 5 + 1 + t.length = i + ('&' :: (['c', 'o', 'l', 'o', 'n'] ++ t)).length := by
      simp only [List.length_cons, List.length_append, List.length_nil]
      omega
    rw [ei]
    simp
  | @equals t r _ ih =>
    intro s post i result fuel n h hf
    obtain ⟨f, rfl⟩ : ∃ f, fuel = f + 1 := ⟨fuel - 1, by simp at hf; omega⟩
    have h1 : s.drop i = '&' :: (['e', 'q', 'u', 'a', 'l', 's'] ++ (t ++ post)) := by
      simpa using h
    have h2 : s.drop (i + 6 + 1) = t ++ post :=
      drop_add_of_drop ['&', 'e', 'q', 'u', 'a', 'l', 's'] (by simpa using h)
    obtain ⟨fuel1, hn, e⟩ := ih s post (i + 6 + 1) (result ++ ['=']) f n h2
      (by simp at hf; omega)
    refine ⟨fuel1, hn, ?_⟩
    rw [unescape_loop_escape W s stale _ f i result h1, if_neg (by simp), if_neg (by simp),
      if_pos (List.prefix_append _ _), e]
    have ei : i + 6 + 1 + t.length = i + ('&' :: (['e', 'q', 'u', 'a', 'l', 's'] ++ t)).length := by
      simp only [List.length_cons, List.length_append, List.length_nil]
      omega
    rw [ei]
    simp
  | @amp t r _ ih =>
    intro s post i result fuel n h hf
    obtain ⟨f, rfl⟩ : ∃ f, fuel = f + 1 := ⟨fuel - 1, by simp at hf; omega⟩
    have h1 : s.drop i = '&' :: (['a', 'm', 'p'] ++ (t ++ post)) := by simpa using h
    have h2 : s.drop (i + 3 + 1) = t ++ post :=
      drop_add_of_drop ['&', 'a', 'm', 'p'] (by simpa using h)
    obtain ⟨fuel1, hn, e⟩ := ih s post (i + 3 + 1) (result ++ ['&']) f n h2
      (by simp at hf; omega)
    refine ⟨fuel1, hn, ?_⟩
    rw [unescape_loop_escape W s stale _ f i result h1, if_neg (by simp), if_neg (by simp),
      if_neg (by simp), if_pos (List.prefix_append _ _), e]
    have ei : i + 3 + 1 + t.length = i + ('&' :: (['a', 'm', 'p'] ++ t)).length := by
      simp only [List.length_cons, List.length_append, List.length_nil]
      omega
    rw [ei]
    simp

theorem unescape_of_Unescapes (W : Nat) (stale : List Char) {s r : List Char}
    (hu : Unescapes s r) : unescape W s stale = some (.ok r) := by
  obtain ⟨fuel1, hn, e⟩ :=
    unescape_loop_run W stale hu s [] 0 [] (s.length + 1) 1 (by simp) (by omega)
  obtain ⟨f, rfl⟩ : ∃ f, fuel1 = f + 1 := ⟨fuel1 - 1, by omega⟩
  unfold unescape
  rw [e, unescape_loop_end W s stale f _ _ (by omega)]
  simp

theorem unescape_of_fails (W : Nat) (stale : List Char) {s : List Char}
    (hf : Unescape_fails s) :
    unescape W s stale = some (.error Xml_exception.Invalid_syntax) := by
  obtain ⟨pre, r, rest, rfl, hu, h1, h2, h3, h4⟩ := hf
  obtain ⟨fuel1, hn, e⟩ := unescape_loop_run W stale hu (pre ++ '&' :: rest) ('&' :: rest) 0 []
    ((pre ++ '&' :: rest).length + 1) 1 (by simp) (by simp)
  obtain ⟨f, rfl⟩ : ∃ f, fuel1 = f + 1 := ⟨fuel1 - 1, by omega⟩
  unfold unescape
  rw [e, unescape_loop_escape W (pre ++ '&' :: rest) stale rest f _ _ (by simp), if_neg h1,
    if_neg h2,
    if_neg h3, if_neg h4]

theorem Unescapes_or_fails : ∀ (n : Nat) (s : List Char), s.length ≤ n →
    (∃ r, Unescapes s r) ∨ Unescape_fails s := by
  intro n
  induction n using Nat.strong_induction_on with
  | _ n ih =>
    intro s hs
    cases s with
    | nil => exact Or.inl ⟨[], .done⟩
    | cons c t =>
      have hlen : t.length < n := by simp at hs; omega
      by_cases hc : c = '&'
      · subst hc
        have step : ∀ (name t1 : List Char) (x : Char), name ++ t1 = t →
            (∀ {a b : List Char}, Unescapes a b → Unescapes ('&' :: (name ++ a)) (x :: b)) →
            (∃ r, Unescapes ('&' :: t) r) ∨ Unescape_fails ('&' :: t) := by
          intro name t1 x e rule
          subst e
          rcases ih t1.length (by simp at hlen; omega) t1 (le_refl _) with ⟨r, hr⟩ | hfail
          · exact Or.inl ⟨x :: r, rule hr⟩
          · obtain ⟨pre, r, rest, e1, hu, hn⟩ := hfail
            exact Or.inr ⟨'&' :: (name ++ pre), x :: r, rest, by simp [e1], rule hu, hn⟩
        by_cases h1 : ['s', 'l', 'a', 's', 'h'] <+: t
        · obtain ⟨t1, e⟩ := h1
          exact step _ t1 '/' e Unescapes.slash
        by_cases h2 : ['c', 'o', 'l', 'o', 'n'] <+: t
        · obtain ⟨t1, e⟩ := h2
          exact step _ t1 ':' e Unescapes.colon
        by_cases h3 : ['e', 'q', 'u', 'a', 'l', 's'] <+: t
        · obtain ⟨t1, e⟩ := h3
          exact step _ t1 '=' e Unescapes.equals
        by_cases h4 : ['a', 'm', 'p'] <+: t
        · obtain ⟨t1, e⟩ := h4
          exact step _ t1 '&' e Unescapes.amp
        exact Or.inr ⟨[], [], t, rfl, .done, h1, h2, h3, h4⟩
      · rcases ih t.length hlen t (le_refl _) with ⟨r, hr⟩ | hfail
        · exact Or.inl ⟨c :: r, .copy c hc hr⟩
        · obtain ⟨pre, r, rest, e1, hu, hn⟩ := hfail
          exact Or.inr ⟨c :: pre, c :: r, rest, by simp [e1], .copy c hc hu, hn⟩

theorem Unescapes_self : ∀ (s : List Char), '&' ∉ s → Unescapes s s := by
  intro s
  induction s with
  | nil => intro _; exact .done
  | cons c t ih =>
    intro h
    simp only [List.mem_cons, not_or] at h
    exact .copy c (fun e => h.1 e.symm) (ih h.2)

end Xml_path

/-- C30. XML path unescape.  For every string `s`, whatever its storage holds behind it and
whatever the size of `size_t`, `Xml_path::unescape( s )` returns `r` if and
only if `r` is `s` read from left to right with every character other than `&` copied and
every `&slash`, `&colon`, `&equals`, `&amp` replaced by `/`, `:`, `=`, `&`; it throws
`Invalid_syntax` if and only if this reading reaches an `&` that is followed by none of the
four names; one of the two always happens (it does not run out of fuel and `at` does not throw
`Out_of_range`); and a string without `&` is returned unchanged. -/
theorem unescape_spec (W : Nat) (s stale : List Char) :
    (∀ r, Xml_path.unescape W s stale = some (.ok r) ↔ Unescapes s r) ∧
    (Xml_path.unescape W s stale = some (.error Xml_exception.Invalid_syntax) ↔
      Unescape_fails s) ∧
    ((∃ r, Xml_path.unescape W s stale = some (.ok r)) ∨
      Xml_path.unescape W s stale = some (.error Xml_exception.Invalid_syntax)) ∧
    ('&' ∉ s → Xml_path.unescape W s stale = some (.ok s)) := by
  refine ⟨?_, ?_, ?_, ?_⟩
  · intro r
    constructor
    · intro h
      rcases Xml_path.Unescapes_or_fails s.length s (le_refl _) with ⟨r1, hr⟩ | hfail
      · have e := Xml_path.unescape_of_Unescapes W stale hr
        rw [h] at e
        have : r = r1 := by simpa using e
        rw [this]
        exact hr
      · have e := Xml_path.unescape_of_fails W stale hfail
        rw [h] at e
        exact absurd e (by simp)
    · exact Xml_path.unescape_of_Unescapes W stale
  · constructor
    · intro h
      rcases Xml_path.Unescapes_or_fails s.length s (le_refl _) with ⟨r1, hr⟩ | hfail
      · have e := Xml_path.unescape_of_Unescapes W stale hr
        rw [h] at e
        exact absurd e (by simp)
      · exact hfail
    · exact Xml_path.unescape_of_fails W stale
  · rcases Xml_path.Unescapes_or_fails s.length s (le_refl _) with ⟨r1, hr⟩ | hfail
    · exact Or.inl ⟨r1, Xml_path.unescape_of_Unescapes W stale hr⟩
    · exact Or.inr (Xml_path.unescape_of_fails W stale hfail)
  · intro h
    exact Xml_path.unescape_of_Unescapes W stale (Xml_path.Unescapes_self s h)

/-- Witness of C30: the attribute value `&equalsbee` of the test path unescapes to `=bee`, the
string `a&b` is rejected because no name follows its `&`, and `www.nu.nl` has no `&` and is
returned unchanged. -/
theorem unescape_spec_witness :
    Xml_path.unescape 8 ['&', 'e', 'q', 'u', 'a', 'l', 's', 'b', 'e', 'e'] [] =
      some (.ok ['=', 'b', 'e', 'e']) ∧
    Unescapes ['&', 'e', 'q', 'u', 'a', 'l', 's', 'b', 'e', 'e'] ['=', 'b', 'e', 'e'] ∧
    Xml_path.unescape 8 ['a', '&', 'b'] [] = some (.error Xml_exception.Invalid_syntax) ∧
    Unescape_fails ['a', '&', 'b'] ∧
    Xml_path.unescape 8 ['w', 'w', 'w', '.', 'n', 'u', '.', 'n', 'l'] [] =
      some (.ok ['w', 'w', 'w', '.', 'n', 'u', '.', 'n', 'l']) :=
  ⟨rfl,
    ((unescape_spec 8 ['&', 'e', 'q', 'u', 'a', 'l', 's', 'b', 'e', 'e'] []).1
      ['=', 'b', 'e', 'e']).mp rfl,
    rfl,
    (unescape_spec 8 ['a', '&', 'b'] []).2.1.mp rfl,
    (unescape_spec 8 ['w', 'w', 'w', '.', 'n', 'u', '.', 'n', 'l'] []).2.2.2 (by decide)⟩

/-! ## The DJB2 hash -/

theorem djb2_step (M h c : Nat) : (((h <<< 5) % M + h) % M + c) % M = (h * 33 + c) % M := by
  rw [Nat.mod_add_mod, Nat.add_assoc, Nat.mod_add_mod, Nat.shiftLeft_eq]
  congr 1
  omega

theorem djb2_fold_mod (M : Nat) : ∀ (b : List Nat) (h : Nat),
    b.foldl (fun h c => (h * 33 + c) % M) (h % M) = b.foldl (fun h c => h * 33 + c) h % M := by
  intro b
  induction b with
  | nil => intro h; rfl
  | cons c t ih =>
    intro h
    rw [List.foldl_cons, List.foldl_cons, ← ih (h * 33 + c)]
    congr 1
    rw [Nat.add_mod, Nat.mul_mod, Nat.mod_mod, ← Nat.mul_mod, ← Nat.add_mod]

/-- C31. DJB2 hash.  `djb2hash( str, len )` is the DJB2 hash of the `len` bytes at `str`: start
from 5381 and replace `h` by `h * 33 + c` for each byte `c` in order, modulo `2^(8W)` at each
step, which is the same as reducing the exact value modulo `2^(8W)` once at the end; the hash of
the empty sequence is 5381 (for `sizeof(size_t)` of at least 2). -/
theorem djb2hash_is_djb2 (W : Nat) (m : Mem) (str len : Nat) :
    djb2hash W m str len = djb2_spec (8 * W) (readBytes m str len) ∧
    djb2hash W m str len =
      (readBytes m str len).foldl (fun h c => h * 33 + c) 5381 % 2 ^ (8 * W) ∧
    djb2hash W m str 0 = 5381 % 2 ^ (8 * W) ∧
    (2 ≤ W → djb2hash W m str 0 = 5381) := by
  have h1 : djb2hash W m str len = djb2_spec (8 * W) (readBytes m str len) := by
    unfold djb2hash djb2_spec readBytes wordMod
    rw [List.foldl_map]
    congr 1
    funext h i
    exact djb2_step _ _ _
  refine ⟨h1, ?_, rfl, ?_⟩
  · rw [h1]
    exact djb2_fold_mod _ _ _
  · intro hW
    show 5381 % wordMod W = 5381
    apply Nat.mod_eq_of_lt
    have : 2 ^ 16 ≤ 2 ^ (8 * W) := Nat.pow_le_pow_right (by omega) (by omega)
    unfold wordMod
    omega

/-! ## The Region view of a payload -/

namespace Property_sequence

theorem _get_loop_first (W : Nat) (s : Property_sequence) (m : Mem) (p t : Nat)
    (ht : t < wordMod W) :
    ∀ (tags : List Nat) (a fuel : Nat) (log : List Assertion), Walk W m a t tags →
      p ∈ tags → tags.length < fuel →
      ∃ i log1 pre post, _get_loop W s m p fuel a log = ⟨log1, .ret i⟩ ∧
        tags = pre ++ p :: post ∧ p ∉ pre ∧ Walk W m a i pre ∧ item.type m i = p ∧
        i + hdr W + item.size W m i ≤ t := by
  intro tags
  induction tags with
  | nil => intro a fuel log _ hp; simp at hp
  | cons q ps ih =>
    intro a fuel log h hp hf
    obtain ⟨h1, h2, h3, h4⟩ := h
    cases fuel with
    | zero => simp at hf
    | succ f =>
      have hne : item.type m a ≠ LAST := by rw [h1]; exact h2
      have hf1 : ps.length < f := by simpa using hf
      by_cases hpq : p = item.type m a
      · refine ⟨a, (if s._mem.end_ W ≥ (a + item.size W m a) % wordMod W then log
          else log ++ [Assertion.mem_end_ge_item_end]), [], ps, ?_, ?_, by simp, rfl,
          hpq.symm, h3⟩
        · rw [_get_loop, iterator_ne_end_true m a hne, if_pos rfl]
          simp only [if_pos hpq]
        · rw [hpq, h1]
          rfl
      · have hps : p ∈ ps := by
          rcases List.mem_cons.mp hp with h | h
          · exact absurd (h.trans h1.symm) hpq
          · exact h
        obtain ⟨i, log1, pre, post, hi, htags, hpre, hwalk, hip, hit⟩ := ih _ f
          (if s._mem.end_ W ≥ (a + item.size W m a) % wordMod W then log
            else log ++ [Assertion.mem_end_ge_item_end]) h4 hps hf1
        have hle := Walk_le W m i pre _ hwalk
        refine ⟨i, log1, q :: pre, post, ?_, by rw [htags]; rfl, ?_, ⟨h1, h2, hle, hwalk⟩,
          hip, hit⟩
        · rw [_get_loop, iterator_ne_end_true m a hne, if_pos rfl]
          simp only [if_neg hpq]
          rw [item_next_exact W m a (by omega), hi]
        · intro hmem
          rcases List.mem_cons.mp hmem with h | h
          · exact hpq (h.trans h1.symm)
          · exact hpre h

end Property_sequence

/-- Region view of a payload while no `size_t` sum wraps: what holds of C32.  For a store made in
fresh mode over a valid Region `mem` and filled by `set` calls that returned normally and whose
sums `item_end` and `tail_end` were exact (`Filled`), and a tag `p` among them: `get<p>` into a
Region returns normally, and the Region it yields starts at `i + sizeof( item )` and has the
length `i->size`, where `i` is the first record of type `p` (the records before it, packed from
the start of `mem` up to `i`, have other types); this Region is an address range inside the
buffer, and `mem.in( .. )` of it is true. -/
theorem get_descriptor_views_payload (W : Nat) (mem : Data_descriptor_mod) (hW : 0 < W)
    (hv : mem.valid = true) (hend : mem._data + mem._size < wordMod W)
    (hN : hdr W ≤ mem._size) (s : Property_sequence) (calls : List Nat) (m : Mem)
    (h : Filled W mem s calls m) (p : Nat) (hp : p ∈ calls) (hp0 : p ≠ LAST) (fuel : Nat)
    (hf : calls.length < fuel) (out : Data_descriptor_mod) :
    ∃ i pre post, calls.filter (fun q => q ≠ LAST) = pre ++ p :: post ∧ p ∉ pre ∧
      Walk W m mem._data i pre ∧ item.type m i = p ∧
      (Property_sequence.get_descriptor W fuel s m p out).1.outcome = .ret () ∧
      (Property_sequence.get_descriptor W fuel s m p out).2 = ⟨i + hdr W, item.size W m i⟩ ∧
      mem._data ≤ i ∧ i + hdr W + item.size W m i ≤ mem._data + mem._size ∧
      mem.in_ W (Property_sequence.get_descriptor W fuel s m p out).2 = true := by
  obtain ⟨hs, t, wf⟩ := Filled_well_formed W mem hW hend hN s calls m h
  subst hs
  have hfits : t + hdr W ≤ mem._data + mem._size := wf.fits
  have hmem : p ∈ calls.filter (fun q => q ≠ LAST) := by
    simp [List.mem_filter, hp, hp0]
  have hlen : (calls.filter (fun q => q ≠ LAST)).length < fuel :=
    lt_of_le_of_lt (List.length_filter_le _ _) hf
  obtain ⟨i, log1, pre, post, hi, htags, hpre, hwalk, hip, hit⟩ :=
    Property_sequence._get_loop_first W ⟨mem, mem._data⟩ m p t (by omega) _ mem._data fuel
      (if p ≠ LAST then [] else [Assertion.p_ne_LAST]) wf.walk hmem hlen
  have hget : Property_sequence._get W fuel ⟨mem, mem._data⟩ m p = ⟨log1, .ret i⟩ := hi
  have hle := Walk_le W m i pre _ hwalk
  have hres := Property_sequence.get_descriptor_of_ret W fuel ⟨mem, mem._data⟩ m p i log1 out
    hget
  refine ⟨i, pre, post, htags, hpre, hwalk, hip, ?_, ?_, hle, by omega, ?_⟩
  · rw [hres]
  · rw [hres]
    rfl
  · rw [hres]
    apply (Data_descriptor_template.in_exact W mem ⟨item.data W i, item.size W m i⟩ hend ?_).mpr
    · have hv1 : mem._data ≠ 0 := by simpa [Data_descriptor_template.valid] using hv
      refine ⟨hv1, ?_, ?_, ?_⟩
      · show i + hdr W ≠ 0
        omega
      · show mem._data ≤ i + hdr W
        omega
      · show i + hdr W + item.size W m i ≤ mem._data + mem._size
        omega
    · show i + hdr W + item.size W m i < wordMod W
      omega

/-- An instance of `get_descriptor_views_payload`: the 64-byte store that holds `set<1>(
0xDEADBEEF )`; `get<1>` into a Region yields the 4 bytes at offset 16 of the buffer. -/
theorem get_descriptor_views_payload_witness :
    Filled 8 buf64 store64 [1] mem64_1 ∧
    (∃ i pre post, [1].filter (fun q => q ≠ LAST) = pre ++ 1 :: post ∧ 1 ∉ pre ∧
      Walk 8 mem64_1 buf64._data i pre ∧ item.type mem64_1 i = 1 ∧
      (Property_sequence.get_descriptor 8 4 store64 mem64_1 1 ⟨0, 0⟩).1.outcome = .ret () ∧
      (Property_sequence.get_descriptor 8 4 store64 mem64_1 1 ⟨0, 0⟩).2 =
        ⟨i + hdr 8, item.size 8 mem64_1 i⟩ ∧
      buf64._data ≤ i ∧ i + hdr 8 + item.size 8 mem64_1 i ≤ buf64._data + buf64._size ∧
      buf64.in_ 8 (Property_sequence.get_descriptor 8 4 store64 mem64_1 1 ⟨0, 0⟩).2 = true) ∧
    (Property_sequence.get_descriptor 8 4 store64 mem64_1 1 ⟨0, 0⟩).2 = ⟨0x1000 + 16, 4⟩ :=
  have hfilled : Filled 8 buf64 store64 [1] mem64_1 :=
    Filled.set 4 1 4 0x100 (Filled.fresh scenario_mem) ⟨0x1000, by decide, by decide⟩
      (by decide)
  ⟨hfilled, get_descriptor_views_payload 8 buf64 (by decide) (by decide) (by decide)
    (by decide) store64 [1] mem64_1 hfilled 1 (by decide) (by decide) 4 (by decide) ⟨0, 0⟩,
    by decide⟩

/-! ## The consumer of shared settings -/

/-- C35. The constructor of `Shared_settings_consumer` builds its store in fresh mode: the
store and the memory it leaves are those of `Property_sequence( const Data_descriptor_mod & )`;
whatever the Region held, afterwards every byte of the Region is 0, and `get<p>` on the
consumer's store throws "Property not found" for every tag `p`, in all three overloads, leaving
the output as it was. -/
theorem consumer_resets_region (W addr size : Nat) (m : Mem) (fuel p n : Nat)
    (out : List Nat) (outd : Data_descriptor_mod) (hfuel : 0 < fuel) :
    (Shared_settings_consumer.construct W addr size m).1.prop =
      (Property_sequence.fresh W ⟨addr, size⟩ m).1 ∧
    (Shared_settings_consumer.construct W addr size m).2 =
      (Property_sequence.fresh W ⟨addr, size⟩ m).2 ∧
    (Shared_settings_consumer.construct W addr size m).1._mem = ⟨addr, size⟩ ∧
    (∀ x, addr ≤ x → x < addr + size →
      (Shared_settings_consumer.construct W addr size m).2 x = 0) ∧
    (Property_sequence.get W fuel (Shared_settings_consumer.construct W addr size m).1.prop
      (Shared_settings_consumer.construct W addr size m).2 p n out).1.outcome =
        .thrown .Property_not_found ∧
    (Property_sequence.get W fuel (Shared_settings_consumer.construct W addr size m).1.prop
      (Shared_settings_consumer.construct W addr size m).2 p n out).2 = out ∧
    (Property_sequence.get_string W fuel
      (Shared_settings_consumer.construct W addr size m).1.prop
      (Shared_settings_consumer.construct W addr size m).2 p out).1.outcome =
        .thrown .Property_not_found ∧
    (Property_sequence.get_descriptor W fuel
      (Shared_settings_consumer.construct W addr size m).1.prop
      (Shared_settings_consumer.construct W addr size m).2 p outd).1.outcome =
        .thrown .Property_not_found := by
  have htype : item.type (Property_sequence.reset W ⟨⟨addr, size⟩, addr⟩ m) addr = LAST := by
    unfold item.type
    rw [Property_sequence.reset_apply, if_pos (Or.inr (Or.inl rfl))]
    rfl
  have hne := iterator_ne_end_false _ _ htype
  obtain ⟨f, hf⟩ : ∃ f, fuel = f + 1 := ⟨fuel - 1, by omega⟩
  have hget : Property_sequence._get W fuel ⟨⟨addr, size⟩, addr⟩
      (Property_sequence.reset W ⟨⟨addr, size⟩, addr⟩ m) p =
      ⟨if p ≠ LAST then [] else [Assertion.p_ne_LAST], .thrown .Property_not_found⟩ := by
    unfold Property_sequence._get
    rw [hf, Property_sequence._get_loop, hne]
    rfl
  refine ⟨rfl, rfl, rfl, ?_, ?_, ?_, ?_, ?_⟩
  · intro x h1 h2
    show Property_sequence.reset W ⟨⟨addr, size⟩, addr⟩ m x = 0
    rw [Property_sequence.reset_apply, if_pos (Or.inl ⟨h1, h2⟩)]
  · show (Property_sequence.get W fuel ⟨⟨addr, size⟩, addr⟩
      (Property_sequence.reset W ⟨⟨addr, size⟩, addr⟩ m) p n out).1.outcome = _
    unfold Property_sequence.get
    rw [hget]
  · show (Property_sequence.get W fuel ⟨⟨addr, size⟩, addr⟩
      (Property_sequence.reset W ⟨⟨addr, size⟩, addr⟩ m) p n out).2 = _
    unfold Property_sequence.get
    rw [hget]
  · show (Property_sequence.get_string W fuel ⟨⟨addr, size⟩, addr⟩
      (Property_sequence.reset W ⟨⟨addr, size⟩, addr⟩ m) p out).1.outcome = _
    unfold Property_sequence.get_string
    rw [hget]
  · show (Property_sequence.get_descriptor W fuel ⟨⟨addr, size⟩, addr⟩
      (Property_sequence.reset W ⟨⟨addr, size⟩, addr⟩ m) p outd).1.outcome = _
    unfold Property_sequence.get_descriptor
    rw [hget]

/-- Witness of C35: the provider stored `set<1>( 0xDEADBEEF )` in the 64-byte Region at
`0x1000`, and a store attached to it finds the property; after the consumer was constructed
over the same Region the first byte of the Region, which was the tag 1, is 0 and `get<1>`
throws "Property not found". -/
theorem consumer_resets_region_witness :
    mem64_1 0x1000 = 1 ∧
    (Property_sequence.get 8 4 (Property_sequence.attach buf64) mem64_1 1 4 []).2 =
      [0xEF, 0xBE, 0xAD, 0xDE] ∧
    (Shared_settings_consumer.construct 8 0x1000 64 mem64_1).2 0x1000 = 0 ∧
    (Property_sequence.get 8 4 (Shared_settings_consumer.construct 8 0x1000 64 mem64_1).1.prop
      (Shared_settings_consumer.construct 8 0x1000 64 mem64_1).2 1 4 []).1.outcome =
        .thrown .Property_not_found :=
  have h := consumer_resets_region 8 0x1000 64 mem64_1 4 1 4 [] ⟨0, 0⟩ (by decide)
  ⟨by decide, by decide, h.2.2.2.1 0x1000 (by decide) (by decide), h.2.2.2.2.1⟩

/-! ## Containment is a preorder -/

/-- C36. Containment is a preorder.  `A.in( A )` is true whenever `A` is valid, and `A.in( B )`
together with `B.in( C )` implies `A.in( C )`, for all descriptors (also for those whose end
wraps around, since `in` compares the same wrapped sums on both sides). -/
theorem in_preorder (W : Nat) (A B C : Data_descriptor_template) :
    (A.valid = true → A.in_ W A = true) ∧
    (A.in_ W B = true → B.in_ W C = true → A.in_ W C = true) := by
  unfold Data_descriptor_template.in_ Data_descriptor_template.data
    Data_descriptor_template.size
  simp only [Bool.and_eq_true, decide_eq_true_eq]
  constructor
  · intro hv
    exact ⟨⟨⟨hv, hv⟩, le_refl _⟩, le_refl _⟩
  · rintro ⟨⟨⟨a1, _⟩, a3⟩, a4⟩ ⟨⟨⟨_, b2⟩, b3⟩, b4⟩
    exact ⟨⟨⟨a1, b2⟩, le_trans a3 b3⟩, le_trans b4 a4⟩

/-- Witness of C36: the 100-byte Region `A` at `0x1000`, `B = A.advance( 10 )` and
`C = B.reduce( 20 )`: `C` is derived from a Region derived from `A` and is contained in `A`. -/
theorem in_preorder_witness :
    Data_descriptor_template.in_ 8 ⟨0x1000, 100⟩ ⟨0x1000, 100⟩ = true ∧
    Data_descriptor_template.in_ 8 ⟨0x1000, 100⟩
      ((Data_descriptor_template.advance 8 ⟨0x1000, 100⟩ 10).reduce 20) = true :=
  ⟨(in_preorder 8 ⟨0x1000, 100⟩ ⟨0x1000, 100⟩ ⟨0x1000, 100⟩).1 (by decide),
    (in_preorder 8 ⟨0x1000, 100⟩ (Data_descriptor_template.advance 8 ⟨0x1000, 100⟩ 10)
      ((Data_descriptor_template.advance 8 ⟨0x1000, 100⟩ 10).reduce 20)).2 (by decide)
      (by decide)⟩

/-! ## String search -/

/-- C33, the code at the failing input.  The string `s` is the one character `a`, made by a
constructor, and the pattern `p` is the two characters `a`, `'\0'`, which is longer than `s`.
`s.find( p, 0 )` sets `diff` to 0, compares `p.size() = 2` characters from `s.data()` on, of
which the second is the `'\0'` that the storage holds past the end of `s`, and returns 0 and
not `npos`, although no index `i` has `i + 2 ≤ s.size()`. -/
theorem find_matches_past_the_end :
    Basic_string.find 8 ['a'] [] ['a', NUL] 0 = some 0 ∧
    Basic_string.size ['a'] < Basic_string.size ['a', NUL] ∧
    (0 : Nat) ≠ Basic_string.npos 8 ∧
    ¬ (0 + Basic_string.size ['a', NUL] ≤ Basic_string.size ['a']) := by
  decide

theorem find_last_not_of_loop_blank (W data : Nat) : ∀ (fuel i : Nat),
    Basic_string.find_last_not_of_loop W (fun _ => 32) data whitespace fuel i = none := by
  intro fuel
  induction fuel with
  | zero => intro i; rfl
  | succ f ih =>
    intro i
    have h : Basic_string.Char_set_has_member whitespace 32 = true := by decide
    rw [Basic_string.find_last_not_of_loop]
    simp only [h, Bool.not_true]
    exact ih _

/-- C34, the code at the failing input.  The string is the two blanks at `0x200` and the set is
`" \t\n\r"`, so no index of the string holds a character outside the set and the result should
be `npos`.  The loop test `i >= 0` is always true for the `size_t` `i`: after index 0 the loop
goes on to `i = 2^64 - 1`, which is the byte before the string.  In `blank_mem`, where that byte
is a blank and the one before it is 65, the call returns `2^64 - 2`, which is neither `npos`
nor an index of the string; the empty string at `0x1FF` gives `npos` only because the byte
read before it is not in the set; and in a memory that holds blanks everywhere the loop never
ends, whatever the fuel. -/
theorem find_last_not_of_leaves_string :
    Basic_string.find_last_not_of 8 4 blank_mem 0x200 2 whitespace = some (2 ^ 64 - 2) ∧
    Basic_string.npos 8 = 2 ^ 64 - 1 ∧
    readBytes blank_mem 0x200 2 = [32, 32] ∧
    Basic_string.Char_set_has_member whitespace 32 = true ∧
    Basic_string.find_last_not_of 8 4 blank_mem 0x1FF 0 whitespace = some (2 ^ 64 - 1) ∧
    (∀ fuel, Basic_string.find_last_not_of 8 fuel (fun _ => 32) 0x200 2 whitespace = none) :=
  ⟨by decide, by decide, by decide, by decide, by decide,
    fun fuel => find_last_not_of_loop_blank 8 0x200 fuel _⟩

/-! ## Hex decoding -/

/-- C38, the code at the failing input.  `hex_to_ustring( "zz" )` should return the empty byte
string, since `z` is not a hexadecimal digit.  `HEX_DIGITS.find` returns `npos` for it, the
initialiser cuts this down to the 8-bit value 255, and the comparison `hc == ustring::npos`
of 255 with `2^64 - 1` is false: the function returns the one byte 255.  Likewise `"1g"` gives
the byte 255.  Well-formed input is decoded (`"1aF0"` gives `0x1A`, `0xF0`) and input of odd
length gives the empty byte string. -/
theorem hex_to_ustring_accepts_non_digits :
    hex_to_ustring 8 ['z', 'z'] = some (.ok [255]) ∧
    hex_value 8 ['z', 'z'] 0 = some (.ok 255) ∧
    Basic_string.find_char 8 HEX_DIGITS (_upcase 'z') 0 = some (.ok (Basic_string.npos 8)) ∧
    hex_to_ustring 8 ['1', 'g'] = some (.ok [255]) ∧
    hex_to_ustring 8 ['1', 'a', 'F', '0'] = some (.ok [0x1A, 0xF0]) ∧
    hex_to_ustring 8 ['1'] = some (.ok []) :=
  ⟨rfl, rfl, rfl, rfl, rfl, rfl⟩

/-! ## Set equality -/

namespace List_set

theorem exists_iff {T : Type} [DecidableEq T] (item : T) : ∀ (l : List T),
    exists_ l item = true ↔ item ∈ l := by
  intro l
  induction l with
  | nil => simp [exists_, find]
  | cons x xs ih =>
    unfold exists_ at ih ⊢
    unfold find
    by_cases h : x = item
    · simp [h]
    · rw [if_neg h]
      cases hf : find xs item with
      | none =>
        rw [hf] at ih
        have hn : item ∉ xs := fun hm => absurd (ih.mpr hm) (by simp)
        simp [hn, Ne.symm h]
      | some k =>
        rw [hf] at ih
        have hm : item ∈ xs := ih.mp rfl
        simp [hm]

theorem eq_iff {T : Type} [DecidableEq T] (a b : List T) :
    eq a b = true ↔ a.length = b.length ∧ ∀ x, x ∈ a → x ∈ b := by
  unfold eq
  by_cases h : a.length = b.length
  · simp [h, List.all_eq_true, exists_iff]
  · simp [h]

theorem eq_iff_perm {T : Type} [DecidableEq T] (a b : List T) (ha : a.Nodup) :
    eq a b = true ↔ a.Perm b := by
  rw [eq_iff]
  constructor
  · rintro ⟨hlen, hsub⟩
    exact (List.subperm_of_subset ha hsub).perm_of_length_le (by omega)
  · intro hp
    exact ⟨hp.length_eq, fun x hx => hp.subset hx⟩

end List_set

/-- C39, the code at the failing input.  `a` is built by `insert( 1 )`, `insert( 1 )` and `b` by
`insert( 1 )`, `insert( 2 )`: `insert` is `push_back` and does not look whether the element
exists already.  Both have size 2 and every element of `a` exists in `b`, so `a == b` is true,
although 2 is in `b` and not in `a`; and `b == a` is false, so `==` is not symmetric. -/
theorem set_equality_not_symmetric :
    List_set.eq (List_set.insert (List_set.insert ([] : List Nat) 1) 1)
      (List_set.insert (List_set.insert ([] : List Nat) 1) 2) = true ∧
    List_set.eq (List_set.insert (List_set.insert ([] : List Nat) 1) 2)
      (List_set.insert (List_set.insert ([] : List Nat) 1) 1) = false ∧
    List_set.exists_ (List_set.insert (List_set.insert ([] : List Nat) 1) 2) 2 = true ∧
    List_set.exists_ (List_set.insert (List_set.insert ([] : List Nat) 1) 1) 2 = false := by
  decide

/-- Set equality on sets that hold no element twice: what holds of C39.  For `a` and `b` built by
`insert` calls that each added an element that did not exist yet: `a == b` holds exactly when `a`
and `b` contain the same elements, `a == b` and `b == a` agree, and `a != b` is the negation of `a
== b`. -/
theorem set_equality_without_duplicates {T : Type} [DecidableEq T] (a b : List T)
    (ha : a.Nodup) (hb : b.Nodup) :
    (List_set.eq a b = true ↔ ∀ x, List_set.exists_ a x = true ↔ List_set.exists_ b x = true) ∧
    List_set.eq a b = List_set.eq b a ∧
    List_set.ne a b = !(List_set.eq a b) := by
  have h1 : List_set.eq a b = true ↔ ∀ x, x ∈ a ↔ x ∈ b := by
    rw [List_set.eq_iff_perm a b ha]
    exact List.perm_ext_iff_of_nodup ha hb
  refine ⟨?_, ?_, rfl⟩
  · simpa [List_set.exists_iff] using h1
  · rw [Bool.eq_iff_iff, List_set.eq_iff_perm a b ha, List_set.eq_iff_perm b a hb]
    exact ⟨List.Perm.symm, List.Perm.symm⟩

/-- An instance of `set_equality_without_duplicates`: the sets built by `insert( 1 )`, `insert( 2
)` and by `insert( 2 )`, `insert( 1 )` are equal in both directions. -/
theorem set_equality_without_duplicates_witness :
    List_set.eq (List_set.insert (List_set.insert ([] : List Nat) 1) 2)
      (List_set.insert (List_set.insert ([] : List Nat) 2) 1) =
    List_set.eq (List_set.insert (List_set.insert ([] : List Nat) 2) 1)
      (List_set.insert (List_set.insert ([] : List Nat) 1) 2) ∧
    List_set.eq (List_set.insert (List_set.insert ([] : List Nat) 1) 2)
      (List_set.insert (List_set.insert ([] : List Nat) 2) 1) = true :=
  ⟨(set_equality_without_duplicates (List_set.insert (List_set.insert ([] : List Nat) 1) 2)
    (List_set.insert (List_set.insert ([] : List Nat) 2) 1) (by decide) (by decide)).2.1,
    by decide⟩


/-! ## Substring search and split -/

theorem strcmp_short : ∀ (pattern str : List Char), str.length < pattern.length →
    NUL ∉ pattern → strcmp str pattern pattern.length ≠ 0 := by
  intro pattern
  induction pattern with
  | nil => intro str h; simp at h
  | cons a p ih =>
    intro str hlen hnul
    simp only [List.mem_cons, not_or] at hnul
    cases str with
    | nil =>
      simp only [List.length_cons, strcmp, List.headD_nil, List.headD_cons]
      rw [if_pos hnul.1]
      exact Char_sub_ne_zero NUL a hnul.1
    | cons b r =>
      simp only [List.length_cons, strcmp, List.headD_cons, List.tail_cons]
      by_cases hab : b = a
      · subst hab
        simp only [ne_eq, not_true_eq_false, if_false]
        exact ih r (by simpa using hlen) hnul.2
      · rw [if_pos hab]
        exact Char_sub_ne_zero b a hab

theorem range_map_getD (l : List Char) (n : Nat) (h : n ≤ l.length) :
    (List.range n).map (fun k => l.getD k NUL) = l.take n := by
  apply List.ext_getElem
  · simp [h]
  · intro i h1 h2
    simp at h1 h2
    simp [List.getD_eq_getElem?_getD, List.getElem?_eq_getElem (show i < l.length by omega)]

theorem prefix_of_infix_take (str delim : List Char) (curr l : Nat)
    (hl : curr + l ≤ str.length) (hin : delim <:+: (str.drop curr).take l) :
    ∃ j, curr ≤ j ∧ j + delim.length ≤ curr + l ∧ delim <+: str.drop j := by
  obtain ⟨a, b, e⟩ := hin
  have hlen : a.length + delim.length + b.length = l := by
    have := congrArg List.length e
    simp only [List.length_append, List.length_take, List.length_drop] at this
    omega
  refine ⟨curr + a.length, by omega, by omega, ?_⟩
  have h1 : str.drop curr = a ++ (delim ++ (b ++ (str.drop curr).drop l)) := by
    rw [← List.append_assoc, ← List.append_assoc, e, List.take_append_drop]
  have h2 := congrArg (List.drop a.length) h1
  rw [List.drop_drop, List.drop_left] at h2
  exact ⟨_, h2.symm⟩

namespace Basic_string

theorem find_loop_spec (W : Nat) (s pattern : List Char) (diff : Nat)
    (hd : diff + pattern.length = s.length) :
    ∀ (fuel pos : Nat), diff + 1 - pos < fuel →
      ∃ r, find_loop W s [] pattern diff fuel pos = some r ∧
        ((r = npos W ∧ ∀ j, pos ≤ j → j ≤ diff → ¬ pattern <+: s.drop j) ∨
          (pos ≤ r ∧ r ≤ diff ∧ pattern <+: s.drop r ∧
            ∀ j, pos ≤ j → j < r → ¬ pattern <+: s.drop j)) := by
  intro fuel
  induction fuel with
  | zero => intro pos h; omega
  | succ f ih =>
    intro pos h
    rw [find_loop, List.append_nil]
    by_cases hp : pos ≤ diff
    · rw [if_pos hp]
      have hm := strcmp_eq_zero_iff pattern (s.drop pos) (by rw [List.length_drop]; omega)
      by_cases hz : strcmp (s.drop pos) pattern (size pattern) = 0
      · rw [if_pos hz]
        exact ⟨pos, rfl, Or.inr ⟨le_refl _, hp, hm.mp hz, fun j h1 h2 => by omega⟩⟩
      · rw [if_neg hz]
        obtain ⟨r, hr, hcase⟩ := ih (pos + 1) (by omega)
        refine ⟨r, hr, ?_⟩
        have hno : ¬ pattern <+: s.drop pos := fun e => hz (hm.mpr e)
        rcases hcase with ⟨h1, h2⟩ | ⟨h1, h2, h3, h4⟩
        · refine Or.inl ⟨h1, fun j hj1 hj2 => ?_⟩
          by_cases e : j = pos
          · rw [e]; exact hno
          · exact h2 j (by omega) hj2
        · refine Or.inr ⟨by omega, h2, h3, fun j hj1 hj2 => ?_⟩
          by_cases e : j = pos
          · rw [e]; exact hno
          · exact h4 j (by omega) hj2
    · rw [if_neg hp]
      exact ⟨npos W, rfl, Or.inl ⟨rfl, fun j h1 h2 => by omega⟩⟩

theorem find_spec (W : Nat) (s pattern : List Char) (pos : Nat)
    (h : pattern.length ≤ s.length ∨ NUL ∉ pattern) :
    ∃ r, find W s [] pattern pos = some r ∧
      ((r = npos W ∧
          ∀ j, pos ≤ j → j + pattern.length ≤ s.length → ¬ pattern <+: s.drop j) ∨
        (pos ≤ r ∧ r + pattern.length ≤ s.length ∧ pattern <+: s.drop r ∧
          ∀ j, pos ≤ j → j < r → ¬ pattern <+: s.drop j)) := by
  unfold find size
  by_cases hlt : s.length < pattern.length
  · rw [if_pos hlt]
    have hnul : NUL ∉ pattern := by
      rcases h with h | h
      · omega
      · exact h
    refine ⟨npos W, ?_, Or.inl ⟨rfl, fun j _ hj => by omega⟩⟩
    show find_loop W s [] pattern 0 (s.length + 1 + 1) pos = _
    cases pos with
    | zero =>
      have hz : ¬ strcmp s pattern (size pattern) = 0 := strcmp_short pattern s hlt hnul
      rw [find_loop, if_pos (le_refl 0), List.drop_zero, List.append_nil, if_neg hz, find_loop,
        if_neg (by omega)]
    | succ q => rw [find_loop, if_neg (by omega)]
  · rw [if_neg hlt]
    obtain ⟨r, hr, hcase⟩ := find_loop_spec W s pattern (s.length - pattern.length)
      (by omega) (s.length + 2) pos (by omega)
    refine ⟨r, hr, ?_⟩
    rcases hcase with ⟨h1, h2⟩ | ⟨h1, h2, h3, h4⟩
    · exact Or.inl ⟨h1, fun j hj1 hj2 => h2 j hj1 (by omega)⟩
    · exact Or.inr ⟨h1, by omega, h3, h4⟩

theorem substr_eq (W : Nat) (s : List Char) (pos len : Nat) (h : pos + len ≤ s.length)
    (hs : s.length < npos W) : substr W s [] pos len = (s.drop pos).take len := by
  have hM : npos W = wordMod W - 1 := rfl
  have h1 : ¬ npos W = len := by omega
  have h2 : ¬ (pos + len) % wordMod W > size s := by
    rw [Nat.mod_eq_of_lt (by omega)]
    unfold size
    omega
  unfold substr
  simp only [if_neg h1, if_neg h2, List.append_nil]
  exact range_map_getD _ _ (by rw [List.length_drop]; omega)

end Basic_string


theorem split_loop_spec (W : Nat) (str delim : List Char) (hne : delim ≠ [])
    (hnul : NUL ∉ delim) (hsz : str.length + delim.length < Basic_string.npos W) :
    ∀ (fuel curr : Nat), curr ≤ str.length → str.length - curr < fuel →
      ∃ pieces, pieces ≠ [] ∧
        (∀ res, split_loop W str [] delim true fuel curr res = some (res ++ pieces)) ∧
        (∀ res, split_loop W str [] delim false fuel curr res =
          some (res ++ pieces.filter (fun p => p ≠ []))) ∧
        delim.intercalate pieces = str.drop curr ∧
        ∀ p ∈ pieces, ¬ delim <:+: p := by
  have hk : 0 < delim.length := List.length_pos.mpr hne
  have hM : Basic_string.npos W = wordMod W - 1 := rfl
  intro fuel
  induction fuel with
  | zero => intro curr _ h; omega
  | succ f ih =>
    intro curr hc hf
    obtain ⟨r, hr, hcase⟩ := Basic_string.find_spec W str delim curr (Or.inr hnul)
    rcases hcase with ⟨hnp, hno⟩ | ⟨h1, h2, h3, h4⟩
    · have hlen : Data_descriptor_template.size_sub W (Basic_string.size str) curr =
          str.length - curr :=
        Data_descriptor_template.size_sub_exact W _ _ hc (by unfold Basic_string.size; omega)
      have hsub : Basic_string.substr W str [] curr (str.length - curr) = str.drop curr := by
        rw [Basic_string.substr_eq W str curr _ (by omega) (by omega),
          List.take_of_length_le (by rw [List.length_drop])]
      have hlen0 : (str.length - curr != 0) = decide (str.drop curr ≠ []) := by
        by_cases e : str.length - curr = 0
        · have : str.drop curr = [] := List.drop_eq_nil_iff.mpr (by omega)
          simp [e, this]
        · have : str.drop curr ≠ [] := fun e1 => e (by
            have := List.drop_eq_nil_iff.mp e1
            omega)
          simp [e, this]
      refine ⟨[str.drop curr], by simp, ?_, ?_, ?_, ?_⟩
      · intro res
        simp only [split_loop, hr, hnp, if_pos, hlen, hsub, Bool.true_or, if_true, ne_eq,
          not_true_eq_false, if_false]
      · intro res
        simp only [split_loop, hr, hnp, if_pos, hlen, hsub, Bool.false_or, hlen0, ne_eq,
          not_true_eq_false, if_false, List.filter_cons, List.filter_nil]
        by_cases e : str.drop curr = []
        · simp [e]
        · simp [e]
      · simp [List.intercalate, List.intersperse]
      · intro p hp hin
        rw [List.mem_singleton] at hp
        subst hp
        rw [← List.take_of_length_le (show (str.drop curr).length ≤ str.length - curr by
          rw [List.length_drop])] at hin
        obtain ⟨j, hj1, hj2, hj3⟩ :=
          prefix_of_infix_take str delim curr (str.length - curr) (by omega) hin
        exact hno j hj1 (by omega) hj3
    · have hrn : r ≠ Basic_string.npos W := by omega
      have hlen : Data_descriptor_template.size_sub W r curr = r - curr :=
        Data_descriptor_template.size_sub_exact W _ _ h1 (by omega)
      have hsub : Basic_string.substr W str [] curr (r - curr) =
          (str.drop curr).take (r - curr) :=
        Basic_string.substr_eq W str curr _ (by omega) (by omega)
      have hadd : Data_descriptor_template.size_add W r (Basic_string.size delim) =
          r + delim.length :=
        Data_descriptor_template.size_add_exact W _ _ (by unfold Basic_string.size; omega)
      have hplen : ((str.drop curr).take (r - curr)).length = r - curr := by
        rw [List.length_take, List.length_drop]
        omega
      have hlen0 : (r - curr != 0) = decide ((str.drop curr).take (r - curr) ≠ []) := by
        by_cases e : r - curr = 0
        · simp [e]
        · have : (str.drop curr).take (r - curr) ≠ [] := fun e1 => e (by
            rw [e1] at hplen
            simpa using hplen.symm)
          simp [e, this]
      obtain ⟨pieces, hpne, htrue, hfalse, hjoin, hinf⟩ := ih (r + delim.length) h2 (by omega)
      refine ⟨(str.drop curr).take (r - curr) :: pieces, by simp, ?_, ?_, ?_, ?_⟩
      · intro res
        simp only [split_loop, hr, eq_false hrn, if_false, hlen, hsub, Bool.true_or, if_true,
          ne_eq, not_false_eq_true, hadd, htrue, List.append_assoc, List.singleton_append]
      · intro res
        simp only [split_loop, hr, eq_false hrn, if_false, hlen, hsub, Bool.false_or, hlen0,
          ne_eq, not_false_eq_true, if_true, hadd, hfalse, List.filter_cons]
        by_cases e : (str.drop curr).take (r - curr) = []
        · simp [e]
        · simp [e]
      · obtain ⟨q, qs, rfl⟩ : ∃ q qs, pieces = q :: qs := by
          cases pieces with
          | nil => exact absurd rfl hpne
          | cons q qs => exact ⟨q, qs, rfl⟩
        have hcons : delim.intercalate ((str.drop curr).take (r - curr) :: q :: qs) =
            (str.drop curr).take (r - curr) ++ (delim ++ delim.intercalate (q :: qs)) := by
          simp [List.intercalate, List.intersperse]
        rw [hcons, hjoin]
        obtain ⟨t, ht⟩ := h3
        have ht2 : str.drop (r + delim.length) = t := by
          have := congrArg (List.drop delim.length) ht
          rw [List.drop_left, List.drop_drop] at this
          exact this.symm
        rw [ht2, ht]
        have h5 : (str.drop curr).drop (r - curr) = str.drop r := by
          rw [List.drop_drop]
          congr 1
          omega
        rw [← h5, List.take_append_drop]
      · intro p hp hin
        rcases List.mem_cons.mp hp with e | e
        · subst e
          obtain ⟨j, hj1, hj2, hj3⟩ :=
            prefix_of_infix_take str delim curr (r - curr) (by omega) hin
          exact h4 j hj1 (by omega) hj3
        · exact hinf p e hin

/-- The `split` round trip for a string made by a constructor: what holds of C37.  For a
string whose storage holds `'\0'` behind it, a non-empty delimiter without `'\0'` (and a string
and delimiter whose sizes fit into `size_t`), `split( str, delim, true )` returns with a
non-empty list of pieces: no piece contains `delim` as a substring, and the pieces joined by `delim`
give `str`; `split( str, delim, false )` returns the same pieces in the same order without the
empty ones. -/
theorem split_round_trip (W : Nat) (str delim : List Char) (hne : delim ≠ [])
    (hnul : NUL ∉ delim) (hsz : str.length + delim.length < Basic_string.npos W) :
    ∃ pieces, split W str [] delim true = some pieces ∧ pieces ≠ [] ∧
      (∀ p ∈ pieces, ¬ delim <:+: p) ∧
      delim.intercalate pieces = str ∧
      split W str [] delim false = some (pieces.filter (fun p => p ≠ [])) := by
  obtain ⟨pieces, hpne, htrue, hfalse, hjoin, hinf⟩ :=
    split_loop_spec W str delim hne hnul hsz (str.length + 1) 0 (Nat.zero_le _) (by omega)
  refine ⟨pieces, ?_, hpne, hinf, by simpa using hjoin, ?_⟩
  · unfold split Basic_string.size
    rw [htrue]
    rfl
  · unfold split Basic_string.size
    rw [hfalse]
    rfl

/-- An instance of `split_round_trip`: `a,b,,c` split at `,` gives `a`, `b`, the empty string and
`c`, and without the empty strings `a`, `b` and `c`. -/
theorem split_round_trip_witness :
    (∃ pieces, split 8 ['a', ',', 'b', ',', ',', 'c'] [] [','] true = some pieces ∧ pieces ≠ [] ∧
      (∀ p ∈ pieces, ¬ [','] <:+: p) ∧
      [','].intercalate pieces = ['a', ',', 'b', ',', ',', 'c'] ∧
      split 8 ['a', ',', 'b', ',', ',', 'c'] [] [','] false =
        some (pieces.filter (fun p => p ≠ []))) ∧
    split 8 ['a', ',', 'b', ',', ',', 'c'] [] [','] true = some [['a'], ['b'], [], ['c']] ∧
    split 8 ['a', ',', 'b', ',', ',', 'c'] [] [','] false = some [['a'], ['b'], ['c']] :=
  ⟨split_round_trip 8 ['a', ',', 'b', ',', ',', 'c'] [','] (by decide) (by decide)
    (by decide), by decide, by decide⟩

/-- C37, the code at the failing input.  The string is `s( "ab" )` after `s.erase( 1 )`: its
size is 1, its one character is `a`, and the `b` erased is still in the storage behind it.  The
delimiter is `ab`, which is not empty and holds no `'\0'`.  `find( delim, 0 )` sets `diff` to 0
since the string is shorter than the delimiter, compares 2 characters from `data()` on and
returns 0 and not `npos`.  `split` pushes `substr( 0, 0 )`, sets `curr` to 2, gets `npos` from
the next `find`, computes `len = size() - curr`, which wraps to `2^64 - 1`, and pushes
`substr( 2, 2^64 - 1 )`, a string of `2^64 - 1` characters copied from `data() + 2` on.  The
pieces are the empty string and that string, where the one piece `a` is due; the string `a`
made by a constructor does give the one piece `a`. -/
theorem split_after_erase_overruns :
    Basic_string.erase ['a', 'b'] [] 1 = (['a'], ['b']) ∧
    Basic_string.find 8 ['a'] ['b'] ['a', 'b'] 0 = some 0 ∧
    Basic_string.find 8 ['a'] ['b'] ['a', 'b'] 2 = some (Basic_string.npos 8) ∧
    split 8 ['a'] ['b'] ['a', 'b'] true =
      some [[], Basic_string.substr 8 ['a'] ['b'] 2 (2 ^ 64 - 1)] ∧
    Basic_string.size (Basic_string.substr 8 ['a'] ['b'] 2 (2 ^ 64 - 1)) = 2 ^ 64 - 1 ∧
    split 8 ['a'] ['b'] ['a', 'b'] true ≠ some [['a']] ∧
    split 8 ['a'] [] ['a', 'b'] true = some [['a']] := by
  have h4 : split 8 ['a'] ['b'] ['a', 'b'] true =
      some [[], Basic_string.substr 8 ['a'] ['b'] 2 (2 ^ 64 - 1)] := rfl
  refine ⟨by decide, by decide, by decide, h4, ?_, ?_, by decide⟩
  · unfold Basic_string.substr Basic_string.size
    rw [List.length_map, List.length_range]
    decide
  · rw [h4]
    simp

/-! ## Calls of `set` whose `size_t` sums wrap

On a target with `sizeof(size_t) = 4` and the 64-byte Region at `0xF0000000`, a payload length
close to `2^32` makes `item_end = last + sizeof( *last ) + size` wrap to an address at or below
`_mem.end()`: both bounds checks of `_set` pass and the call returns normally.  The new
terminator is then written at the wrapped address, on
top of or below the records stored before.  The theorems of this section evaluate the code on
such histories. -/

end Csl
